import Mathlib

/-!
# SystemInspector (`inspector.c`): tokenizer, line reader, metrics, task list, views

A shallow embedding of the parts of `inspector.c` that the specification talks
about, followed by the theorems that settle the specification's claims.

Memory is a list of bytes (`List Char`); a pointer into a buffer is an offset
into that list; the NULL pointer is `none`.  A C string is the run of bytes from
a pointer up to (not including) the first NUL byte.
-/

namespace Inspector

/-! ## C strings and the libc helpers used by `next_token` -/

/-- The byte that terminates a C string. -/
def NUL : Char := Char.ofNat 0

/-- The C string that starts at the head of a memory region: the bytes before
the first NUL (a region without a NUL is read to its end). -/
def cstr (m : List Char) : List Char :=
  m.takeWhile (fun c => c != NUL)

/-- Model of libc `strspn(s, accept)`: the length of the longest prefix of the C
string `s` all of whose bytes occur in the C string `accept`. -/
def strspn (s accept : List Char) : Nat :=
  ((cstr s).takeWhile (fun c => decide (c ∈ cstr accept))).length

/-- Model of libc `strcspn(s, reject)`: the length of the longest prefix of the C
string `s` none of whose bytes occurs in the C string `reject`. -/
def strcspn (s reject : List Char) : Nat :=
  ((cstr s).takeWhile (fun c => !decide (c ∈ cstr reject))).length

/-! ## `next_token` (inspector.c, lines 101-137) -/

/-- The state `next_token` works on: the text buffer, which it mutates, and the
caller's cursor `*str_ptr` (an offset into the buffer, or NULL). -/
structure TokState where
  buf : List Char
  ptr : Option Nat
deriving DecidableEq, Repr

/-- Embedding of `next_token(char **str_ptr, const char *delim)`.  The first
component is the returned pointer (`none` for NULL), the second is the buffer and
the cursor after the call. -/
def next_token (st : TokState) (delim : List Char) : Option Nat × TokState :=
  match st.ptr with
  | none => (none, st)
  | some p =>
    let tok_start := strspn (st.buf.drop p) delim
    let tok_end := strcspn (st.buf.drop (p + tok_start)) delim
    if tok_end = 0 then
      (none, { st with ptr := none })
    else
      let current_ptr := p + tok_start
      let q := p + (tok_start + tok_end)
      if st.buf.getD q NUL = NUL then
        (some current_ptr, { st with ptr := none })
      else
        (some current_ptr, { buf := st.buf.set q NUL, ptr := some (q + 1) })

/-- The C string a returned pointer designates in a buffer. -/
def tokenAt (buf : List Char) (p : Nat) : List Char :=
  cstr (buf.drop p)

/-- The callers' loop `while ((tok = next_token(&cur, delim)) != NULL) ...`:
it collects the text of every token at the moment it is returned, and stops at
the first NULL.  `fuel` bounds the number of calls; `none` means the bound was
reached before `next_token` returned NULL. -/
def token_loop : Nat → TokState → List Char → Option (List (List Char) × TokState)
  | 0, _, _ => none
  | fuel + 1, st, delim =>
    match next_token st delim with
    | (none, st1) => some ([], st1)
    | (some p, st1) =>
      match token_loop fuel st1 delim with
      | none => none
      | some (ts, st2) => some (tokenAt st1.buf p :: ts, st2)

/-- The reference meaning of tokenizing: split `s` at every byte of `D` and drop
the empty pieces. -/
def splitTokens (D s : List Char) : List (List Char) :=
  (s.splitOnP (fun c => decide (c ∈ D))).filter (fun t => !t.isEmpty)

/-- Gaps and tokens in turn: `g0 ++ t1 ++ g1 ++ ... ++ tn ++ gn`. -/
def weave : List (List Char) → List (List Char) → List Char
  | g :: gs, t :: ts => g ++ t ++ weave gs ts
  | g :: _, [] => g
  | [], _ => []

/-- The canonical form of a token list: the tokens joined by single `d`s. -/
def joinTokens (d : Char) (ts : List (List Char)) : List Char :=
  List.intercalate [d] ts

/-! ## C `int` arithmetic -/

/-- Two's-complement wrap of a mathematical integer into the 32-bit `int`. -/
def wrap32 (x : Int) : Int :=
  (x + 2147483648) % 4294967296 - 2147483648

/-- C `a - b` on `int`. -/
def isub (a b : Int) : Int := wrap32 (a - b)

/-- C `a * b` on `int`. -/
def imul (a b : Int) : Int := wrap32 (a * b)

/-- C `a / b` on `int` for a nonzero constant divisor: the quotient is
truncated toward zero. -/
def idiv (a b : Int) : Int := wrap32 (Int.tdiv a b)

/-! ## Uptime decomposition and rendering in `sys_info` (lines 163-206) -/

/-- The five locals `y, d, h, m, s` of `sys_info`. -/
structure Uptime where
  y : Int
  d : Int
  h : Int
  m : Int
  s : Int
deriving DecidableEq, Repr

/-- Lines 166-174 of `sys_info`: the statements that turn `time` (the result of
`atoi`) into years, days, hours, minutes and seconds. -/
def uptime_split (time : Int) : Uptime :=
  let y := idiv (idiv (idiv (idiv time 60) 60) 24) 365
  let time := isub time (imul (imul (imul (imul y 60) 60) 24) 365)
  let d := idiv time (imul (imul 24 60) 60)
  let time := isub time (imul (imul (imul d 24) 60) 60)
  let h := idiv time 3600
  let time := isub time (imul h 3600)
  let m := idiv time 60
  let time := isub time (imul m 60)
  let s := time
  { y := y, d := d, h := h, m := m, s := s }

/-- One `printf` call: the format string and its `int` arguments. -/
structure PrintfCall where
  fmt : String
  args : List Int
deriving DecidableEq, Repr

/-- Lines 176-206 of `sys_info`: the `printf` calls that render the uptime, in
the order they are executed. -/
def uptime_printfs (u : Uptime) : List PrintfCall :=
  if u.y = 0 then
    if u.d = 0 then
      if u.h = 0 then
        [⟨"%d minutes, %d seconds\n", [u.m, u.s]⟩]
      else
        [⟨"%d hours, %d minutes, %d seconds\n", [u.h, u.m, u.s]⟩]
    else
      if u.h = 0 then
        [⟨" %d days, %d minutes, %d seconds\n", [u.d, u.m, u.s]⟩]
      else
        [⟨"%d days, %d hours, %d minutes, %d seconds\n", [u.d, u.h, u.m, u.s]⟩]
  else
    ⟨"%d years, ", [u.y]⟩ ::
    (if u.d = 0 then
      if u.h = 0 then
        [⟨"%d minutes, %d seconds\n", [u.m, u.s]⟩]
      else
        [⟨"%d hours, %d minutes, %d seconds\n", [u.h, u.m, u.s]⟩]
    else
      if u.h = 0 then
        [⟨" %d days, %d minutes, %d seconds\n", [u.d, u.m, u.s]⟩]
      else
        [⟨"%d days, %d hours, %d minutes, %d seconds\n", [u.d, u.h, u.m, u.s]⟩])

/-- The text of `printf("%d", i)`: decimal digits with a leading minus sign for
a negative value. -/
def fmt_d (i : Int) : List Char :=
  (toString i).toList

/-- The text a `printf` call writes, for formats whose only conversion is `%d`:
each `%d` is replaced by the next argument. -/
def printf_text : List Char → List Int → List Char
  | [], _ => []
  | '%' :: 'd' :: rest, a :: as => fmt_d a ++ printf_text rest as
  | c :: rest, as => c :: printf_text rest as

/-- The text written by a sequence of `printf` calls. -/
def printfs_text (calls : List PrintfCall) : String :=
  String.mk (calls.flatMap (fun c => printf_text c.fmt.toList c.args))

/-- What `sys_info` prints after `"Uptime: "` when `atoi` returned `time`. -/
def uptime_text (time : Int) : String :=
  printfs_text (uptime_printfs (uptime_split time))

/-- A unit is displayed when its name occurs in the format of an executed
`printf` call. -/
def shows (unit : String) (calls : List PrintfCall) : Prop :=
  ∃ c ∈ calls, unit.toList <:+: c.fmt.toList

instance (unit : String) (calls : List PrintfCall) : Decidable (shows unit calls) := by
  unfold shows; infer_instance

/-- The rendering the specification describes, for a list of displayed units:
each unit as `<value> <unit name>`, joined by `", "`, then a newline. -/
def units_text (units : List (Int × String)) : String :=
  String.mk (List.intercalate [',', ' '] (units.map (fun u => fmt_d u.1 ++ ' ' :: u.2.toList))
    ++ ['\n'])

/-- The units the code displays: years, days and hours when nonzero, minutes and
seconds always. -/
def displayed_units (u : Uptime) : List (Int × String) :=
  (if u.y = 0 then [] else [(u.y, "years")]) ++
  (if u.d = 0 then [] else [(u.d, "days")]) ++
  (if u.h = 0 then [] else [(u.h, "hours")]) ++
  [(u.m, "minutes"), (u.s, "seconds")]

/-- The formats of the calls in `uptime_printfs`, as a function of the three
tests `y == 0`, `d == 0`, `h == 0` (used to reason about which units appear). -/
def uptime_fmts (y0 d0 h0 : Bool) : List String :=
  (uptime_printfs ⟨if y0 then 0 else 1, if d0 then 0 else 1, if h0 then 0 else 1, 0, 0⟩).map
    PrintfCall.fmt

/-- The specification's rule for dropping units, at uptime `time`: years, days
or hours are omitted exactly when the unit and every coarser unit are zero, and
minutes and seconds are always displayed. -/
def omits_only_leading_zeros (time : Int) : Prop :=
  (¬ shows "years" (uptime_printfs (uptime_split time)) ↔ (uptime_split time).y = 0) ∧
  (¬ shows "days" (uptime_printfs (uptime_split time)) ↔
    ((uptime_split time).d = 0 ∧ (uptime_split time).y = 0)) ∧
  (¬ shows "hours" (uptime_printfs (uptime_split time)) ↔
    ((uptime_split time).h = 0 ∧ (uptime_split time).d = 0 ∧ (uptime_split time).y = 0)) ∧
  shows "minutes" (uptime_printfs (uptime_split time)) ∧
  shows "seconds" (uptime_printfs (uptime_split time))

instance (time : Int) : Decidable (omits_only_leading_zeros time) := by
  unfold omits_only_leading_zeros; infer_instance

/-! ## IEEE 754 arithmetic, as used for C `float` and `double`

A finite value is a sign and a magnitude (a rational number that the format can
represent); zero therefore has a sign.  Every operation computes the exact
result and rounds it to the nearest value of the format, ties to even, as the
default rounding mode does, and every C expression is evaluated in its own type
(`float` operations in `float`).  The sign and payload of a NaN are not
modelled. -/

/-- A binary floating-point format: the number of significand bits and the
largest exponent. -/
structure FloatFormat where
  prec : Nat
  emax : Int
deriving DecidableEq, Repr

/-- C `float`. -/
def binary32 : FloatFormat := ⟨24, 127⟩

/-- C `double`. -/
def binary64 : FloatFormat := ⟨53, 1023⟩

/-- The smallest exponent of a normal number. -/
def FloatFormat.emin (fmt : FloatFormat) : Int := 1 - fmt.emax

/-- Floor of the base-2 logarithm of a positive natural number, by halving. -/
def log2_aux : Nat → Nat → Nat
  | 0, _ => 0
  | fuel + 1, n => if n < 2 then 0 else log2_aux fuel (n / 2) + 1

/-- Floor of the base-2 logarithm of a positive natural number. -/
def nat_log2 (n : Nat) : Nat := log2_aux n n

/-- Floor of the base-2 logarithm of a positive rational number. -/
def ilog2 (x : ℚ) : Int :=
  if x < 2 ^ ((nat_log2 x.num.natAbs : Int) - (nat_log2 x.den : Int)) then
    (nat_log2 x.num.natAbs : Int) - (nat_log2 x.den : Int) - 1
  else (nat_log2 x.num.natAbs : Int) - (nat_log2 x.den : Int)

/-- The nearest integer, ties to the even one. -/
def round_half_even (n : ℚ) : Int :=
  if n - ⌊n⌋ < 1 / 2 then ⌊n⌋
  else if 1 / 2 < n - ⌊n⌋ then ⌊n⌋ + 1
  else if ⌊n⌋ % 2 = 0 then ⌊n⌋ else ⌊n⌋ + 1

/-- The spacing of the format around the positive number `x` (subnormal spacing
below the normal range). -/
def ulp_of (fmt : FloatFormat) (x : ℚ) : ℚ :=
  2 ^ (max (ilog2 x) fmt.emin - ((fmt.prec : Int) - 1))

/-- A non-negative rational rounded to the nearest multiple of the spacing. -/
def round_mag (fmt : FloatFormat) (x : ℚ) : ℚ :=
  if x = 0 then 0 else round_half_even (x / ulp_of fmt x) * ulp_of fmt x

/-- A value of a C floating type. -/
inductive FVal where
  | nan
  | inf (neg : Bool)
  | fin (neg : Bool) (mag : ℚ)
deriving DecidableEq, Repr

/-- The signed magnitude `x` rounded into the format; a result beyond the
largest finite number becomes an infinity. -/
def fround (fmt : FloatFormat) (neg : Bool) (x : ℚ) : FVal :=
  if 2 ^ (fmt.emax + 1) ≤ round_mag fmt x then FVal.inf neg
  else FVal.fin neg (round_mag fmt x)

/-- Conversion of an `int` to a floating type, e.g. `(float) i`. -/
def of_int (fmt : FloatFormat) (i : Int) : FVal :=
  fround fmt (decide (i < 0)) |(i : ℚ)|

/-- The rational number a sign and magnitude stand for. -/
def signed (neg : Bool) (mag : ℚ) : ℚ :=
  if neg then -mag else mag

/-- The rational value of a finite floating-point number (`none` for NaN and the
infinities). -/
def FVal.toRat : FVal → Option ℚ
  | FVal.fin s m => some (signed s m)
  | _ => none

/-- Floating-point division `x / y`. -/
def fdiv (fmt : FloatFormat) : FVal → FVal → FVal
  | FVal.fin s1 m1, FVal.fin s2 m2 =>
    if m2 = 0 then (if m1 = 0 then FVal.nan else FVal.inf (xor s1 s2))
    else fround fmt (xor s1 s2) (m1 / m2)
  | FVal.fin s1 _, FVal.inf s2 => FVal.fin (xor s1 s2) 0
  | FVal.inf s1, FVal.fin s2 _ => FVal.inf (xor s1 s2)
  | _, _ => FVal.nan

/-- Floating-point multiplication `x * y`. -/
def fmul (fmt : FloatFormat) : FVal → FVal → FVal
  | FVal.fin s1 m1, FVal.fin s2 m2 => fround fmt (xor s1 s2) (m1 * m2)
  | FVal.fin s1 m1, FVal.inf s2 => if m1 = 0 then FVal.nan else FVal.inf (xor s1 s2)
  | FVal.inf s1, FVal.fin s2 m2 => if m2 = 0 then FVal.nan else FVal.inf (xor s1 s2)
  | FVal.inf s1, FVal.inf s2 => FVal.inf (xor s1 s2)
  | _, _ => FVal.nan

/-- Floating-point addition `x + y`. -/
def fadd (fmt : FloatFormat) : FVal → FVal → FVal
  | FVal.fin s1 m1, FVal.fin s2 m2 =>
    if signed s1 m1 + signed s2 m2 = 0 then FVal.fin (s1 && s2) 0
    else fround fmt (decide (signed s1 m1 + signed s2 m2 < 0)) |signed s1 m1 + signed s2 m2|
  | FVal.fin _ _, FVal.inf s2 => FVal.inf s2
  | FVal.inf s1, FVal.fin _ _ => FVal.inf s1
  | FVal.inf s1, FVal.inf s2 => if s1 = s2 then FVal.inf s1 else FVal.nan
  | _, _ => FVal.nan

/-- Negation. -/
def fneg : FVal → FVal
  | FVal.fin s m => FVal.fin (!s) m
  | FVal.inf s => FVal.inf (!s)
  | FVal.nan => FVal.nan

/-- Floating-point subtraction `x - y`. -/
def fsub (fmt : FloatFormat) (x y : FVal) : FVal :=
  fadd fmt x (fneg y)

/-- libm `isnan`. -/
def isnan : FVal → Bool
  | FVal.nan => true
  | _ => false

/-- Conversion to `int`, e.g. `(int) x`: the value truncated toward zero.  The
conversion is undefined (`none`) for a NaN, an infinity, and a value whose
integral part does not fit an `int`. -/
def to_int : FVal → Option Int
  | FVal.fin s m =>
    if (if s then -⌊m⌋ else ⌊m⌋) < -2147483648 ∨ 2147483647 < (if s then -⌊m⌋ else ⌊m⌋)
    then none else some (if s then -⌊m⌋ else ⌊m⌋)
  | _ => none

/-- The text of `printf("%.1f", x)`: the exact value rounded to one decimal,
ties to even. -/
def fmt_f1 : FVal → List Char
  | FVal.nan => ['n', 'a', 'n']
  | FVal.inf s => (if s then ['-'] else []) ++ ['i', 'n', 'f']
  | FVal.fin s m =>
    (if s then ['-'] else []) ++
      (toString ((round_half_even (m * 10)).toNat / 10)).toList ++ '.' ::
      (toString ((round_half_even (m * 10)).toNat % 10)).toList

/-! ## CPU utilization in `hardware_info` (lines 329-359) and `live_info` (516-545) -/

/-- One reading of the aggregate `cpu` line: `total[i]` and `idle[i]`. -/
structure CpuSample where
  total : Int
  idle : Int
deriving DecidableEq, Repr

/-- Lines 329-343: `c_usage` computed from the two samples. -/
def cpu_c_usage (s1 s2 : CpuSample) : FVal :=
  let t_diff := isub s2.total s1.total
  let i_diff := isub s2.idle s1.idle
  let cpu_usage := fdiv binary32 (of_int binary32 i_diff) (of_int binary32 t_diff)
  if isnan cpu_usage then of_int binary32 0
  else fmul binary32 (fsub binary32 (of_int binary32 1) cpu_usage) (of_int binary32 100)

/-- The gauge loop `for (i = 0; i < 100; i += 5)`: one character per iteration,
`#` while `count != 0` (and `count` is decremented), `-` otherwise. -/
def gauge_loop : Nat → Int → List Char
  | 0, _ => []
  | n + 1, count =>
    if count ≠ 0 then '#' :: gauge_loop n (isub count 1) else '-' :: gauge_loop n count

/-- The twenty characters of a gauge. -/
def gauge (count : Int) : List Char := gauge_loop 20 count

/-- Line 345: `int count = (int) c_usage / 5;` (`none` when the conversion is
undefined). -/
def cpu_count (c_usage : FVal) : Option Int :=
  (to_int c_usage).map (fun n => idiv n 5)

/-- Lines 345-359: what is printed after `"CPU Usage:    ["`, `none` when the
conversion to `int` is undefined. -/
def cpu_line (s1 s2 : CpuSample) : Option String :=
  (cpu_count (cpu_c_usage s1 s2)).map (fun count =>
    String.mk (gauge count ++ [']', ' '] ++ fmt_f1 (cpu_c_usage s1 s2) ++ ['%', '\n']))

/-- The exact value of the specification's formula
`100 * (1 - (idle2 - idle1) / (total2 - total1))`. -/
def cpu_exact (s1 s2 : CpuSample) : ℚ :=
  100 * (1 - ((s2.idle - s1.idle : Int) : ℚ) / ((s2.total - s1.total : Int) : ℚ))

/-- Unit roundoff of `float`: half the spacing just above 1. -/
def u32 : ℚ := 1 / 2 ^ 24

/-- Half the spacing of the subnormal `float` numbers. -/
def eta32 : ℚ := 1 / 2 ^ 150

/-- The floating-point value `x` is finite and stands for the rational `v`. -/
def is_fin (x : FVal) (v : ℚ) : Prop :=
  ∃ s m, x = FVal.fin s m ∧ 0 ≤ m ∧ signed s m = v

/-! ## More of libc: `strstr`, `atof`, `round` -/

/-- Model of libc `strstr(haystack, needle) != NULL`: the C string `needle`
occurs in the C string `haystack`. -/
def strstr (haystack needle : List Char) : Bool :=
  decide (cstr needle <:+: cstr haystack)

/-- libc `isspace` in the C locale. -/
def isspace (c : Char) : Bool :=
  c = ' ' || c = '\t' || c = '\n' || c = Char.ofNat 11 || c = Char.ofNat 12 || c = '\r'

/-- The value of a hexadecimal digit (decimal digits included). -/
def hex_digit (c : Char) : Option Nat :=
  if '0' ≤ c ∧ c ≤ '9' then some (c.toNat - 48)
  else if 'a' ≤ c ∧ c ≤ 'f' then some (c.toNat - 87)
  else if 'A' ≤ c ∧ c ≤ 'F' then some (c.toNat - 55)
  else none

/-- The value of a decimal digit. -/
def dec_digit (c : Char) : Option Nat :=
  if '0' ≤ c ∧ c ≤ '9' then some (c.toNat - 48) else none

/-- The longest prefix of digits (as numbers) and what follows it. -/
def take_digits (digit : Char → Option Nat) : List Char → List Nat × List Char
  | [] => ([], [])
  | c :: cs =>
    match digit c with
    | some d => ((take_digits digit cs).1.cons d, (take_digits digit cs).2)
    | none => ([], c :: cs)

/-- The number written by a list of digits in the given base. -/
def digits_val (base : Nat) (ds : List Nat) : Nat :=
  ds.foldl (fun a d => base * a + d) 0

/-- An optional exponent part: the marker (`e` or `p`, either case), an optional
sign and at least one decimal digit; 0 when the part is absent or malformed. -/
def exponent_part (marker : Char) : List Char → Int
  | [] => 0
  | c :: r =>
    if c.toLower = marker then
      match r with
      | '-' :: r1 =>
        if (take_digits dec_digit r1).1 = [] then 0
        else -(digits_val 10 (take_digits dec_digit r1).1 : Int)
      | '+' :: r1 => (digits_val 10 (take_digits dec_digit r1).1 : Int)
      | _ => (digits_val 10 (take_digits dec_digit r).1 : Int)
    else 0

/-- A mantissa in the given base: digits, optionally with one radix point, and
at least one digit in all.  Returns the value and the unread rest. -/
def mantissa (base : Nat) (digit : Char → Option Nat) (s : List Char) :
    Option (ℚ × List Char) :=
  match (take_digits digit s).2 with
  | '.' :: r =>
    if (take_digits digit s).1 = [] ∧ (take_digits digit r).1 = [] then none
    else some ((digits_val base ((take_digits digit s).1 ++ (take_digits digit r).1) : ℚ)
        / (base : ℚ) ^ (take_digits digit r).1.length, (take_digits digit r).2)
  | rest =>
    if (take_digits digit s).1 = [] then none
    else some ((digits_val base (take_digits digit s).1 : ℚ), rest)

/-- The unsigned part of a `strtod` subject sequence. -/
inductive Subject where
  | number (q : ℚ)
  | infinity
  | notANumber
  | nothing
deriving DecidableEq, Repr

/-- What `strtod` reads after the optional sign: `inf`/`infinity`, `nan`, a
hexadecimal number with optional binary exponent, or a decimal number with
optional decimal exponent. -/
def subject (s : List Char) : Subject :=
  if ['i', 'n', 'f'] <+: s.map Char.toLower then Subject.infinity
  else if ['n', 'a', 'n'] <+: s.map Char.toLower then Subject.notANumber
  else
    match s with
    | '0' :: x :: r =>
      if x.toLower = 'x' then
        match mantissa 16 hex_digit r with
        | some (m, rest) => Subject.number (m * (2 : ℚ) ^ exponent_part 'p' rest)
        | none => Subject.number 0
      else
        match mantissa 10 dec_digit s with
        | some (m, rest) => Subject.number (m * (10 : ℚ) ^ exponent_part 'e' rest)
        | none => Subject.nothing
    | _ =>
      match mantissa 10 dec_digit s with
      | some (m, rest) => Subject.number (m * (10 : ℚ) ^ exponent_part 'e' rest)
      | none => Subject.nothing

/-- The value of a subject sequence with its sign, as a `double`; no conversion
gives `+0.0`. -/
def subject_val (neg : Bool) : Subject → FVal
  | Subject.number q => fround binary64 neg q
  | Subject.infinity => FVal.inf neg
  | Subject.notANumber => FVal.nan
  | Subject.nothing => FVal.fin false 0

/-- Model of libc `atof` (that is `strtod(s, NULL)`): leading white space, an
optional sign, then the subject sequence, correctly rounded to `double`. -/
def atof (s : List Char) : FVal :=
  match (cstr s).dropWhile isspace with
  | '-' :: r => subject_val true (subject r)
  | '+' :: r => subject_val false (subject r)
  | r => subject_val false (subject r)

/-- Conversion of a `double` to `float`, as in the assignment `tot = atof(...)`. -/
def to_float : FVal → FVal
  | FVal.fin s m => fround binary32 s m
  | x => x

/-- libm `round`: the nearest integer, halfway cases away from zero (the
argument is a `float` promoted to `double`, the result a `double`). -/
def fround_int : FVal → FVal
  | FVal.fin s m => FVal.fin s (if m - ⌊m⌋ < 1 / 2 then (⌊m⌋ : ℚ) else (⌊m⌋ : ℚ) + 1)
  | x => x

/-! ## `read_line` (lines 48-62) -/

/-- The size of every line buffer. -/
def BUF_SZ : Nat := 1024

/-- The loop of `read_line`: `i`, the buffer `str` and the unread bytes of the
file.  Each round first reads one byte into `str[i]` and only then tests
`i < size`.  A store beyond the end of the list that models the buffer is
dropped.  Returns `i`, the buffer and the unread bytes. -/
def read_line_loop (size : Nat) : Nat → List Char → List Char → Nat × List Char × List Char
  | i, str, [] => (i, str, [])
  | i, str, c :: rest =>
    if i < size then
      if c = '\n' ∨ c = NUL then (i + 1, str.set i c, rest)
      else read_line_loop size (i + 1) (str.set i c) rest
    else (i, str.set i c, rest)

/-- Embedding of `read_line(str, size, fd)`, the descriptor being the unread
bytes of an open file. -/
def read_line (str : List Char) (size : Nat) (file : List Char) : Nat × List Char × List Char :=
  read_line_loop size 0 str file

/-! ## Memory usage in `hardware_info` (lines 361-433) and `live_info` (548-620) -/

/-- All tokens of the C string at the start of a buffer, and the buffer as the
token loop leaves it (`none` only if the call bound were too small, which
`buf.length + 1` never is). -/
def tokenize (buf delim : List Char) : Option (List (List Char) × List Char) :=
  (token_loop (buf.length + 1) ⟨buf, some 0⟩ delim).map (fun r => (r.1, r.2.buf))

/-- The state of the scan of `meminfo`: the line buffer `buf_2` and the two
`float` locals, `none` while they have not been assigned. -/
structure MemScan where
  buf : List Char
  tot : Option FVal
  active : Option FVal
deriving DecidableEq, Repr

/-- The delimiters `" ,?!\n"`. -/
def mem_delims : List Char := [' ', ',', '?', '!', '\n']

/-- The label `"MemTotal:"`. -/
def memtotal_label : List Char := "MemTotal:".toList

/-- The label `"Active:"`. -/
def active_label : List Char := "Active:".toList

/-- Lines 372-391: if the buffer contains `"MemTotal:"`, tokenize it and assign
the value of the token with index 1, if there is one, to `tot`. -/
def mem_total_step (st : MemScan) : Option MemScan :=
  if strstr st.buf memtotal_label then
    (tokenize st.buf mem_delims).map (fun r =>
      { st with
        buf := r.2,
        tot := match r.1.get? 1 with
          | some t => some (to_float (atof t))
          | none => st.tot })
  else some st

/-- Lines 392-411: the same for `"Active:"` and `active`. -/
def mem_active_step (st : MemScan) : Option MemScan :=
  if strstr st.buf active_label then
    (tokenize st.buf mem_delims).map (fun r =>
      { st with
        buf := r.2,
        active := match r.1.get? 1 with
          | some t => some (to_float (atof t))
          | none => st.active })
  else some st

/-- Lines 370-412: the loop over the lines of `meminfo`.  `fuel` bounds the
number of lines read. -/
def mem_scan : Nat → List Char → MemScan → Option MemScan
  | 0, _, _ => none
  | fuel + 1, file, st =>
    if (read_line st.buf BUF_SZ file).1 = 0 then some st
    else
      match mem_total_step { st with buf := (read_line st.buf BUF_SZ file).2.1 } with
      | none => none
      | some st1 =>
        match mem_active_step st1 with
        | none => none
        | some st2 => mem_scan fuel (read_line st.buf BUF_SZ file).2.2 st2

/-- The three numbers of the memory line. -/
structure MemFigures where
  mem_usage : FVal
  active : FVal
  tot : FVal
deriving DecidableEq, Repr

/-- Lines 414-416: kB to GB and the percentage. -/
def mem_figures (tot active : FVal) : MemFigures :=
  let tot := fdiv binary32 (fdiv binary32 tot (of_int binary32 1024)) (of_int binary32 1024)
  let active := fdiv binary32 (fdiv binary32 active (of_int binary32 1024)) (of_int binary32 1024)
  { mem_usage := fmul binary32 (of_int binary32 100) (fdiv binary32 active tot),
    active := active, tot := tot }

/-- Line 419: `int countm = round(mem_usage) / 5;`, a `double` division whose
result is converted to `int` (`none` when that conversion is undefined). -/
def mem_count (mem_usage : FVal) : Option Int :=
  to_int (fdiv binary64 (fround_int mem_usage) (of_int binary64 5))

/-- Lines 418-433: what is printed after `"Memory Usage: ["`. -/
def mem_line (f : MemFigures) : Option String :=
  (mem_count f.mem_usage).map (fun count =>
    String.mk (gauge count ++ [']', ' '] ++ fmt_f1 f.mem_usage ++ ['%', ' ', '('] ++
      fmt_f1 f.active ++ [' ', 'G', 'B', ' ', '/', ' '] ++ fmt_f1 f.tot ++
      [' ', 'G', 'B', ')', '\n']))

/-- The memory line of `hardware_info` for a given content of `meminfo`, the
line buffer being `buf` when the scan starts; `none` when `tot` or `active` is
never assigned or the gauge size is undefined. -/
def hardware_mem_line (buf meminfo : List Char) : Option String :=
  match mem_scan (meminfo.length + 1) meminfo ⟨buf, none, none⟩ with
  | some ⟨_, some tot, some active⟩ => mem_line (mem_figures tot active)
  | _ => none

/-- The buffer `b1` is `b` with some bytes overwritten by NUL. -/
def refines (b1 b : List Char) : Prop :=
  b1.length = b.length ∧ ∀ j : Nat, b1[j]? = b[j]? ∨ b1[j]? = some NUL

/-! ## The shape of `meminfo` and of the line buffer, for the memory claims -/

/-- A line buffer as the scan of `meminfo` keeps it: of size `BUF_SZ`, its last
byte NUL, and neither label anywhere but possibly at its start. -/
def buf_ok (b : List Char) : Prop :=
  b.length = BUF_SZ ∧ b[BUF_SZ - 1]? = some NUL ∧
  (∀ k, 1 ≤ k → ¬ memtotal_label <+: b.drop k) ∧
  (∀ k, 1 ≤ k → ¬ active_label <+: b.drop k)

/-- A line of `meminfo` (without its newline) that mentions neither label. -/
def other_line (body : List Char) : Prop :=
  '\n' ∉ body ∧ NUL ∉ body ∧ body.length + 1 < BUF_SZ ∧
  ¬ memtotal_label <:+: body ∧ ¬ active_label <:+: body

/-- A non-empty string of decimal digits. -/
def is_digits (ds : List Char) : Prop :=
  ds ≠ [] ∧ ∀ c ∈ ds, c ∈ ['0', '1', '2', '3', '4', '5', '6', '7', '8', '9']

/-- A line of `meminfo` (without its newline) of the kernel's form: the label,
`n` blanks, the value and `" kB"`. -/
def value_line (label : List Char) (n : Nat) (ds : List Char) : List Char :=
  label ++ List.replicate n ' ' ++ ds ++ [' ', 'k', 'B']

/-- The text of a list of lines, each followed by a newline. -/
def lines_text (ls : List (List Char)) : List Char :=
  (ls.map (fun l => l ++ ['\n'])).flatten

/-- The text of a `meminfo` file of the kernel's form: any lines that mention
neither label, the `MemTotal:` line, more such lines, the `Active:` line, more
such lines. -/
def meminfo_text (pre mid post : List (List Char)) (n1 : Nat) (dT : List Char) (n2 : Nat)
    (dA : List Char) : List Char :=
  lines_text pre ++ (value_line memtotal_label (n1 + 1) dT ++ '\n' ::
    (lines_text mid ++ (value_line active_label (n2 + 1) dA ++ '\n' :: lines_text post)))

/-- The value `v` approximates `x` with relative error at most `e`. -/
def near (v x e : ℚ) : Prop := |v - x| ≤ e * x

/-- The number a string of decimal digits denotes. -/
def decimal_value (ds : List Char) : Nat :=
  digits_val 10 (take_digits dec_digit ds).1

instance (body : List Char) : Decidable (other_line body) := by
  unfold other_line; infer_instance

instance (ds : List Char) : Decidable (is_digits ds) := by
  unfold is_digits; infer_instance

/-! ## `read_line` and its callers `read_file` and the scans of `cpuinfo` -/

/-- C `a + b` on `int`. -/
def iadd (a b : Int) : Int := wrap32 (a + b)

/-- The bytes of a file up to and including the first newline or NUL, or all of
them when there is neither: the line a reader is expected to take. -/
def first_line : List Char → List Char
  | [] => []
  | c :: cs => if c = '\n' ∨ c = NUL then [c] else c :: first_line cs

/-- Lines 79-80 (and 231-232): `buf[read_sz+1] = '\0'; buf[strcspn(buf, "\n")] = ' ';`.
A store beyond the end of the buffer is dropped. -/
def terminate_line (buf : List Char) (read_sz : Nat) : List Char :=
  (buf.set (read_sz + 1) NUL).set (strcspn (buf.set (read_sz + 1) NUL) ['\n']) ' '

/-- The loop of `read_file` (lines 77-81) over the unread bytes of the file;
`buf` is the function's static buffer.  `fuel` bounds the number of lines. -/
def read_file_loop : Nat → List Char → List Char → Option (List Char)
  | 0, _, _ => none
  | fuel + 1, buf, file =>
    if (read_line buf BUF_SZ file).1 = 0 then some (read_line buf BUF_SZ file).2.1
    else
      read_file_loop fuel
        (terminate_line (read_line buf BUF_SZ file).2.1 (read_line buf BUF_SZ file).1)
        (read_line buf BUF_SZ file).2.2

/-- Embedding of `read_file(file)`: `buf` is the static buffer as earlier calls
left it, `file` the content of the file, `none` when it cannot be opened (then
every `read` fails and the loop body never runs).  The result is the static
buffer after the call; the returned pointer designates its start. -/
def read_file (buf : List Char) (file : Option (List Char)) : Option (List Char) :=
  match file with
  | none => some buf
  | some f => read_file_loop (f.length + 1) buf f

/-- The two strings `sys_info` prints after `"Hostname: "` and
`"Kernel Version: "` (lines 149 and 152): two calls of `read_file` in a row on
the same static buffer. -/
def sys_info_names (buf : List Char) (hostname osrelease : Option (List Char)) :
    Option (List Char × List Char) :=
  (read_file buf hostname).bind (fun b1 =>
    (read_file b1 osrelease).map (fun b2 => (cstr b1, cstr b2)))

/-- The label `"model name"`. -/
def model_label : List Char := "model name".toList

/-- The label `"processor"`. -/
def processor_label : List Char := "processor".toList

/-- The delimiters `" :,?!"`. -/
def model_delims : List Char := [' ', ':', ',', '?', '!']

/-- What the first loop over `cpuinfo` in `hardware_info` (lines 229-248) does
to the static buffer `buf`: every line is terminated as in `read_file`, and the
first one that contains `"model name"` is tokenized, which ends the loop.  (The
text this loop prints is not part of this definition.) -/
def model_scan : Nat → List Char → List Char → Option (List Char)
  | 0, _, _ => none
  | fuel + 1, buf, file =>
    if (read_line buf BUF_SZ file).1 = 0 then some (read_line buf BUF_SZ file).2.1
    else if strstr (terminate_line (read_line buf BUF_SZ file).2.1
        (read_line buf BUF_SZ file).1) model_label then
      (tokenize (terminate_line (read_line buf BUF_SZ file).2.1
        (read_line buf BUF_SZ file).1) model_delims).map (fun r => r.2)
    else
      model_scan fuel
        (terminate_line (read_line buf BUF_SZ file).2.1 (read_line buf BUF_SZ file).1)
        (read_line buf BUF_SZ file).2.2

/-- The second loop over `cpuinfo` (lines 255-261): `units` is incremented for
every line after whose reading `strstr(buf, "processor")` succeeds.  The buffer
is searched as `read_line` left it. -/
def units_loop : Nat → List Char → List Char → Int → Option Int
  | 0, _, _, _ => none
  | fuel + 1, buf, file, units =>
    if (read_line buf BUF_SZ file).1 = 0 then some units
    else
      units_loop fuel (read_line buf BUF_SZ file).2.1 (read_line buf BUF_SZ file).2.2
        (if strstr (read_line buf BUF_SZ file).2.1 processor_label then iadd units 1 else units)

/-- The number `hardware_info` prints after `"Processing Units: "` (lines
221-264) for a given content of `cpuinfo`, `buf` being the static buffer when
the function starts. -/
def processing_units (buf cpuinfo : List Char) : Option Int :=
  (model_scan (cpuinfo.length + 1) buf cpuinfo).bind (fun b =>
    units_loop (cpuinfo.length + 1) b cpuinfo 0)

/-- The lines of a text: the pieces between newlines, without the empty pieces
at the end of the text. -/
def text_lines (text : List Char) : List (List Char) :=
  (text.splitOn '\n').reverse.dropWhile (fun l => l.isEmpty) |>.reverse

/-- The number of lines of a text that contain `"processor"`. -/
def processor_lines (text : List Char) : Nat :=
  ((text_lines text).filter (fun l => decide (processor_label <:+: l))).length

/-! ## CPU counters: `atoi` and the scan of `stat` (lines 285-327 and 474-515) -/

/-- Model of glibc `atoi`, that is `(int) strtol(s, NULL, 10)` with a 64-bit
`long`: leading white space, an optional sign, then decimal digits; the value
saturates at the bounds of `long` and is then converted to `int`. -/
def atoi (s : List Char) : Int :=
  match (cstr s).dropWhile isspace with
  | '-' :: r =>
    wrap32 (max (-9223372036854775808) (-(digits_val 10 (take_digits dec_digit r).1 : Int)))
  | '+' :: r =>
    wrap32 (min 9223372036854775807 (digits_val 10 (take_digits dec_digit r).1 : Int))
  | r => wrap32 (min 9223372036854775807 (digits_val 10 (take_digits dec_digit r).1 : Int))

/-- The label `"cpu"`. -/
def cpu_label : List Char := "cpu".toList

/-- The body of the token loop at lines 307-322, run over the tokens in turn:
`tok` is the index of the token, tokens 1 to 9 are added to `total[i]`, token 4
is also stored in `idle[i]`. -/
def stat_tokens : List (List Char) → Nat → CpuSample → CpuSample
  | [], _, s => s
  | t :: ts, tok, s =>
    if 0 < tok ∧ tok < 10 then
      stat_tokens ts (tok + 1) ⟨iadd s.total (atoi t), if tok = 4 then atoi t else s.idle⟩
    else stat_tokens ts (tok + 1) s

/-- Lines 298-325: the loop over the lines of `stat` for one sample.  The first
line after whose reading the buffer contains `"cpu"` is tokenized on
`" ,?!\n"` and ends the loop.  The result is the sample (`total[i]` and
`idle[i]`, both 0 at the start) and the buffer `buf_1` after the loop. -/
def stat_scan : Nat → List Char → List Char → Option (CpuSample × List Char)
  | 0, _, _ => none
  | fuel + 1, buf, file =>
    if (read_line buf BUF_SZ file).1 = 0 then some (⟨0, 0⟩, (read_line buf BUF_SZ file).2.1)
    else if strstr (read_line buf BUF_SZ file).2.1 cpu_label then
      (tokenize (read_line buf BUF_SZ file).2.1 mem_delims).map
        (fun r => (stat_tokens r.1 0 ⟨0, 0⟩, r.2))
    else stat_scan fuel (read_line buf BUF_SZ file).2.1 (read_line buf BUF_SZ file).2.2

/-- The sample `hardware_info` (or `live_info`) takes from a given content of
`stat`, the static buffer `buf_1` being `buf` before. -/
def cpu_sample (buf stat : List Char) : Option CpuSample :=
  (stat_scan (stat.length + 1) buf stat).map (fun r => r.1)

/-- The numbers written by the tokens with index 1 to 9 of a line. -/
def counters (body : List Char) : List Nat :=
  (((splitTokens mem_delims body).drop 1).take 9).map decimal_value

/-! ## The gauge the specification describes -/

/-- The gauge as the specification words it for a value `v`: 20 segments, the
first `round(v) / 5` of them `#` (the integer quotient of `v` rounded to the
nearest integer), the rest `-`. -/
def gauge_spec (v : ℚ) : List Char :=
  List.replicate (⌊v + 1 / 2⌋ / 5).toNat '#' ++
    List.replicate (20 - (⌊v + 1 / 2⌋ / 5).toNat) '-'

/-! ## The command line: `getopt` and the view selection of `main` (lines 837-915) -/

/-- The `struct view_opts` of lines 36-42. -/
structure view_opts where
  hardware : Bool
  live_view : Bool
  system : Bool
  task_list : Bool
deriving DecidableEq, Repr

/-- Line 845: `struct view_opts defaults = { true, false, true, true };`. -/
def defaults : view_opts := ⟨true, false, true, true⟩

/-- The option string `"ahlp:rst"` of line 850. -/
def optstring : List Char := "ahlp:rst".toList

/-- How `getopt` looks an option character up in an option string: `none`
when it is not an option (`:` and `;` never are), otherwise whether the option
takes an argument (it is followed by `:`). -/
def opt_lookup : List Char → Char → Option Bool
  | [], _ => none
  | o :: os, c =>
    if o = c ∧ c ≠ ':' ∧ c ≠ ';' then some (decide (os.head? = some ':'))
    else opt_lookup os c

/-- One return of `getopt` other than -1: an option character with `optarg`, or
`'?'` with the offending character in `optopt`. -/
inductive OptEvent where
  | opt (c : Char) (optarg : Option (List Char))
  | bad (optopt : Char)
deriving DecidableEq, Repr

/-- The returns of `getopt` for the option characters of one element of `argv`
(what follows its `-`); `next` is the element after it, if any.  The argument
of an option that takes one is the rest of the element or, when that is empty,
the next element, which is then consumed (second component); without either the
return is `'?'`. -/
def getopt_cluster : List Char → Option (List Char) → List OptEvent × Bool
  | [], _ => ([], false)
  | c :: cs, next =>
    match opt_lookup optstring c with
    | none => (OptEvent.bad c :: (getopt_cluster cs next).1, (getopt_cluster cs next).2)
    | some false =>
      (OptEvent.opt c none :: (getopt_cluster cs next).1, (getopt_cluster cs next).2)
    | some true =>
      if cs ≠ [] then ([OptEvent.opt c (some cs)], false)
      else
        match next with
        | some a => ([OptEvent.opt c (some a)], true)
        | none => ([OptEvent.bad c], false)

/-- All returns of glibc `getopt(argc, argv, "ahlp:rst")` before -1, for the
elements of `argv` after the program name, in its default mode: an element that
is not an option (it does not start with `-`, or is `-` alone) is skipped, and
`--` ends the scan. -/
def getopt_scan : List (List Char) → List OptEvent
  | [] => []
  | arg :: rest =>
    if arg = ['-', '-'] then []
    else if arg.head? = some '-' ∧ arg.tail ≠ [] then
      (getopt_cluster arg.tail rest.head?).1 ++
        (if (getopt_cluster arg.tail rest.head?).2 then
          (match rest with
            | [] => []
            | _ :: rest1 => getopt_scan rest1)
        else getopt_scan rest)
    else getopt_scan rest

/-- The locals of `main` that the option loop sets. -/
structure MainState where
  options : view_opts
  alt_proc : Bool
  procfs_loc : List Char
deriving DecidableEq, Repr

/-- The `switch` of lines 851-888 run over the returns of `getopt` in turn.  An
early `return` of `main` is an error carrying the exit status (134 stands for
`abort()`). -/
def main_switch : List OptEvent → MainState → Except Int MainState
  | [], st => Except.ok st
  | OptEvent.bad _ :: _, _ => Except.error 1
  | OptEvent.opt c optarg :: es, st =>
    if c = 'a' then main_switch es { st with options := defaults }
    else if c = 'h' then Except.error 0
    else if c = 'l' then main_switch es { st with options := { st.options with live_view := true } }
    else if c = 'p' then main_switch es { st with procfs_loc := optarg.getD [], alt_proc := true }
    else if c = 'r' then main_switch es { st with options := { st.options with hardware := true } }
    else if c = 's' then main_switch es { st with options := { st.options with system := true } }
    else if c = 't' then main_switch es { st with options := { st.options with task_list := true } }
    else Except.error 134

/-- Lines 904-910: when the live view is on, `options = defaults;
options.live_view = true;`. -/
def live_override (options : view_opts) : view_opts :=
  if options.live_view = true then { defaults with live_view := true } else options

/-- Lines 891-910: the adjustment of `argc` when `-p` was given, the defaults
for `argc <= 1`, and the live view. -/
def main_adjust (argc : Int) (st : MainState) : view_opts :=
  live_override
    (if (if st.alt_proc = true then argc - 2 else argc) ≤ 1 then defaults else st.options)

/-- How `main` leaves its option handling: by an early `return` with an exit
status, or on to line 917 with a view selection. -/
inductive MainResult where
  | exit (status : Int)
  | views (options : view_opts)
deriving DecidableEq, Repr

/-- The view selection `main` has when it reaches line 917, for the command
line `argv` (program name first). -/
def view_selection (argv : List (List Char)) : MainResult :=
  match main_switch (getopt_scan argv.tail) ⟨⟨false, false, false, false⟩, false, "/proc".toList⟩ with
  | Except.error e => MainResult.exit e
  | Except.ok st => MainResult.views (main_adjust argv.length st)

/-- The command line given as its words. -/
def words (ws : List String) : List (List Char) := ws.map String.toList

/-- A group of command-line arguments in the usual spelling: a flag as an
argument of its own, or `-p` followed by its directory as the next argument. -/
inductive ArgGroup where
  | flag (c : Char)
  | proc (dir : List Char)
deriving DecidableEq, Repr

/-- The arguments a group stands for. -/
def ArgGroup.args : ArgGroup → List (List Char)
  | ArgGroup.flag c => [['-', c]]
  | ArgGroup.proc dir => [['-', 'p'], dir]

/-- The arguments of a list of groups. -/
def group_args : List ArgGroup → List (List Char)
  | [] => []
  | g :: gs => g.args ++ group_args gs

/-- The views that the flags `-r`, `-s`, `-t` and `-a` of a list of groups
name. -/
def named_views (gs : List ArgGroup) : view_opts :=
  ⟨decide (ArgGroup.flag 'r' ∈ gs ∨ ArgGroup.flag 'a' ∈ gs), false,
    decide (ArgGroup.flag 's' ∈ gs ∨ ArgGroup.flag 'a' ∈ gs),
    decide (ArgGroup.flag 't' ∈ gs ∨ ArgGroup.flag 'a' ∈ gs)⟩

/-- A group is a view flag (`-a`, `-r`, `-s` or `-t`). -/
def ArgGroup.is_view : ArgGroup → Bool
  | ArgGroup.flag c => c = 'a' || c = 'r' || c = 's' || c = 't'
  | ArgGroup.proc _ => false

/-- A group is `-p` with its directory. -/
def ArgGroup.is_proc : ArgGroup → Bool
  | ArgGroup.flag _ => false
  | ArgGroup.proc _ => true

/-- The return of `getopt` a group gives rise to. -/
def ArgGroup.event : ArgGroup → OptEvent
  | ArgGroup.flag c => OptEvent.opt c none
  | ArgGroup.proc dir => OptEvent.opt 'p' (some dir)

/-! ## `task_info` (lines 628-810) -/

/-- The label `"Name:"`. -/
def name_label : List Char := "Name:".toList

/-- The label `"State:"`. -/
def state_label : List Char := "State:".toList

/-- The label `"Pid:"`. -/
def pid_label : List Char := "Pid:".toList

/-- The label `"PPid:"`. -/
def ppid_label : List Char := "PPid:".toList

/-- The label `"TracerPid"`. -/
def tracer_label : List Char := "TracerPid".toList

/-- The label `"Threads:"`. -/
def threads_label : List Char := "Threads:".toList

/-- The delimiters `"\t ():,?!\n"` of the `Name:` line. -/
def name_delims : List Char := ['\t', ' ', '(', ')', ':', ',', '?', '!', '\n']

/-- The delimiters `"\t():,?!\n"` of the `State:` line. -/
def state_delims : List Char := ['\t', '(', ')', ':', ',', '?', '!', '\n']

/-- The delimiters `"\t :,?!\n"` of the `Pid:` and `Threads:` lines. -/
def pid_delims : List Char := ['\t', ' ', ':', ',', '?', '!', '\n']

/-- Model of `strcpy(dst, src)` for a local array `dst`: the bytes of the C
string `src` and a NUL are stored from the start of the array.  When they do not
fit the array, C writes behind it, which is undefined: `none`. -/
def strcpy (dst src : List Char) : Option (List Char) :=
  if (cstr src).length < dst.length then
    some (cstr src ++ NUL :: dst.drop ((cstr src).length + 1))
  else none

/-- The four local arrays of the second loop of `task_info` (lines 681-684):
`threads[10]`, `pid[20]`, `name[26]`, `state[100]`. -/
structure TaskLocals where
  threads : List Char
  pid : List Char
  name : List Char
  state : List Char
deriving DecidableEq, Repr

/-- The state of the scan of one `status` file: the static line buffer `buf_t`
and the local arrays. -/
structure TaskScan where
  buf : List Char
  loc : TaskLocals
deriving DecidableEq, Repr

/-- Lines 708-734: if the buffer contains `"Name:"`, tokenize it and `strcpy`
the token with index 1, if there is one, into `name`; after the copy `name[25]`
is set to NUL when the token has more than 25 bytes.  The result is `none` when
the copy is undefined. -/
def name_step (st : TaskScan) : Option TaskScan :=
  if strstr st.buf name_label then
    (tokenize st.buf name_delims).bind (fun r =>
      match r.1.get? 1 with
      | some t =>
        (strcpy st.loc.name t).map (fun name =>
          { buf := r.2,
            loc := { st.loc with name := if 25 < t.length then name.set 25 NUL else name } })
      | none => some { buf := r.2, loc := st.loc })
  else some st

/-- Lines 735-757: the same for `"State:"`, the token with index 2 and `state`. -/
def state_step (st : TaskScan) : Option TaskScan :=
  if strstr st.buf state_label then
    (tokenize st.buf state_delims).bind (fun r =>
      match r.1.get? 2 with
      | some t =>
        (strcpy st.loc.state t).map (fun state =>
          { buf := r.2, loc := { st.loc with state := state } })
      | none => some { buf := r.2, loc := st.loc })
  else some st

/-- Lines 758-778: for a buffer that contains `"Pid:"` but neither `"PPid:"`
nor `"TracerPid"`, the token with index 1 goes to `pid`. -/
def pid_step (st : TaskScan) : Option TaskScan :=
  if (strstr st.buf pid_label && !strstr st.buf ppid_label && !strstr st.buf tracer_label) = true
  then
    (tokenize st.buf pid_delims).bind (fun r =>
      match r.1.get? 1 with
      | some t =>
        (strcpy st.loc.pid t).map (fun pid =>
          { buf := r.2, loc := { st.loc with pid := pid } })
      | none => some { buf := r.2, loc := st.loc })
  else some st

/-- Lines 779-798: the same for `"Threads:"`, the token with index 1 and
`threads`. -/
def threads_step (st : TaskScan) : Option TaskScan :=
  if strstr st.buf threads_label then
    (tokenize st.buf pid_delims).bind (fun r =>
      match r.1.get? 1 with
      | some t =>
        (strcpy st.loc.threads t).map (fun threads =>
          { buf := r.2, loc := { st.loc with threads := threads } })
      | none => some { buf := r.2, loc := st.loc })
  else some st

/-- Lines 706-799: the loop over the lines of one `status` file.  `fuel` bounds
the number of lines read (the length of the file plus one is enough); with
enough fuel the result is `none` exactly when a `strcpy` is undefined. -/
def status_scan : Nat → List Char → TaskScan → Option TaskScan
  | 0, _, _ => none
  | fuel + 1, file, st =>
    if (read_line st.buf BUF_SZ file).1 = 0 then
      some { st with buf := (read_line st.buf BUF_SZ file).2.1 }
    else
      ((((name_step { st with buf := (read_line st.buf BUF_SZ file).2.1 }).bind
        state_step).bind pid_step).bind threads_step).bind
          (status_scan fuel (read_line st.buf BUF_SZ file).2.2)

/-- The text of `printf("%Ns", s)`: the C string `s` right-justified in `n`
columns. -/
def pad_left (n : Nat) (s : List Char) : List Char :=
  List.replicate (n - (cstr s).length) ' ' ++ cstr s

/-- Line 802: `printf("%5s | %12s | %25s | %15s | %5s \n", pid, state, name,
pw->pw_name, threads)`. -/
def task_row (loc : TaskLocals) (pw_name : List Char) : List Char :=
  pad_left 5 loc.pid ++ [' ', '|', ' '] ++ pad_left 12 loc.state ++ [' ', '|', ' '] ++
    pad_left 25 loc.name ++ [' ', '|', ' '] ++ pad_left 15 pw_name ++ [' ', '|', ' '] ++
    pad_left 5 loc.threads ++ [' ', '\n']

/-- An entry of the directory listing as `task_info` sees it: its name, the
content of `<name>/status` (`none` when that file cannot be opened) and the user
name `getpwuid` finds for the owner of that file (`none` for a NULL result). -/
structure DirEntry where
  d_name : List Char
  status : Option (List Char)
  pw_name : Option (List Char)
deriving DecidableEq, Repr

/-- The first loop over the directory (lines 645-666): `tasks_count` counts the
entries whose name `atoi` turns into a nonzero number and whose `status` file
can be opened. -/
def tasks_count : List DirEntry → Int → Int
  | [], n => n
  | e :: es, n =>
    if atoi e.d_name ≠ 0 then
      (match e.status with
        | none => tasks_count es n
        | some _ => tasks_count es (iadd n 1))
    else tasks_count es n

/-- The second loop over the directory (lines 678-805): the rows printed.  The
local arrays are declared in the loop body without initializer, so each entry
comes with the indeterminate content they have when its iteration starts.  An
entry whose `status` file cannot be opened is skipped; no other test is made.
The result is `none` when a token is copied beyond its array or `pw` is NULL at
line 802. -/
def task_rows : List (DirEntry × TaskLocals) → List Char → Option (List (List Char))
  | [], _ => some []
  | (e, garbage) :: es, buf =>
    match e.status with
    | none => task_rows es buf
    | some file =>
      match status_scan (file.length + 1) file ⟨buf, garbage⟩ with
      | none => none
      | some st =>
        match e.pw_name with
        | none => none
        | some u => (task_rows es st.buf).map (fun rows => task_row st.loc u :: rows)

/-- Local arrays filled with NUL bytes. -/
def zero_locals : TaskLocals :=
  ⟨List.replicate 10 NUL, List.replicate 20 NUL, List.replicate 26 NUL, List.replicate 100 NUL⟩

/-- A line buffer of `BUF_SZ` bytes whose last byte is NUL. -/
def sized (b : List Char) : Prop :=
  b.length = BUF_SZ ∧ b[BUF_SZ - 1]? = some NUL

/-- The label `l` occurs in the buffer `b` at most at its start. -/
def label_free (l b : List Char) : Prop :=
  ∀ k, 1 ≤ k → ¬ l <+: b.drop k

/-- A line of a file, without its newline, that fits the line buffer. -/
def fits_line (body : List Char) : Prop :=
  '\n' ∉ body ∧ NUL ∉ body ∧ body.length + 1 < BUF_SZ

instance (body : List Char) : Decidable (fits_line body) := by
  unfold fits_line; infer_instance

/-! ## CPU and memory usage in `hardware_info` as a whole (lines 284-433) -/

/-- Lines 285-327 of `hardware_info`: the two samples of `stat`, taken one
second apart (`stat1` and `stat2` are the contents of the file at the two
times; a file that cannot be opened reads as empty).  The buffer `buf_1` is
static, so the second scan starts with what the first one left in it. -/
def hardware_samples (buf_1 stat1 stat2 : List Char) :
    Option (CpuSample × CpuSample × List Char) :=
  match stat_scan (stat1.length + 1) buf_1 stat1 with
  | none => none
  | some r1 =>
    match stat_scan (stat2.length + 1) r1.2 stat2 with
    | none => none
    | some r2 => some (r1.1, r2.1, r2.2)

/-- What the usage part of a report shows: the CPU percentage with its gauge,
and the memory percentage and GB figures with their gauge. -/
structure UsageReport where
  c_usage : FVal
  cpu_gauge : List Char
  mem : MemFigures
  mem_gauge : List Char
deriving DecidableEq, Repr

/-- Lines 329-357 and 414-431 of `hardware_info`: the figures and the two
gauges computed from the samples and from `tot` and `active` (`none` when a
conversion to `int` is undefined). -/
def hardware_report (s1 s2 : CpuSample) (tot active : FVal) : Option UsageReport :=
  match cpu_count (cpu_c_usage s1 s2), mem_count (mem_figures tot active).mem_usage with
  | some count, some countm =>
    some ⟨cpu_c_usage s1 s2, gauge count, mem_figures tot active, gauge countm⟩
  | _, _ => none

/-- Lines 284-433 of `hardware_info`: the usage report for given contents of
`stat` (at the two sampling times) and `meminfo`; `buf_1` and `buf_2` are the
static line buffers when the function starts.  The result is `none` when `tot`
or `active` is never assigned or a conversion is undefined. -/
def hardware_usage (buf_1 buf_2 stat1 stat2 meminfo : List Char) : Option UsageReport :=
  match hardware_samples buf_1 stat1 stat2,
    mem_scan (meminfo.length + 1) meminfo ⟨buf_2, none, none⟩ with
  | some (s1, s2, _), some ⟨_, some tot, some active⟩ => hardware_report s1 s2 tot active
  | _, _ => none

/-! ## One iteration of the loop of `live_info` (lines 448-621) -/

/-- Lines 495-510 of `live_info`: the body of the token loop over the tokens of
the `cpu` line, `tok` counting them. -/
def live_stat_tokens : List (List Char) → Nat → CpuSample → CpuSample
  | [], _, s => s
  | t :: ts, tok, s =>
    if 0 < tok ∧ tok < 10 then
      live_stat_tokens ts (tok + 1)
        ⟨iadd s.total (atoi t), if tok = 4 then atoi t else s.idle⟩
    else live_stat_tokens ts (tok + 1) s

/-- Lines 485-513 of `live_info`: the loop over the lines of `stat` for one
sample, on the static buffer `buf_1` of `live_info`. -/
def live_stat_scan : Nat → List Char → List Char → Option (CpuSample × List Char)
  | 0, _, _ => none
  | fuel + 1, buf, file =>
    if (read_line buf BUF_SZ file).1 = 0 then some (⟨0, 0⟩, (read_line buf BUF_SZ file).2.1)
    else if strstr (read_line buf BUF_SZ file).2.1 cpu_label then
      (tokenize (read_line buf BUF_SZ file).2.1 [' ', ',', '?', '!', '\n']).map
        (fun r => (live_stat_tokens r.1 0 ⟨0, 0⟩, r.2))
    else live_stat_scan fuel (read_line buf BUF_SZ file).2.1 (read_line buf BUF_SZ file).2.2

/-- Lines 474-515 of `live_info`: the two samples of one iteration. -/
def live_samples (buf_1 stat1 stat2 : List Char) :
    Option (CpuSample × CpuSample × List Char) :=
  match live_stat_scan (stat1.length + 1) buf_1 stat1 with
  | none => none
  | some r1 =>
    match live_stat_scan (stat2.length + 1) r1.2 stat2 with
    | none => none
    | some r2 => some (r1.1, r2.1, r2.2)

/-- Lines 516-530 of `live_info`: `c_usage` from the two samples. -/
def live_c_usage (s1 s2 : CpuSample) : FVal :=
  if isnan (fdiv binary32 (of_int binary32 (isub s2.idle s1.idle))
      (of_int binary32 (isub s2.total s1.total))) then of_int binary32 0
  else
    fmul binary32
      (fsub binary32 (of_int binary32 1)
        (fdiv binary32 (of_int binary32 (isub s2.idle s1.idle))
          (of_int binary32 (isub s2.total s1.total))))
      (of_int binary32 100)

/-- The gauge loops of `live_info` (lines 534-544 and 609-619): 20 rounds, `#`
and a decrement while the count is not 0, `-` otherwise. -/
def live_gauge_loop : Nat → Int → List Char
  | 0, _ => []
  | n + 1, count =>
    if count ≠ 0 then '#' :: live_gauge_loop n (isub count 1)
    else '-' :: live_gauge_loop n count

/-- Lines 559-578 of `live_info`: the `MemTotal:` step. -/
def live_mem_total_step (st : MemScan) : Option MemScan :=
  if strstr st.buf memtotal_label then
    (tokenize st.buf [' ', ',', '?', '!', '\n']).map (fun r =>
      { st with
        buf := r.2,
        tot := match r.1.get? 1 with
          | some t => some (to_float (atof t))
          | none => st.tot })
  else some st

/-- Lines 579-598 of `live_info`: the `Active:` step. -/
def live_mem_active_step (st : MemScan) : Option MemScan :=
  if strstr st.buf active_label then
    (tokenize st.buf [' ', ',', '?', '!', '\n']).map (fun r =>
      { st with
        buf := r.2,
        active := match r.1.get? 1 with
          | some t => some (to_float (atof t))
          | none => st.active })
  else some st

/-- Lines 557-599 of `live_info`: the loop over the lines of `meminfo`. -/
def live_mem_scan : Nat → List Char → MemScan → Option MemScan
  | 0, _, _ => none
  | fuel + 1, file, st =>
    if (read_line st.buf BUF_SZ file).1 = 0 then some st
    else
      match live_mem_total_step { st with buf := (read_line st.buf BUF_SZ file).2.1 } with
      | none => none
      | some st1 =>
        match live_mem_active_step st1 with
        | none => none
        | some st2 => live_mem_scan fuel (read_line st.buf BUF_SZ file).2.2 st2

/-- Lines 602-604 of `live_info`: kB to GB and the percentage. -/
def live_mem_figures (tot active : FVal) : MemFigures :=
  { mem_usage := fmul binary32 (of_int binary32 100)
      (fdiv binary32
        (fdiv binary32 (fdiv binary32 active (of_int binary32 1024)) (of_int binary32 1024))
        (fdiv binary32 (fdiv binary32 tot (of_int binary32 1024)) (of_int binary32 1024))),
    active := fdiv binary32 (fdiv binary32 active (of_int binary32 1024)) (of_int binary32 1024),
    tot := fdiv binary32 (fdiv binary32 tot (of_int binary32 1024)) (of_int binary32 1024) }

/-- Lines 532 and 607 of `live_info` with the figures and gauges of one
iteration: `count = (int) c_usage / 5` and `countm = round(mem_usage) / 5`. -/
def live_report (s1 s2 : CpuSample) (tot active : FVal) : Option UsageReport :=
  match (to_int (live_c_usage s1 s2)).map (fun n => idiv n 5),
    to_int (fdiv binary64 (fround_int (live_mem_figures tot active).mem_usage)
      (of_int binary64 5)) with
  | some count, some countm =>
    some ⟨live_c_usage s1 s2, live_gauge_loop 20 count, live_mem_figures tot active,
      live_gauge_loop 20 countm⟩
  | _, _ => none

/-- One iteration of the loop of `live_info` (lines 472-620) for given contents
of `stat` and `meminfo`; `buf_1` and `buf_2` are the static line buffers of
`live_info` as the iterations before left them.  The result is the usage report
of the iteration and the two buffers after it. -/
def live_iteration (buf_1 buf_2 stat1 stat2 meminfo : List Char) :
    Option (UsageReport × List Char × List Char) :=
  match live_samples buf_1 stat1 stat2,
    live_mem_scan (meminfo.length + 1) meminfo ⟨buf_2, none, none⟩ with
  | some (s1, s2, b1), some ⟨b2, some tot, some active⟩ =>
    (live_report s1 s2 tot active).map (fun r => (r, b1, b2))
  | _, _ => none

/-- A first line of `stat` (without its newline) of the kernel's form: it fits
the line buffer, contains `cpu`, and has at least 10 tokens, those with index 1
to 9 being decimal numbers whose sum fits an `int`. -/
def stat_line_ok (body : List Char) : Prop :=
  fits_line body ∧ cpu_label <:+: body ∧ 10 ≤ (splitTokens mem_delims body).length ∧
  (∀ t ∈ ((splitTokens mem_delims body).drop 1).take 9, is_digits t) ∧
  (counters body).sum ≤ 2147483647

instance (body : List Char) : Decidable (stat_line_ok body) := by
  unfold stat_line_ok; infer_instance

/-- The sample such a line stands for: the sum of its tokens 1 to 9, and its
token 4. -/
def line_sample (body : List Char) : CpuSample :=
  ⟨((counters body).sum : Nat), (decimal_value ((splitTokens mem_delims body).getD 4 []) : Nat)⟩

/-! ## The load average in `hardware_info` (lines 266-278) and `live_info` (452-469) -/

/-- Lines 270-276 of `hardware_info`: the token loop over the string
`read_file("loadavg")` returned, `tokens` counting the tokens: each of the
first three is printed with `"%s"`, and the loop runs on to the last token.
The result is the text printed and the tokenizer state after the loop. -/
def hardware_load_loop : Nat → TokState → Nat → Option (List Char × TokState)
  | 0, _, _ => none
  | fuel + 1, st, tokens =>
    match next_token st [' '] with
    | (none, st1) => some ([], st1)
    | (some p, st1) =>
      match hardware_load_loop fuel st1 (tokens + 1) with
      | none => none
      | some r => some ((if tokens < 3 then tokenAt st1.buf p else []) ++ r.1, r.2)

/-- Lines 266-278 of `hardware_info`: the text printed after
`"Load Average (1/5/15 min): "`, newline included; `buf` is the static buffer of
`read_file`, `loadavg` the content of the file (`none` when it cannot be
opened). -/
def hardware_load_text (buf : List Char) (loadavg : Option (List Char)) : Option (List Char) :=
  match read_file buf loadavg with
  | none => none
  | some b => (hardware_load_loop (b.length + 1) ⟨b, some 0⟩ 0).map (fun r => r.1 ++ ['\n'])

/-- Lines 457-467 of `live_info`: the token loop of one iteration: each of the
first three tokens is printed with `"%s "`, the fourth one ends the loop
(`break`). -/
def live_load_loop : Nat → TokState → Nat → Option (List Char × TokState)
  | 0, _, _ => none
  | fuel + 1, st, tokens =>
    match next_token st [' '] with
    | (none, st1) => some ([], st1)
    | (some p, st1) =>
      if tokens < 3 then
        match live_load_loop fuel st1 (tokens + 1) with
        | none => none
        | some r => some (tokenAt st1.buf p ++ [' '] ++ r.1, r.2)
      else some ([], st1)

/-- Lines 452-469 of `live_info`: the text one iteration prints after
`"Load Average (1/5/15 min): "`, newline included. -/
def live_load_text (buf : List Char) (loadavg : Option (List Char)) : Option (List Char) :=
  match read_file buf loadavg with
  | none => none
  | some b => (live_load_loop (b.length + 1) ⟨b, some 0⟩ 0).map (fun r => r.1 ++ ['\n'])

/-! ## The banner of `task_info` and the specification of the gauge -/

/-- Line 672: `printf("Tasks Running: %d\n\n", tasks_count)` after the first
loop over the directory. -/
def tasks_running_text (entries : List DirEntry) : List Char :=
  printf_text "Tasks Running: %d\n\n".toList [tasks_count entries 0]

/-! ## A `meminfo` file as a list of lines, for the memory claim -/

/-- A line of a `meminfo` file of the kernel's form: a line that mentions
neither label, a `MemTotal:` line or an `Active:` line, the last two with
`n + 1` blanks before the value. -/
inductive MemLine where
  | other (body : List Char)
  | total (n : Nat)
  | active (n : Nat)
deriving DecidableEq, Repr

/-- The text of a line (without its newline), `dT` and `dA` being the digits of
the two values. -/
def MemLine.text (dT dA : List Char) : MemLine → List Char
  | MemLine.other body => body
  | MemLine.total n => value_line memtotal_label (n + 1) dT
  | MemLine.active n => value_line active_label (n + 1) dA

/-- The line fits the line buffer, and mentions no label if it is not one of the
two value lines. -/
def MemLine.fits (dT dA : List Char) : MemLine → Prop
  | MemLine.other body => other_line body
  | MemLine.total n => (value_line memtotal_label (n + 1) dT).length + 1 < BUF_SZ
  | MemLine.active n => (value_line active_label (n + 1) dA).length + 1 < BUF_SZ

instance (dT dA : List Char) (l : MemLine) : Decidable (MemLine.fits dT dA l) := by
  cases l <;> (simp only [MemLine.fits]; infer_instance)

/-- The `MemTotal:` lines. -/
def MemLine.is_total : MemLine → Bool
  | MemLine.total _ => true
  | _ => false

/-- The `Active:` lines. -/
def MemLine.is_active : MemLine → Bool
  | MemLine.active _ => true
  | _ => false

/-- The text of a `meminfo` file with the given lines, in the given order. -/
def meminfo_lines (dT dA : List Char) (ls : List MemLine) : List Char :=
  lines_text (ls.map (MemLine.text dT dA))

end Inspector

/-! ## Facts about C strings -/

namespace Inspector

theorem cstr_of_not_mem {s : List Char} (h : NUL ∉ s) : cstr s = s := by
  unfold cstr
  rw [List.takeWhile_eq_self_iff]
  intro c hc
  have : c ≠ NUL := fun e => h (e ▸ hc)
  simpa using this

theorem cstr_nul_cons (r : List Char) : cstr (NUL :: r) = [] := by
  simp [cstr]

theorem cstr_append_nul {s : List Char} (h : NUL ∉ s) (r : List Char) :
    cstr (s ++ NUL :: r) = s := by
  unfold cstr
  rw [List.takeWhile_append_of_pos]
  · simp
  · intro c hc
    have : c ≠ NUL := fun e => h (e ▸ hc)
    simpa using this

theorem cstr_append {s : List Char} (h : NUL ∉ s) (r : List Char) :
    cstr (s ++ r) = s ++ cstr r := by
  unfold cstr
  rw [List.takeWhile_append_of_pos]
  intro c hc
  have : c ≠ NUL := fun e => h (e ▸ hc)
  simpa using this

/-- `strspn` over a region that starts with bytes of `D` followed by a byte that
is NUL or outside `D`. -/
theorem strspn_eq {D a : List Char} (hD : NUL ∉ D) (ha : ∀ c ∈ a, c ∈ D)
    (d : Char) (hd : d = NUL ∨ d ∉ D) (rest : List Char) :
    strspn (a ++ d :: rest) D = a.length := by
  have haN : NUL ∉ a := fun h => hD (ha _ h)
  unfold strspn
  rw [cstr_of_not_mem hD, cstr_append haN, List.takeWhile_append_of_pos]
  · rcases hd with rfl | hd
    · simp [cstr_nul_cons]
    · by_cases hn : d = NUL
      · subst hn; simp [cstr_nul_cons]
      · have : cstr (d :: rest) = d :: cstr rest := by simp [cstr, hn]
        simp [this, hd]
  · intro c hc
    simpa using ha c hc

/-- `strcspn` over a region that starts with bytes outside `D` followed by a
byte that is NUL or in `D`. -/
theorem strcspn_eq {D t : List Char} (hD : NUL ∉ D) (ht : ∀ c ∈ t, c ∉ D)
    (htN : NUL ∉ t) (d : Char) (hd : d = NUL ∨ d ∈ D) (rest : List Char) :
    strcspn (t ++ d :: rest) D = t.length := by
  unfold strcspn
  rw [cstr_of_not_mem hD, cstr_append htN, List.takeWhile_append_of_pos]
  · rcases hd with rfl | hd
    · simp [cstr_nul_cons]
    · by_cases hn : d = NUL
      · subst hn; simp [cstr_nul_cons]
      · have : cstr (d :: rest) = d :: cstr rest := by simp [cstr, hn]
        simp [this, hd]
  · intro c hc
    simpa using ht c hc

/-! ## One call of `next_token` -/

/-- No token is left: the rest of the string holds delimiters only. -/
theorem next_token_none {D : List Char} (hD : NUL ∉ D) (pre a post : List Char)
    (ha : ∀ c ∈ a, c ∈ D) :
    next_token ⟨pre ++ a ++ NUL :: post, some pre.length⟩ D
      = (none, ⟨pre ++ a ++ NUL :: post, none⟩) := by
  have h1 : strspn (a ++ NUL :: post) D = a.length :=
    strspn_eq hD ha NUL (Or.inl rfl) post
  have h2 : strcspn (NUL :: post) D = 0 := by
    simpa using strcspn_eq (t := []) hD (by simp) (by simp) NUL (Or.inl rfl) post
  have e1 : (pre ++ a ++ NUL :: post).drop pre.length = a ++ NUL :: post := by
    rw [List.append_assoc, List.drop_left]
  have e2 : (pre ++ a ++ NUL :: post).drop (pre.length + a.length) = NUL :: post := by
    rw [← List.length_append, List.drop_left]
  simp only [next_token, e1, h1, e2, h2, if_true]

/-- The last token: it ends where the string ends. -/
theorem next_token_last {D : List Char} (hD : NUL ∉ D) (pre a t post : List Char)
    (ha : ∀ c ∈ a, c ∈ D) (ht : ∀ c ∈ t, c ∉ D) (htN : NUL ∉ t) (hne : t ≠ []) :
    next_token ⟨pre ++ a ++ t ++ NUL :: post, some pre.length⟩ D
      = (some (pre.length + a.length), ⟨pre ++ a ++ t ++ NUL :: post, none⟩) := by
  obtain ⟨x, t1, rfl⟩ := List.exists_cons_of_ne_nil hne
  have hx : x ∉ D := ht x (List.mem_cons_self _ _)
  have h1 : strspn (a ++ x :: (t1 ++ NUL :: post)) D = a.length :=
    strspn_eq hD ha x (Or.inr hx) _
  have h2 : strcspn (x :: t1 ++ NUL :: post) D = (x :: t1).length :=
    strcspn_eq hD ht htN NUL (Or.inl rfl) post
  have e1 : (pre ++ a ++ (x :: t1) ++ NUL :: post).drop pre.length
      = a ++ x :: (t1 ++ NUL :: post) := by
    simp [List.append_assoc]
  have e2 : (pre ++ a ++ (x :: t1) ++ NUL :: post).drop (pre.length + a.length)
      = x :: t1 ++ NUL :: post := by
    rw [← List.length_append, List.append_assoc (pre ++ a), List.drop_left]
  have e3 : (pre ++ a ++ (x :: t1) ++ NUL :: post).getD
      (pre.length + (a.length + (x :: t1).length)) NUL = NUL := by
    have : pre.length + (a.length + (x :: t1).length) = (pre ++ a ++ (x :: t1)).length := by
      simp [Nat.add_assoc]
    rw [this, List.getD_eq_getElem?_getD, List.getElem?_append_right (Nat.le_refl _)]
    simp
  simp only [next_token, e1, h1, e2, h2, e3, if_true]
  simp

/-- A token followed by a delimiter: the delimiter is overwritten with NUL and
the cursor moves just past it. -/
theorem next_token_mid {D : List Char} (hD : NUL ∉ D) (pre a t : List Char) (d : Char)
    (rest : List Char)
    (ha : ∀ c ∈ a, c ∈ D) (ht : ∀ c ∈ t, c ∉ D) (htN : NUL ∉ t) (hne : t ≠ [])
    (hd : d ∈ D) :
    next_token ⟨pre ++ a ++ t ++ d :: rest, some pre.length⟩ D
      = (some (pre.length + a.length),
          ⟨pre ++ a ++ t ++ NUL :: rest, some (pre.length + (a.length + t.length) + 1)⟩) := by
  obtain ⟨x, t1, rfl⟩ := List.exists_cons_of_ne_nil hne
  have hx : x ∉ D := ht x (List.mem_cons_self _ _)
  have hdN : d ≠ NUL := fun e => hD (e ▸ hd)
  have h1 : strspn (a ++ x :: (t1 ++ d :: rest)) D = a.length :=
    strspn_eq hD ha x (Or.inr hx) _
  have h2 : strcspn (x :: t1 ++ d :: rest) D = (x :: t1).length :=
    strcspn_eq hD ht htN d (Or.inr hd) rest
  have e1 : (pre ++ a ++ (x :: t1) ++ d :: rest).drop pre.length
      = a ++ x :: (t1 ++ d :: rest) := by
    simp [List.append_assoc]
  have e2 : (pre ++ a ++ (x :: t1) ++ d :: rest).drop (pre.length + a.length)
      = x :: t1 ++ d :: rest := by
    rw [← List.length_append, List.append_assoc (pre ++ a), List.drop_left]
  have hlen : pre.length + (a.length + (x :: t1).length) = (pre ++ a ++ (x :: t1)).length := by
    simp [Nat.add_assoc]
  have e3 : (pre ++ a ++ (x :: t1) ++ d :: rest).getD
      (pre.length + (a.length + (x :: t1).length)) NUL = d := by
    rw [hlen, List.getD_eq_getElem?_getD, List.getElem?_append_right (Nat.le_refl _)]
    simp
  have e4 : (pre ++ a ++ (x :: t1) ++ d :: rest).set
      (pre.length + (a.length + (x :: t1).length)) NUL
      = pre ++ a ++ (x :: t1) ++ NUL :: rest := by
    rw [hlen, List.set_append_right _ _ (Nat.le_refl _)]
    simp
  simp only [next_token, e1, h1, e2, h2, e3, e4, hdN, if_false]
  simp

/-! ## The reference split -/

theorem splitTokens_nil (D : List Char) : splitTokens D [] = [] := by
  simp [splitTokens, List.splitOnP_nil]

theorem splitTokens_delim_cons {D : List Char} {d : Char} (hd : d ∈ D) (s : List Char) :
    splitTokens D (d :: s) = splitTokens D s := by
  simp [splitTokens, List.splitOnP_cons, hd]

theorem splitTokens_delims_append {D a : List Char} (ha : ∀ c ∈ a, c ∈ D) (s : List Char) :
    splitTokens D (a ++ s) = splitTokens D s := by
  induction a with
  | nil => rfl
  | cons x a ih =>
    rw [List.cons_append, splitTokens_delim_cons (ha x (List.mem_cons_self _ _))]
    exact ih (fun c hc => ha c (List.mem_cons_of_mem _ hc))

theorem splitTokens_single {D t : List Char} (ht : ∀ c ∈ t, c ∉ D) (hne : t ≠ []) :
    splitTokens D t = [t] := by
  unfold splitTokens
  rw [List.splitOnP_eq_single]
  · simp [hne]
  · intro c hc
    simpa using ht c hc

theorem splitTokens_token_cons {D t : List Char} (ht : ∀ c ∈ t, c ∉ D) (hne : t ≠ [])
    {d : Char} (hd : d ∈ D) (rest : List Char) :
    splitTokens D (t ++ d :: rest) = t :: splitTokens D rest := by
  unfold splitTokens
  rw [List.splitOnP_first]
  · simp [hne]
  · intro c hc
    simpa using ht c hc
  · simpa using hd

/-- Every string is a run of delimiters, then a run of non-delimiters, then
either nothing or a delimiter and a remainder. -/
theorem split_shape (D s : List Char) :
    ∃ a t u, s = a ++ t ++ u ∧ (∀ c ∈ a, c ∈ D) ∧ (∀ c ∈ t, c ∉ D) ∧
      (t = [] → u = []) ∧ (u = [] ∨ ∃ d u1, u = d :: u1 ∧ d ∈ D) := by
  refine ⟨s.takeWhile (fun c => decide (c ∈ D)),
    (s.dropWhile (fun c => decide (c ∈ D))).takeWhile (fun c => !decide (c ∈ D)),
    (s.dropWhile (fun c => decide (c ∈ D))).dropWhile (fun c => !decide (c ∈ D)),
    ?_, ?_, ?_, ?_, ?_⟩
  · rw [List.append_assoc, List.takeWhile_append_dropWhile, List.takeWhile_append_dropWhile]
  · intro c hc
    simpa using List.mem_takeWhile_imp hc
  · intro c hc
    simpa using List.mem_takeWhile_imp hc
  · intro h
    generalize hr : s.dropWhile (fun c => decide (c ∈ D)) = r at h ⊢
    cases r with
    | nil => rfl
    | cons x r =>
      have hx : ¬ (decide (x ∈ D) = true) := by
        have := List.head_dropWhile_not (fun c => decide (c ∈ D)) s (by rw [hr]; simp)
        simpa [hr] using this
      simp [List.takeWhile_cons, hx] at h
  · generalize (s.dropWhile (fun c => decide (c ∈ D))) = r
    generalize hu : r.dropWhile (fun c => !decide (c ∈ D)) = u
    cases u with
    | nil => exact Or.inl rfl
    | cons d u1 =>
      refine Or.inr ⟨d, u1, rfl, ?_⟩
      have := List.head_dropWhile_not (fun c => !decide (c ∈ D)) r (by rw [hu]; simp)
      simpa [hu] using this

/-! ## The token loop computes the reference split -/

theorem next_token_null (b : List Char) (D : List Char) :
    next_token ⟨b, none⟩ D = (none, ⟨b, none⟩) := rfl

theorem token_loop_null (fuel : Nat) (b D : List Char) :
    token_loop (fuel + 1) ⟨b, none⟩ D = some ([], ⟨b, none⟩) := rfl

theorem tokenAt_token (pre a t rest : List Char) (htN : NUL ∉ t) :
    tokenAt (pre ++ a ++ t ++ NUL :: rest) (pre.length + a.length) = t := by
  unfold tokenAt
  rw [← List.length_append, List.append_assoc (pre ++ a), List.drop_left]
  exact cstr_append_nul htN rest

theorem token_loop_spec {D : List Char} (hD : NUL ∉ D) :
    ∀ (fuel : Nat) (s pre post : List Char), NUL ∉ s → s.length < fuel →
      ∃ bufF, token_loop fuel ⟨pre ++ s ++ NUL :: post, some pre.length⟩ D
        = some (splitTokens D s, ⟨bufF, none⟩) := by
  intro fuel
  induction fuel with
  | zero => intro s pre post _ h; exact absurd h (Nat.not_lt_zero _)
  | succ fuel ih =>
    intro s pre post hs hlen
    obtain ⟨a, t, u, rfl, ha, ht, htu, hu⟩ := split_shape D s
    have htN : NUL ∉ t := fun h => hs (by simp [h])
    by_cases hne : t = []
    · -- delimiters only
      have hu0 : u = [] := htu hne
      subst hne; subst hu0
      simp only [List.append_nil] at *
      refine ⟨pre ++ a ++ NUL :: post, ?_⟩
      have hsplit : splitTokens D a = [] := by
        have := splitTokens_delims_append ha []
        simpa [splitTokens_nil] using this
      rw [token_loop, next_token_none hD pre a post ha, hsplit]
    · rcases hu with rfl | ⟨d, u1, rfl, hd⟩
      · -- the last token ends the string
        simp only [List.append_nil] at *
        have hf : ∃ f, fuel = f + 1 := by
          have : 0 < t.length := List.length_pos.mpr hne
          have h2 : (a ++ t).length < fuel + 1 := hlen
          rw [List.length_append] at h2
          exact ⟨fuel - 1, by omega⟩
        obtain ⟨f, rfl⟩ := hf
        refine ⟨pre ++ a ++ t ++ NUL :: post, ?_⟩
        have hsplit : splitTokens D (a ++ t) = [t] := by
          rw [splitTokens_delims_append ha, splitTokens_single ht hne]
        have hbuf : pre ++ (a ++ t) ++ NUL :: post = pre ++ a ++ t ++ NUL :: post := by
          simp [List.append_assoc]
        rw [hbuf, token_loop, next_token_last hD pre a t post ha ht htN hne]
        simp only [token_loop_null, tokenAt_token pre a t post htN, hsplit]
      · -- a token followed by a delimiter
        have hu1 : NUL ∉ u1 := fun h => hs (by simp [h])
        have hl : u1.length < fuel := by
          have h2 : (a ++ t ++ d :: u1).length < fuel + 1 := hlen
          simp only [List.length_append, List.length_cons] at h2
          omega
        obtain ⟨bufF, hrec⟩ := ih u1 (pre ++ a ++ t ++ [NUL]) post hu1 hl
        refine ⟨bufF, ?_⟩
        have hsplit : splitTokens D (a ++ t ++ d :: u1) = t :: splitTokens D u1 := by
          rw [List.append_assoc, splitTokens_delims_append ha,
            splitTokens_token_cons ht hne hd]
        have hbuf : pre ++ (a ++ t ++ d :: u1) ++ NUL :: post
            = pre ++ a ++ t ++ d :: (u1 ++ NUL :: post) := by
          simp [List.append_assoc]
        have hbuf2 : pre ++ a ++ t ++ [NUL] ++ u1 ++ NUL :: post
            = pre ++ a ++ t ++ NUL :: (u1 ++ NUL :: post) := by
          simp [List.append_assoc]
        have hptr : (pre ++ a ++ t ++ [NUL]).length
            = pre.length + (a.length + t.length) + 1 := by
          simp [Nat.add_assoc]
        rw [hbuf2, hptr] at hrec
        rw [hbuf, token_loop,
          next_token_mid hD pre a t d (u1 ++ NUL :: post) ha ht htN hne hd]
        simp only [hrec, tokenAt_token pre a t (u1 ++ NUL :: post) htN, hsplit]

theorem splitTokens_mem_aux {D : List Char} :
    ∀ (n : Nat) (s t : List Char), s.length ≤ n → t ∈ splitTokens D s →
      t ≠ [] ∧ (∀ c ∈ t, c ∉ D) ∧ (∀ c ∈ t, c ∈ s) := by
  intro n
  induction n with
  | zero =>
    intro s t hs h
    have : s = [] := List.length_eq_zero.mp (Nat.le_zero.mp hs)
    subst this
    rw [splitTokens_nil] at h
    exact absurd h (List.not_mem_nil _)
  | succ n ih =>
    intro s t hs h
    obtain ⟨a, t1, u, rfl, ha, ht, htu, hu⟩ := split_shape D s
    by_cases hne : t1 = []
    · have hu0 := htu hne
      subst hne; subst hu0
      have hsplit : splitTokens D (a ++ [] ++ []) = [] := by
        have := splitTokens_delims_append ha []
        simpa [splitTokens_nil] using this
      rw [hsplit] at h
      exact absurd h (List.not_mem_nil _)
    · rcases hu with rfl | ⟨d, u1, rfl, hd⟩
      · have hsplit : splitTokens D (a ++ t1 ++ []) = [t1] := by
          rw [List.append_nil, splitTokens_delims_append ha, splitTokens_single ht hne]
        rw [hsplit, List.mem_singleton] at h
        subst h
        exact ⟨hne, ht, fun c hc => by simp [hc]⟩
      · have hsplit : splitTokens D (a ++ t1 ++ d :: u1) = t1 :: splitTokens D u1 := by
          rw [List.append_assoc, splitTokens_delims_append ha,
            splitTokens_token_cons ht hne hd]
        rw [hsplit, List.mem_cons] at h
        rcases h with rfl | h
        · exact ⟨hne, ht, fun c hc => by simp [hc]⟩
        · have hl : u1.length ≤ n := by
            simp only [List.length_append, List.length_cons] at hs
            omega
          obtain ⟨h1, h2, h3⟩ := ih u1 t hl h
          exact ⟨h1, h2, fun c hc => by simp [h3 c hc]⟩

theorem splitTokens_mem {D s t : List Char} (h : t ∈ splitTokens D s) :
    t ≠ [] ∧ (∀ c ∈ t, c ∉ D) ∧ (∀ c ∈ t, c ∈ s) :=
  splitTokens_mem_aux s.length s t (Nat.le_refl _) h

/-! ## The canonical form -/

theorem joinTokens_nil (d : Char) : joinTokens d [] = [] := rfl

theorem joinTokens_single (d : Char) (t : List Char) : joinTokens d [t] = t := by
  simp [joinTokens, List.intercalate, List.intersperse]

theorem joinTokens_cons_cons (d : Char) (t t2 : List Char) (r : List (List Char)) :
    joinTokens d (t :: t2 :: r) = t ++ d :: joinTokens d (t2 :: r) := by
  simp [joinTokens, List.intercalate, List.intersperse]

theorem splitTokens_join {D : List Char} {d : Char} (hd : d ∈ D) :
    ∀ ts : List (List Char), (∀ t ∈ ts, t ≠ [] ∧ ∀ c ∈ t, c ∉ D) →
      splitTokens D (joinTokens d ts) = ts := by
  intro ts
  induction ts with
  | nil => intro _; rw [joinTokens_nil, splitTokens_nil]
  | cons t r ih =>
    intro h
    have ht := h t (List.mem_cons_self _ _)
    cases r with
    | nil => rw [joinTokens_single, splitTokens_single ht.2 ht.1]
    | cons t2 r =>
      rw [joinTokens_cons_cons, splitTokens_token_cons ht.2 ht.1 hd,
        ih (fun x hx => h x (List.mem_cons_of_mem _ hx))]

theorem joinTokens_not_mem {x d : Char} :
    ∀ ts : List (List Char), x ≠ d → (∀ t ∈ ts, x ∉ t) → x ∉ joinTokens d ts := by
  intro ts
  induction ts with
  | nil => intro _ _; simp [joinTokens_nil]
  | cons t r ih =>
    intro hx h
    have ht := h t (List.mem_cons_self _ _)
    cases r with
    | nil => rwa [joinTokens_single]
    | cons t2 r =>
      rw [joinTokens_cons_cons]
      have := ih hx (fun y hy => h y (List.mem_cons_of_mem _ hy))
      simp [ht, hx, this]

/-- A string in which no two neighbouring bytes are both delimiters. -/
theorem chain_of_no_delim {D t : List Char} (ht : ∀ c ∈ t, c ∉ D) :
    List.Chain' (fun x y => ¬ (x ∈ D ∧ y ∈ D)) t := by
  induction t with
  | nil => exact List.chain'_nil
  | cons x t ih =>
    rw [List.chain'_cons']
    refine ⟨fun y _ hxy => ht x (List.mem_cons_self _ _) hxy.1, ?_⟩
    exact ih (fun c hc => ht c (List.mem_cons_of_mem _ hc))

theorem joinTokens_head {d : Char} (t : List Char) (r : List (List Char)) (hne : t ≠ []) :
    (joinTokens d (t :: r)).head? = t.head? := by
  cases r with
  | nil => rw [joinTokens_single]
  | cons t2 r =>
    rw [joinTokens_cons_cons]
    cases t with
    | nil => exact absurd rfl hne
    | cons x t => rfl

theorem joinTokens_chain {D : List Char} {d : Char} :
    ∀ ts : List (List Char), (∀ t ∈ ts, t ≠ [] ∧ ∀ c ∈ t, c ∉ D) →
      List.Chain' (fun x y => ¬ (x ∈ D ∧ y ∈ D)) (joinTokens d ts) := by
  intro ts
  induction ts with
  | nil => intro _; exact List.chain'_nil
  | cons t r ih =>
    intro h
    have ht := h t (List.mem_cons_self _ _)
    cases r with
    | nil => rw [joinTokens_single]; exact chain_of_no_delim ht.2
    | cons t2 r =>
      have hr := ih (fun x hx => h x (List.mem_cons_of_mem _ hx))
      have ht2 := h t2 (List.mem_cons_of_mem _ (List.mem_cons_self _ _))
      rw [joinTokens_cons_cons, List.chain'_append]
      refine ⟨chain_of_no_delim ht.2, ?_, ?_⟩
      · rw [List.chain'_cons']
        refine ⟨?_, hr⟩
        intro y hy hxy
        rw [joinTokens_head t2 r ht2.1] at hy
        exact ht2.2 y (List.mem_of_mem_head? hy) hxy.2
      · intro x hx y _ hxy
        exact ht.2 x (List.mem_of_mem_getLast? hx) hxy.1

theorem weave_cons_head (d : Char) (g : List Char) (gs ts : List (List Char)) :
    weave ((d :: g) :: gs) ts = d :: weave (g :: gs) ts := by
  cases ts <;> simp [weave]

/-- The reference split lists the maximal runs: the string is the tokens in
order, separated by non-empty runs of delimiters, with possibly empty runs of
delimiters in front and behind. -/
theorem splitTokens_runs_aux (D : List Char) :
    ∀ (n : Nat) (s : List Char), s.length ≤ n →
      ∃ gaps : List (List Char),
        gaps.length = (splitTokens D s).length + 1 ∧
        (∀ g ∈ gaps, ∀ c ∈ g, c ∈ D) ∧
        (∀ g ∈ gaps.tail.dropLast, g ≠ []) ∧
        s = weave gaps (splitTokens D s) := by
  intro n
  induction n with
  | zero =>
    intro s hs
    have : s = [] := List.length_eq_zero.mp (Nat.le_zero.mp hs)
    subst this
    exact ⟨[[]], by simp [splitTokens_nil], by simp, by simp, by simp [splitTokens_nil, weave]⟩
  | succ n ih =>
    intro s hs
    obtain ⟨a, t, u, rfl, ha, ht, htu, hu⟩ := split_shape D s
    by_cases hne : t = []
    · have hu0 := htu hne
      subst hne; subst hu0
      have hsplit : splitTokens D (a ++ [] ++ []) = [] := by
        have := splitTokens_delims_append ha []
        simpa [splitTokens_nil] using this
      refine ⟨[a], by rw [hsplit]; simp, ?_, by simp, by rw [hsplit]; simp [weave]⟩
      intro g hg
      rw [List.mem_singleton.mp hg]; exact ha
    · rcases hu with rfl | ⟨d, u1, rfl, hd⟩
      · have hsplit : splitTokens D (a ++ t ++ []) = [t] := by
          rw [List.append_nil, splitTokens_delims_append ha, splitTokens_single ht hne]
        refine ⟨[a, []], by rw [hsplit]; simp, ?_, by simp, by rw [hsplit]; simp [weave]⟩
        intro g hg
        simp only [List.mem_cons, List.mem_singleton, List.not_mem_nil, or_false] at hg
        rcases hg with rfl | rfl
        · exact ha
        · simp
      · have hsplit : splitTokens D (a ++ t ++ d :: u1) = t :: splitTokens D u1 := by
          rw [List.append_assoc, splitTokens_delims_append ha,
            splitTokens_token_cons ht hne hd]
        have hl : u1.length ≤ n := by
          simp only [List.length_append, List.length_cons] at hs
          omega
        obtain ⟨gaps, hlen, hmem, hinner, hw⟩ := ih u1 hl
        cases gaps with
        | nil => simp at hlen
        | cons g0 rest =>
          refine ⟨a :: (d :: g0) :: rest, ?_, ?_, ?_, ?_⟩
          · simp only [hsplit, List.length_cons] at hlen ⊢
            omega
          · intro g hg
            simp only [List.mem_cons] at hg
            rcases hg with rfl | rfl | hg
            · exact ha
            · intro c hc
              rcases List.mem_cons.mp hc with rfl | hc
              · exact hd
              · exact hmem g0 (List.mem_cons_self _ _) c hc
            · exact hmem g (List.mem_cons_of_mem _ hg)
          · intro g hg
            simp only [List.tail_cons] at hg hinner
            cases rest with
            | nil => simp at hg
            | cons r1 rest =>
              rw [List.dropLast_cons₂] at hg
              rcases List.mem_cons.mp hg with rfl | hg
              · simp
              · exact hinner g hg
          · rw [hsplit]
            simp only [weave]
            rw [weave_cons_head, ← hw]

theorem splitTokens_runs (D s : List Char) :
    ∃ gaps : List (List Char),
      gaps.length = (splitTokens D s).length + 1 ∧
      (∀ g ∈ gaps, ∀ c ∈ g, c ∈ D) ∧
      (∀ g ∈ gaps.tail.dropLast, g ≠ []) ∧
      s = weave gaps (splitTokens D s) :=
  splitTokens_runs_aux D s.length s (Nat.le_refl _)

/-! ## Tokenizer claims -/

/-- C1: for every NUL-terminated string `s` (stored anywhere in a buffer, the
cursor at its start) and every delimiter set `D`, calling `next_token` until it
returns NULL terminates within `s.length + 1` calls and yields, in order,
exactly `s` split on the bytes of `D` with the empty pieces dropped; every
returned token is non-empty and has no byte of `D`; and the tokens are the
maximal such runs: `s` is the tokens in order, separated by non-empty runs of
delimiters, with runs of delimiters (possibly empty) in front and behind. -/
theorem next_token_yields_split (s D pre post : List Char) (fuel : Nat)
    (hs : NUL ∉ s) (hD : NUL ∉ D) (hfuel : s.length < fuel) :
    (∃ bufF, token_loop fuel ⟨pre ++ s ++ NUL :: post, some pre.length⟩ D
        = some (splitTokens D s, ⟨bufF, none⟩)) ∧
    (∀ t ∈ splitTokens D s, t ≠ [] ∧ ∀ c ∈ t, c ∉ D) ∧
    (∃ gaps : List (List Char),
      gaps.length = (splitTokens D s).length + 1 ∧
      (∀ g ∈ gaps, ∀ c ∈ g, c ∈ D) ∧
      (∀ g ∈ gaps.tail.dropLast, g ≠ []) ∧
      s = weave gaps (splitTokens D s)) :=
  ⟨token_loop_spec hD fuel s pre post hs hfuel,
    fun _ ht => ⟨(splitTokens_mem ht).1, (splitTokens_mem ht).2.1⟩,
    splitTokens_runs D s⟩

theorem next_token_yields_split_witness :
    (NUL ∉ ['a', 'b', ',', ',', 'c']) ∧ (NUL ∉ [',']) ∧
    ((∃ bufF, token_loop 6 ⟨['x'] ++ ['a', 'b', ',', ',', 'c'] ++ NUL :: [], some 1⟩ [',']
        = some (splitTokens [','] ['a', 'b', ',', ',', 'c'], ⟨bufF, none⟩)) ∧
      (∀ t ∈ splitTokens [','] ['a', 'b', ',', ',', 'c'], t ≠ [] ∧ ∀ c ∈ t, c ∉ [',']) ∧
      (∃ gaps : List (List Char),
        gaps.length = (splitTokens [','] ['a', 'b', ',', ',', 'c']).length + 1 ∧
        (∀ g ∈ gaps, ∀ c ∈ g, c ∈ [',']) ∧
        (∀ g ∈ gaps.tail.dropLast, g ≠ []) ∧
        ['a', 'b', ',', ',', 'c'] = weave gaps (splitTokens [','] ['a', 'b', ',', ',', 'c']))) :=
  ⟨by decide, by decide,
    next_token_yields_split ['a', 'b', ',', ',', 'c'] [','] ['x'] [] 6
      (by decide) (by decide) (by decide)⟩

theorem next_token_ret_none (st : TokState) (D : List Char)
    (h : (next_token st D).1 = none) :
    (next_token st D).2 = ⟨st.buf, none⟩ := by
  obtain ⟨buf, ptr⟩ := st
  cases ptr with
  | none => rfl
  | some p =>
    by_cases h0 : strcspn (buf.drop (p + strspn (buf.drop p) D)) D = 0
    · simp [next_token, h0]
    · exfalso
      simp only [next_token, h0, if_false] at h
      split at h <;> simp at h

theorem iterate_null (D b : List Char) (n : Nat) :
    Nat.iterate (fun x => (next_token x D).2) n ⟨b, none⟩ = ⟨b, none⟩ := by
  induction n with
  | zero => rfl
  | succ n ih => rw [Function.iterate_succ_apply, next_token_null, ih]

/-- C2: once `next_token` has returned NULL the cursor is NULL and the buffer is
as it was; every later call (after any number of further calls) returns NULL
again and changes neither the buffer nor the cursor.  And when the last token
stops exactly where the string stops, that call still returns the token and
leaves the cursor NULL. -/
theorem next_token_exhaustion (D : List Char) (hD : NUL ∉ D) :
    (∀ st : TokState, (next_token st D).1 = none →
      (next_token st D).2.ptr = none ∧ (next_token st D).2.buf = st.buf ∧
      ∀ n : Nat,
        (next_token (Nat.iterate (fun x => (next_token x D).2) n (next_token st D).2) D)
          = (none, (next_token st D).2)) ∧
    (∀ pre a t post : List Char, (∀ c ∈ a, c ∈ D) → (∀ c ∈ t, c ∉ D) → NUL ∉ t → t ≠ [] →
      (next_token ⟨pre ++ a ++ t ++ NUL :: post, some pre.length⟩ D).1
          = some (pre.length + a.length) ∧
      tokenAt (next_token ⟨pre ++ a ++ t ++ NUL :: post, some pre.length⟩ D).2.buf
          (pre.length + a.length) = t ∧
      (next_token ⟨pre ++ a ++ t ++ NUL :: post, some pre.length⟩ D).2.ptr = none) := by
  refine ⟨?_, ?_⟩
  · intro st h
    rw [next_token_ret_none st D h]
    refine ⟨rfl, rfl, fun n => ?_⟩
    rw [iterate_null, next_token_null]
  · intro pre a t post ha ht htN hne
    rw [next_token_last hD pre a t post ha ht htN hne]
    exact ⟨rfl, tokenAt_token pre a t post htN, rfl⟩

theorem next_token_exhaustion_witness :
    (NUL ∉ [',']) ∧
    ((next_token ⟨[',', NUL], some 0⟩ [',']).1 = none ∧
      ((next_token ⟨[',', NUL], some 0⟩ [',']).2.ptr = none ∧
       (next_token ⟨[',', NUL], some 0⟩ [',']).2.buf = [',', NUL] ∧
       ∀ n : Nat,
        (next_token (Nat.iterate (fun x => (next_token x [',']).2) n
            (next_token ⟨[',', NUL], some 0⟩ [',']).2) [','])
          = (none, (next_token ⟨[',', NUL], some 0⟩ [',']).2))) ∧
    ((∀ c ∈ [','], c ∈ [',']) ∧ (∀ c ∈ ['a', 'b'], c ∉ [',']) ∧ NUL ∉ ['a', 'b'] ∧
      ['a', 'b'] ≠ [] ∧
      ((next_token ⟨['x'] ++ [','] ++ ['a', 'b'] ++ NUL :: [], some 1⟩ [',']).1 = some (1 + 1) ∧
       tokenAt (next_token ⟨['x'] ++ [','] ++ ['a', 'b'] ++ NUL :: [], some 1⟩ [',']).2.buf
          (1 + 1) = ['a', 'b'] ∧
       (next_token ⟨['x'] ++ [','] ++ ['a', 'b'] ++ NUL :: [], some 1⟩ [',']).2.ptr = none)) :=
  ⟨by decide,
   ⟨by decide, (next_token_exhaustion [','] (by decide)).1 ⟨[',', NUL], some 0⟩ (by decide)⟩,
   by decide, by decide, by decide, by decide,
   (next_token_exhaustion [','] (by decide)).2 ['x'] [','] ['a', 'b'] []
     (by decide) (by decide) (by decide) (by decide)⟩

/-- C4: for every delimiter set `D`, a string made only of bytes of `D` (the
empty string included) yields zero tokens: the first `next_token` call returns
NULL and sets the cursor to NULL, so the token loop collects nothing; for the
empty string this holds whatever `D` is. -/
theorem next_token_all_delims (D a pre post : List Char) (hD : NUL ∉ D)
    (ha : ∀ c ∈ a, c ∈ D) :
    (next_token ⟨pre ++ a ++ NUL :: post, some pre.length⟩ D).1 = none ∧
    (next_token ⟨pre ++ a ++ NUL :: post, some pre.length⟩ D).2.ptr = none ∧
    (∀ fuel, token_loop (fuel + 1) ⟨pre ++ a ++ NUL :: post, some pre.length⟩ D
        = some ([], ⟨pre ++ a ++ NUL :: post, none⟩)) ∧
    (∀ D1 : List Char, next_token ⟨pre ++ NUL :: post, some pre.length⟩ D1
        = (none, ⟨pre ++ NUL :: post, none⟩)) := by
  refine ⟨?_, ?_, ?_, ?_⟩
  · rw [next_token_none hD pre a post ha]
  · rw [next_token_none hD pre a post ha]
  · intro fuel
    rw [token_loop, next_token_none hD pre a post ha]
  · intro D1
    have e1 : (pre ++ NUL :: post).drop pre.length = NUL :: post := List.drop_left _ _
    simp [next_token, e1, strspn, strcspn, cstr_nul_cons]

theorem next_token_all_delims_witness :
    (NUL ∉ [',', ';']) ∧ (∀ c ∈ [';', ',', ','], c ∈ [',', ';']) ∧
    ((next_token ⟨['x'] ++ [';', ',', ','] ++ NUL :: ['y'], some 1⟩ [',', ';']).1 = none ∧
    (next_token ⟨['x'] ++ [';', ',', ','] ++ NUL :: ['y'], some 1⟩ [',', ';']).2.ptr = none ∧
    (∀ fuel, token_loop (fuel + 1) ⟨['x'] ++ [';', ',', ','] ++ NUL :: ['y'], some 1⟩ [',', ';']
        = some ([], ⟨['x'] ++ [';', ',', ','] ++ NUL :: ['y'], none⟩)) ∧
    (∀ D1 : List Char, next_token ⟨['x'] ++ NUL :: ['y'], some 1⟩ D1
        = (none, ⟨['x'] ++ NUL :: ['y'], none⟩))) :=
  ⟨by decide, by decide,
    next_token_all_delims [',', ';'] [';', ',', ','] ['x'] ['y'] (by decide) (by decide)⟩

/-- C3: for every string `s`, delimiter set `D` and delimiter `d` in `D`, the
tokens that the `next_token` loop returns for `s`, joined by single `d`s, form a
string whose own token sequence under `D` is the same token list; in that
canonical form no two neighbouring bytes are both delimiters. -/
theorem tokenize_canonical_form (s D : List Char) (d : Char)
    (hs : NUL ∉ s) (hD : NUL ∉ D) (hd : d ∈ D) :
    ∃ ts st1 st2,
      token_loop (s.length + 1) ⟨s ++ [NUL], some 0⟩ D = some (ts, st1) ∧
      token_loop ((joinTokens d ts).length + 1) ⟨joinTokens d ts ++ [NUL], some 0⟩ D
        = some (ts, st2) ∧
      List.Chain' (fun x y => ¬ (x ∈ D ∧ y ∈ D)) (joinTokens d ts) := by
  have hdN : NUL ≠ d := fun e => hD (e ▸ hd)
  have hts : ∀ t ∈ splitTokens D s, t ≠ [] ∧ ∀ c ∈ t, c ∉ D :=
    fun t ht => ⟨(splitTokens_mem ht).1, (splitTokens_mem ht).2.1⟩
  have hjN : NUL ∉ joinTokens d (splitTokens D s) :=
    joinTokens_not_mem _ hdN (fun t ht h => hs ((splitTokens_mem ht).2.2 _ h))
  obtain ⟨b1, h1⟩ := token_loop_spec hD (s.length + 1) s [] [] hs (Nat.lt_succ_self _)
  obtain ⟨b2, h2⟩ := token_loop_spec hD ((joinTokens d (splitTokens D s)).length + 1)
    (joinTokens d (splitTokens D s)) [] [] hjN (Nat.lt_succ_self _)
  rw [splitTokens_join hd _ hts] at h2
  exact ⟨splitTokens D s, ⟨b1, none⟩, ⟨b2, none⟩, by simpa using h1, by simpa using h2,
    joinTokens_chain _ hts⟩

theorem tokenize_canonical_form_witness :
    (NUL ∉ [',', 'a', ';', ';', 'b', ',']) ∧ (NUL ∉ [',', ';']) ∧ (';' ∈ [',', ';']) ∧
    ∃ ts st1 st2,
      token_loop ([',', 'a', ';', ';', 'b', ','].length + 1)
        ⟨[',', 'a', ';', ';', 'b', ','] ++ [NUL], some 0⟩ [',', ';'] = some (ts, st1) ∧
      token_loop ((joinTokens ';' ts).length + 1) ⟨joinTokens ';' ts ++ [NUL], some 0⟩ [',', ';']
        = some (ts, st2) ∧
      List.Chain' (fun x y => ¬ (x ∈ [',', ';'] ∧ y ∈ [',', ';'])) (joinTokens ';' ts) :=
  ⟨by decide, by decide, by decide,
    tokenize_canonical_form [',', 'a', ';', ';', 'b', ','] [',', ';'] ';'
      (by decide) (by decide) (by decide)⟩

/-! ## Uptime claims -/

theorem wrap32_of_range {x : Int} (h0 : -2147483648 ≤ x) (h1 : x < 2147483648) :
    wrap32 x = x := by
  unfold wrap32; omega

theorem idiv_of_nonneg {a b : Int} (ha : 0 ≤ a) (ha1 : a < 2147483648) (hb : 0 < b) :
    idiv a b = a / b := by
  unfold idiv
  rw [Int.tdiv_eq_ediv ha (Int.le_of_lt hb)]
  have h0 : 0 ≤ a / b := Int.ediv_nonneg ha (Int.le_of_lt hb)
  have h1 : a / b ≤ a := Int.ediv_le_self b ha
  exact wrap32_of_range (by omega) (by omega)

theorem uptime_split_of_nonneg (t : Int) (h0 : 0 ≤ t) (h1 : t < 2147483648) :
    uptime_split t =
      { y := t / 31536000,
        d := t % 31536000 / 86400,
        h := t % 31536000 % 86400 / 3600,
        m := t % 31536000 % 86400 % 3600 / 60,
        s := t % 31536000 % 86400 % 3600 % 60 } := by
  have e1 : idiv t 60 = t / 60 := idiv_of_nonneg h0 h1 (by decide)
  have e2 : idiv (t / 60) 60 = t / 60 / 60 := idiv_of_nonneg (by omega) (by omega) (by decide)
  have e3 : idiv (t / 60 / 60) 24 = t / 60 / 60 / 24 :=
    idiv_of_nonneg (by omega) (by omega) (by decide)
  have e4 : idiv (t / 60 / 60 / 24) 365 = t / 31536000 := by
    rw [idiv_of_nonneg (by omega) (by omega) (by decide)]; omega
  have m1 : imul (imul (imul (imul (t / 31536000) 60) 60) 24) 365 = t / 31536000 * 31536000 := by
    simp only [imul]
    rw [wrap32_of_range (x := t / 31536000 * 60) (by omega) (by omega),
      wrap32_of_range (x := t / 31536000 * 60 * 60) (by omega) (by omega),
      wrap32_of_range (x := t / 31536000 * 60 * 60 * 24) (by omega) (by omega),
      wrap32_of_range (x := t / 31536000 * 60 * 60 * 24 * 365) (by omega) (by omega)]
    omega
  have s1 : isub t (t / 31536000 * 31536000) = t % 31536000 := by
    unfold isub; rw [wrap32_of_range (by omega) (by omega)]; omega
  have c1 : imul (imul 24 60) 60 = 86400 := by decide
  have e5 : idiv (t % 31536000) 86400 = t % 31536000 / 86400 :=
    idiv_of_nonneg (by omega) (by omega) (by decide)
  have m2 : imul (imul (imul (t % 31536000 / 86400) 24) 60) 60
      = t % 31536000 / 86400 * 86400 := by
    simp only [imul]
    rw [wrap32_of_range (x := t % 31536000 / 86400 * 24) (by omega) (by omega),
      wrap32_of_range (x := t % 31536000 / 86400 * 24 * 60) (by omega) (by omega),
      wrap32_of_range (x := t % 31536000 / 86400 * 24 * 60 * 60) (by omega) (by omega)]
    omega
  have s2 : isub (t % 31536000) (t % 31536000 / 86400 * 86400) = t % 31536000 % 86400 := by
    unfold isub; rw [wrap32_of_range (by omega) (by omega)]; omega
  have e6 : idiv (t % 31536000 % 86400) 3600 = t % 31536000 % 86400 / 3600 :=
    idiv_of_nonneg (by omega) (by omega) (by decide)
  have m3 : imul (t % 31536000 % 86400 / 3600) 3600 = t % 31536000 % 86400 / 3600 * 3600 := by
    unfold imul; rw [wrap32_of_range (by omega) (by omega)]
  have s3 : isub (t % 31536000 % 86400) (t % 31536000 % 86400 / 3600 * 3600)
      = t % 31536000 % 86400 % 3600 := by
    unfold isub; rw [wrap32_of_range (by omega) (by omega)]; omega
  have e7 : idiv (t % 31536000 % 86400 % 3600) 60 = t % 31536000 % 86400 % 3600 / 60 :=
    idiv_of_nonneg (by omega) (by omega) (by decide)
  have m4 : imul (t % 31536000 % 86400 % 3600 / 60) 60
      = t % 31536000 % 86400 % 3600 / 60 * 60 := by
    unfold imul; rw [wrap32_of_range (by omega) (by omega)]
  have s4 : isub (t % 31536000 % 86400 % 3600) (t % 31536000 % 86400 % 3600 / 60 * 60)
      = t % 31536000 % 86400 % 3600 % 60 := by
    unfold isub; rw [wrap32_of_range (by omega) (by omega)]; omega
  simp only [uptime_split, e1, e2, e3, e4, m1, s1, c1, e5, m2, s2, e6, m3, s3, e7, m4, s4]

/-- C5: for every uptime `t` with `0 <= t < 2^31`, `sys_info` computes
`y = t / 31536000` and `d, h, m, s` with `0 <= d < 365`, `0 <= h < 24`,
`0 <= m < 60`, `0 <= s < 60` and `31536000*y + 86400*d + 3600*h + 60*m + s = t`. -/
theorem uptime_split_correct (t : Int) (h0 : 0 ≤ t) (h1 : t < 2147483648) :
    (uptime_split t).y = t / 31536000 ∧
    (0 ≤ (uptime_split t).d ∧ (uptime_split t).d < 365) ∧
    (0 ≤ (uptime_split t).h ∧ (uptime_split t).h < 24) ∧
    (0 ≤ (uptime_split t).m ∧ (uptime_split t).m < 60) ∧
    (0 ≤ (uptime_split t).s ∧ (uptime_split t).s < 60) ∧
    31536000 * (uptime_split t).y + 86400 * (uptime_split t).d + 3600 * (uptime_split t).h
      + 60 * (uptime_split t).m + (uptime_split t).s = t := by
  rw [uptime_split_of_nonneg t h0 h1]
  dsimp only
  omega

theorem uptime_split_correct_witness :
    (0 : Int) ≤ 90061 ∧ (90061 : Int) < 2147483648 ∧
    ((uptime_split 90061).y = 90061 / 31536000 ∧
    (0 ≤ (uptime_split 90061).d ∧ (uptime_split 90061).d < 365) ∧
    (0 ≤ (uptime_split 90061).h ∧ (uptime_split 90061).h < 24) ∧
    (0 ≤ (uptime_split 90061).m ∧ (uptime_split 90061).m < 60) ∧
    (0 ≤ (uptime_split 90061).s ∧ (uptime_split 90061).s < 60) ∧
    31536000 * (uptime_split 90061).y + 86400 * (uptime_split 90061).d
      + 3600 * (uptime_split 90061).h
      + 60 * (uptime_split 90061).m + (uptime_split 90061).s = 90061) :=
  ⟨by decide, by decide, uptime_split_correct 90061 (by decide) (by decide)⟩

theorem shows_iff_fmts (unit : String) (calls : List PrintfCall) :
    shows unit calls ↔ ∃ f ∈ calls.map PrintfCall.fmt, unit.toList <:+: f.toList := by
  simp [shows]

theorem uptime_printfs_fmts (u : Uptime) :
    (uptime_printfs u).map PrintfCall.fmt
      = uptime_fmts (decide (u.y = 0)) (decide (u.d = 0)) (decide (u.h = 0)) := by
  by_cases hy : u.y = 0 <;> by_cases hd : u.d = 0 <;> by_cases hh : u.h = 0 <;>
    simp [uptime_printfs, uptime_fmts, hy, hd, hh]

theorem uptime_fmts_table : ∀ y0 d0 h0 : Bool,
    ((∃ f ∈ uptime_fmts y0 d0 h0, "years".toList <:+: f.toList) ↔ y0 = false) ∧
    ((∃ f ∈ uptime_fmts y0 d0 h0, "days".toList <:+: f.toList) ↔ d0 = false) ∧
    ((∃ f ∈ uptime_fmts y0 d0 h0, "hours".toList <:+: f.toList) ↔ h0 = false) ∧
    (∃ f ∈ uptime_fmts y0 d0 h0, "minutes".toList <:+: f.toList) ∧
    (∃ f ∈ uptime_fmts y0 d0 h0, "seconds".toList <:+: f.toList) := by
  decide

/-- C7 (as amended): for every value `atoi` can return, the uptime rendering
omits years, days or hours exactly when that unit itself is zero, whatever the
coarser units are; minutes and seconds are always shown. -/
theorem uptime_omits_zero_units (t : Int) :
    (¬ shows "years" (uptime_printfs (uptime_split t)) ↔ (uptime_split t).y = 0) ∧
    (¬ shows "days" (uptime_printfs (uptime_split t)) ↔ (uptime_split t).d = 0) ∧
    (¬ shows "hours" (uptime_printfs (uptime_split t)) ↔ (uptime_split t).h = 0) ∧
    shows "minutes" (uptime_printfs (uptime_split t)) ∧
    shows "seconds" (uptime_printfs (uptime_split t)) := by
  have key := uptime_fmts_table (decide ((uptime_split t).y = 0))
    (decide ((uptime_split t).d = 0)) (decide ((uptime_split t).h = 0))
  simp only [← uptime_printfs_fmts, ← shows_iff_fmts] at key
  obtain ⟨k1, k2, k3, k4, k5⟩ := key
  refine ⟨?_, ?_, ?_, k4, k5⟩
  · rw [k1]; simp
  · rw [k2]; simp
  · rw [k3]; simp

/-- C7 fails as stated: at an uptime of 86400 seconds (one day, zero hours) the
hours are omitted although a coarser unit, days, is not zero. -/
theorem uptime_hours_dropped_after_days :
    ¬ omits_only_leading_zeros 86400 ∧
    ¬ shows "hours" (uptime_printfs (uptime_split 86400)) ∧
    (uptime_split 86400).d = 1 ∧ (uptime_split 86400).h = 0 := by
  decide

/-- C6: the three uptimes the specification lists print as it says, but at
86400 seconds (one day, zero hours) the text starts with a blank that is no
part of the displayed units: the branch for `d != 0, h == 0` has a stray space
at the head of its format. -/
theorem uptime_text_stray_space :
    uptime_text 86400 = " 1 days, 0 minutes, 0 seconds\n" ∧
    units_text (displayed_units (uptime_split 86400)) = "1 days, 0 minutes, 0 seconds\n" ∧
    uptime_text 86400 ≠ units_text (displayed_units (uptime_split 86400)) ∧
    uptime_text 0 = "0 minutes, 0 seconds\n" ∧
    uptime_text 90061 = "1 days, 1 hours, 1 minutes, 1 seconds\n" ∧
    uptime_text 31536000 = "1 years, 0 minutes, 0 seconds\n" := by
  decide

/-- Outside the branch `d != 0, h == 0` the printed text is exactly the displayed
units joined by `", "` and a newline. -/
theorem uptime_text_eq_units_text (t : Int)
    (h : (uptime_split t).d = 0 ∨ (uptime_split t).h ≠ 0) :
    uptime_text t = units_text (displayed_units (uptime_split t)) := by
  unfold uptime_text
  generalize uptime_split t = u at h ⊢
  by_cases hy : u.y = 0 <;> by_cases hd : u.d = 0 <;> by_cases hh : u.h = 0 <;>
    simp [uptime_printfs, printfs_text, printf_text, units_text, displayed_units,
      List.intercalate, List.intersperse, hy, hd, hh] at h ⊢

/-- In the branch `d != 0, h == 0` the printed text has one blank in front of the
days. -/
theorem uptime_text_days_no_hours (t : Int)
    (hd : (uptime_split t).d ≠ 0) (hh : (uptime_split t).h = 0) :
    (uptime_text t).toList =
      (if (uptime_split t).y = 0 then [] else fmt_d (uptime_split t).y ++ " years, ".toList)
      ++ ' ' :: (units_text [((uptime_split t).d, "days"), ((uptime_split t).m, "minutes"),
          ((uptime_split t).s, "seconds")]).toList := by
  unfold uptime_text
  generalize uptime_split t = u at hd hh ⊢
  by_cases hy : u.y = 0 <;>
    simp [uptime_printfs, printfs_text, printf_text, units_text,
      List.intercalate, List.intersperse, hy, hd, hh]

/-! ## Rounding to a floating-point format -/

theorem log2_aux_spec : ∀ (fuel n : Nat), n ≤ fuel → n ≠ 0 →
    2 ^ log2_aux fuel n ≤ n ∧ n < 2 ^ (log2_aux fuel n + 1) := by
  intro fuel
  induction fuel with
  | zero => intro n h h0; omega
  | succ fuel ih =>
    intro n h h0
    unfold log2_aux
    by_cases h2 : n < 2
    · simp only [h2, if_true]
      omega
    · simp only [h2, if_false]
      obtain ⟨a, b⟩ := ih (n / 2) (by omega) (by omega)
      constructor
      · rw [pow_succ]; omega
      · rw [pow_succ]; omega

theorem nat_log2_spec {n : Nat} (h0 : n ≠ 0) :
    2 ^ nat_log2 n ≤ n ∧ n < 2 ^ (nat_log2 n + 1) :=
  log2_aux_spec n n (Nat.le_refl _) h0

theorem ilog2_spec {x : ℚ} (hx : 0 < x) :
    (2 : ℚ) ^ ilog2 x ≤ x ∧ x < (2 : ℚ) ^ (ilog2 x + 1) := by
  have hnum : 0 < x.num := Rat.num_pos.mpr hx
  have hn0 : x.num.natAbs ≠ 0 := by omega
  have hd0 : x.den ≠ 0 := x.den_nz
  obtain ⟨n1, n2⟩ := nat_log2_spec hn0
  obtain ⟨d1, d2⟩ := nat_log2_spec hd0
  have hxe : x = (x.num.natAbs : ℚ) / (x.den : ℚ) := by
    have : ((x.num.natAbs : ℤ) : ℚ) = (x.num : ℚ) := by
      rw [Int.natAbs_of_nonneg (le_of_lt hnum)]
    rw [← Int.cast_natCast, this]
    exact (Rat.num_div_den x).symm
  have hdpos : (0 : ℚ) < x.den := by exact_mod_cast Nat.pos_of_ne_zero hd0
  have N1 : (2 : ℚ) ^ (nat_log2 x.num.natAbs : ℤ) ≤ (x.num.natAbs : ℚ) := by
    rw [zpow_natCast]; exact_mod_cast n1
  have N2 : (x.num.natAbs : ℚ) < (2 : ℚ) ^ ((nat_log2 x.num.natAbs : ℤ) + 1) := by
    rw [show ((nat_log2 x.num.natAbs : ℤ) + 1) = ((nat_log2 x.num.natAbs + 1 : ℕ) : ℤ) by simp,
      zpow_natCast]; exact_mod_cast n2
  have D1 : (2 : ℚ) ^ (nat_log2 x.den : ℤ) ≤ (x.den : ℚ) := by
    rw [zpow_natCast]; exact_mod_cast d1
  have D2 : (x.den : ℚ) < (2 : ℚ) ^ ((nat_log2 x.den : ℤ) + 1) := by
    rw [show ((nat_log2 x.den : ℤ) + 1) = ((nat_log2 x.den + 1 : ℕ) : ℤ) by simp,
      zpow_natCast]; exact_mod_cast d2
  set a : ℤ := (nat_log2 x.num.natAbs : ℤ) with ha
  set b : ℤ := (nat_log2 x.den : ℤ) with hb
  have h2 : (0 : ℚ) < 2 := by norm_num
  have pa : (0:ℚ) < 2 ^ a := zpow_pos h2 a
  have pb : (0:ℚ) < 2 ^ b := zpow_pos h2 b
  -- lower: 2^(a-b-1) ≤ x ; upper: x < 2^(a-b+1)
  have lower : (2 : ℚ) ^ (a - b - 1) ≤ x := by
    rw [hxe, le_div_iff₀ hdpos]
    have : (2:ℚ) ^ (a - b - 1) * 2 ^ (b + 1) = 2 ^ a := by
      rw [← zpow_add₀ (by norm_num : (2:ℚ) ≠ 0)]; congr 1; ring
    calc (2:ℚ) ^ (a - b - 1) * x.den ≤ 2 ^ (a - b - 1) * 2 ^ (b + 1) := by
          apply mul_le_mul_of_nonneg_left (le_of_lt D2) (le_of_lt (zpow_pos h2 _))
      _ = 2 ^ a := this
      _ ≤ _ := N1
  have upper : x < (2 : ℚ) ^ (a - b + 1) := by
    rw [hxe, div_lt_iff₀ hdpos]
    have : (2:ℚ) ^ (a - b + 1) * 2 ^ b = 2 ^ (a + 1) := by
      rw [← zpow_add₀ (by norm_num : (2:ℚ) ≠ 0)]; congr 1; ring
    calc (x.num.natAbs : ℚ) < 2 ^ (a + 1) := N2
      _ = (2:ℚ) ^ (a - b + 1) * 2 ^ b := this.symm
      _ ≤ (2:ℚ) ^ (a - b + 1) * x.den := by
          apply mul_le_mul_of_nonneg_left D1 (le_of_lt (zpow_pos h2 _))
  unfold ilog2
  simp only [← ha, ← hb]
  by_cases hc : x < 2 ^ (a - b)
  · simp only [hc, if_true]
    refine ⟨lower, ?_⟩
    have : a - b - 1 + 1 = a - b := by ring
    rw [this]; exact hc
  · simp only [hc, if_false]
    exact ⟨not_lt.mp hc, upper⟩

theorem round_half_even_err (n : ℚ) : |((round_half_even n : ℤ) : ℚ) - n| ≤ 1 / 2 := by
  have h1 : ((⌊n⌋ : ℤ) : ℚ) ≤ n := Int.floor_le n
  have h2 : n < ((⌊n⌋ : ℤ) : ℚ) + 1 := Int.lt_floor_add_one n
  unfold round_half_even
  rw [abs_le]
  split_ifs with a b c
  · constructor <;> linarith
  · constructor <;> push_cast <;> linarith
  · constructor <;> linarith
  · constructor <;> push_cast <;> linarith

theorem round_half_even_nonneg {n : ℚ} (h : 0 ≤ n) : 0 ≤ round_half_even n := by
  have h1 : 0 ≤ ⌊n⌋ := Int.floor_nonneg.mpr h
  unfold round_half_even
  split_ifs <;> omega

theorem ulp_of_pos (fmt : FloatFormat) (x : ℚ) : 0 < ulp_of fmt x :=
  zpow_pos (by norm_num) _

theorem round_mag_nonneg (fmt : FloatFormat) {x : ℚ} (h : 0 ≤ x) : 0 ≤ round_mag fmt x := by
  unfold round_mag
  split_ifs
  · exact le_refl _
  · apply mul_nonneg
    · exact_mod_cast round_half_even_nonneg (div_nonneg h (le_of_lt (ulp_of_pos fmt x)))
    · exact le_of_lt (ulp_of_pos fmt x)

theorem round_mag_err_ulp (fmt : FloatFormat) (x : ℚ) :
    |round_mag fmt x - x| ≤ ulp_of fmt x / 2 := by
  have hu := ulp_of_pos fmt x
  unfold round_mag
  split_ifs with h0
  · subst h0; simp; exact le_of_lt (by linarith)
  · have e : ((round_half_even (x / ulp_of fmt x) : ℤ) : ℚ) * ulp_of fmt x - x
        = (((round_half_even (x / ulp_of fmt x) : ℤ) : ℚ) - x / ulp_of fmt x) * ulp_of fmt x := by
      field_simp
    rw [e, abs_mul, abs_of_pos hu]
    have := round_half_even_err (x / ulp_of fmt x)
    calc _ ≤ 1 / 2 * ulp_of fmt x := mul_le_mul_of_nonneg_right this (le_of_lt hu)
      _ = ulp_of fmt x / 2 := by ring

theorem ulp_half_le (fmt : FloatFormat) {x : ℚ} (hx : 0 < x) :
    ulp_of fmt x / 2 ≤ x * 2 ^ (-(fmt.prec : ℤ)) + 2 ^ (fmt.emin - (fmt.prec : ℤ)) := by
  have h2 : (0 : ℚ) < 2 := by norm_num
  have h2n : (2 : ℚ) ≠ 0 := by norm_num
  have key : ∀ e : ℤ, (2 : ℚ) ^ (e - ((fmt.prec : ℤ) - 1)) / 2 = 2 ^ e * 2 ^ (-(fmt.prec : ℤ)) := by
    intro e
    rw [← zpow_add₀ h2n, div_eq_iff h2n]
    nth_rewrite 3 [← zpow_one (2 : ℚ)]
    rw [← zpow_add₀ h2n]
    congr 1; ring
  unfold ulp_of
  rw [key]
  have hp : (0 : ℚ) < 2 ^ (-(fmt.prec : ℤ)) := zpow_pos h2 _
  rcases le_total (ilog2 x) fmt.emin with hle | hle
  · rw [max_eq_right hle, ← zpow_add₀ h2n]
    have : fmt.emin + -(fmt.prec : ℤ) = fmt.emin - fmt.prec := by ring
    rw [this]
    have : 0 ≤ x * 2 ^ (-(fmt.prec : ℤ)) := le_of_lt (mul_pos hx hp)
    linarith
  · rw [max_eq_left hle]
    have h1 := (ilog2_spec hx).1
    have : (2 : ℚ) ^ ilog2 x * 2 ^ (-(fmt.prec : ℤ)) ≤ x * 2 ^ (-(fmt.prec : ℤ)) :=
      mul_le_mul_of_nonneg_right h1 (le_of_lt hp)
    have h3 : (0 : ℚ) < 2 ^ (fmt.emin - (fmt.prec : ℤ)) := zpow_pos h2 _
    linarith

theorem round_mag_err (fmt : FloatFormat) {x : ℚ} (hx : 0 ≤ x) :
    |round_mag fmt x - x| ≤ x * 2 ^ (-(fmt.prec : ℤ)) + 2 ^ (fmt.emin - (fmt.prec : ℤ)) := by
  rcases eq_or_lt_of_le hx with h0 | hpos
  · subst h0
    simp [round_mag]
    exact le_of_lt (zpow_pos (by norm_num) _)
  · exact le_trans (round_mag_err_ulp fmt x) (ulp_half_le fmt hpos)

theorem ulp_half_le_normal (fmt : FloatFormat) {x : ℚ} (hx : (2 : ℚ) ^ fmt.emin ≤ x) :
    ulp_of fmt x / 2 ≤ x * 2 ^ (-(fmt.prec : ℤ)) := by
  have h2 : (0 : ℚ) < 2 := by norm_num
  have h2n : (2 : ℚ) ≠ 0 := by norm_num
  have hpos : 0 < x := lt_of_lt_of_le (zpow_pos h2 _) hx
  have key : ∀ e : ℤ, (2 : ℚ) ^ (e - ((fmt.prec : ℤ) - 1)) / 2 = 2 ^ e * 2 ^ (-(fmt.prec : ℤ)) := by
    intro e
    rw [← zpow_add₀ h2n, div_eq_iff h2n]
    nth_rewrite 3 [← zpow_one (2 : ℚ)]
    rw [← zpow_add₀ h2n]
    congr 1; ring
  have hlog : fmt.emin ≤ ilog2 x := by
    by_contra hcon
    have hlt : ilog2 x + 1 ≤ fmt.emin := by omega
    have h1 := (ilog2_spec hpos).2
    have : (2 : ℚ) ^ (ilog2 x + 1) ≤ 2 ^ fmt.emin := zpow_le_zpow_right₀ (by norm_num) hlt
    linarith
  unfold ulp_of
  rw [key, max_eq_left hlog]
  exact mul_le_mul_of_nonneg_right (ilog2_spec hpos).1 (le_of_lt (zpow_pos h2 _))

theorem round_mag_err_normal (fmt : FloatFormat) {x : ℚ} (hx : (2 : ℚ) ^ fmt.emin ≤ x) :
    |round_mag fmt x - x| ≤ x * 2 ^ (-(fmt.prec : ℤ)) :=
  le_trans (round_mag_err_ulp fmt x) (ulp_half_le_normal fmt hx)

/-! ## Error bounds for `float` operations -/

theorem round_mag_err32 {x : ℚ} (hx : 0 ≤ x) :
    |round_mag binary32 x - x| ≤ x * u32 + eta32 := by
  have h := round_mag_err binary32 hx
  have e1 : (2 : ℚ) ^ (-((binary32.prec : ℕ) : ℤ)) = u32 := by
    simp [binary32, u32, zpow_neg]
    norm_cast
  have e2 : (2 : ℚ) ^ (binary32.emin - ((binary32.prec : ℕ) : ℤ)) = eta32 := by
    have : binary32.emin - ((binary32.prec : ℕ) : ℤ) = -((150 : ℕ) : ℤ) := by
      simp [binary32, FloatFormat.emin]
    rw [this, zpow_neg, zpow_natCast]
    simp [eta32]
  rwa [e1, e2] at h

theorem round_mag_err32_normal {x : ℚ} (hx : 1 ≤ x) :
    |round_mag binary32 x - x| ≤ x * u32 := by
  have h1 : (2 : ℚ) ^ binary32.emin ≤ x := by
    have : (2 : ℚ) ^ binary32.emin ≤ 2 ^ (0 : ℤ) :=
      zpow_le_zpow_right₀ (by norm_num) (by simp [binary32, FloatFormat.emin])
    simp at this
    linarith
  have h := round_mag_err_normal binary32 h1
  have e1 : (2 : ℚ) ^ (-((binary32.prec : ℕ) : ℤ)) = u32 := by
    simp [binary32, u32, zpow_neg]
    norm_cast
  rwa [e1] at h

theorem fround32_fin (s : Bool) {x : ℚ} (hx : 0 ≤ x) (hx1 : x ≤ 2 ^ 127) :
    fround binary32 s x = FVal.fin s (round_mag binary32 x) := by
  have h := round_mag_err32 hx
  rw [abs_le] at h
  have hlt : round_mag binary32 x < 2 ^ (binary32.emax + 1) := by
    have e : (2 : ℚ) ^ (binary32.emax + 1) = 2 ^ 128 := by
      have : binary32.emax + 1 = ((128 : ℕ) : ℤ) := by simp [binary32]
      rw [this, zpow_natCast]
    rw [e]
    have hu : x * u32 ≤ 2 ^ 127 * u32 := mul_le_mul_of_nonneg_right hx1 (by norm_num [u32])
    have : round_mag binary32 x ≤ x + x * u32 + eta32 := by linarith [h.2]
    have c : (2 : ℚ) ^ 127 + 2 ^ 127 * u32 + eta32 < 2 ^ 128 := by norm_num [u32, eta32]
    linarith
  unfold fround
  rw [if_neg (not_le.mpr hlt)]

theorem abs_signed (s : Bool) {m : ℚ} (hm : 0 ≤ m) : |signed s m| = m := by
  cases s <;> simp [signed, abs_of_nonneg hm]

/-- Rounding a signed magnitude of moderate size gives a finite value within the
rounding error of the exact one. -/
theorem fround32_is_fin (s : Bool) {m : ℚ} (hm : 0 ≤ m) (hm1 : m ≤ 2 ^ 127) :
    ∃ v, is_fin (fround binary32 s m) v ∧ |v - signed s m| ≤ m * u32 + eta32 := by
  refine ⟨signed s (round_mag binary32 m),
    ⟨s, round_mag binary32 m, fround32_fin s hm hm1, round_mag_nonneg _ hm, rfl⟩, ?_⟩
  have h := round_mag_err32 hm
  cases s
  · simpa [signed] using h
  · have e : signed true (round_mag binary32 m) - signed true m
        = -(round_mag binary32 m - m) := by simp [signed]; ring
    rw [e, abs_neg]; exact h

theorem signed_decide_abs (w : ℚ) : signed (decide (w < 0)) |w| = w := by
  by_cases h : w < 0
  · simp [signed, h, abs_of_neg h]
  · simp [signed, h, abs_of_nonneg (not_lt.mp h)]

theorem of_int32_is_fin (i : Int) (hi : |(i : ℚ)| ≤ 2 ^ 31) :
    ∃ v, is_fin (of_int binary32 i) v ∧ |v - (i : ℚ)| ≤ |(i : ℚ)| * u32 := by
  have hm : (0 : ℚ) ≤ |(i : ℚ)| := abs_nonneg _
  have hm1 : |(i : ℚ)| ≤ 2 ^ 127 := le_trans hi (by norm_num)
  have hsig : signed (decide (i < 0)) |(i : ℚ)| = (i : ℚ) := by
    by_cases h : i < 0
    · have : (i : ℚ) < 0 := by exact_mod_cast h
      simp [signed, h, abs_of_neg this]
    · have : (0 : ℚ) ≤ i := by exact_mod_cast not_lt.mp h
      simp [signed, h, abs_of_nonneg this]
  refine ⟨signed (decide (i < 0)) (round_mag binary32 |(i : ℚ)|),
    ⟨_, _, fround32_fin _ hm hm1, round_mag_nonneg _ hm, rfl⟩, ?_⟩
  have herr : abs (round_mag binary32 (abs (i : ℚ)) - abs (i : ℚ)) ≤ abs (i : ℚ) * u32 := by
    by_cases h0 : i = 0
    · subst h0; simp [round_mag]
    · have : (1 : ℚ) ≤ |(i : ℚ)| := by
        have h1 : 1 ≤ |i| := Int.one_le_abs h0
        have : ((1 : ℤ) : ℚ) ≤ ((|i| : ℤ) : ℚ) := by exact_mod_cast h1
        simpa using this
      exact round_mag_err32_normal this
  have e : signed (decide (i < 0)) (round_mag binary32 |(i : ℚ)|) - (i : ℚ)
      = signed (decide (i < 0)) (round_mag binary32 |(i : ℚ)| - |(i : ℚ)|) := by
    nth_rewrite 2 [← hsig]
    cases decide (i < 0) <;> simp [signed]
    ring
  rw [e]
  cases decide (i < 0)
  · simpa [signed] using herr
  · rw [abs_sub_comm] at herr
    simpa [signed] using herr

theorem fdiv32_is_fin {x y : FVal} {vx vy : ℚ} (hx : is_fin x vx) (hy : is_fin y vy)
    (hy0 : vy ≠ 0) (hq : |vx / vy| ≤ 2 ^ 127) :
    ∃ v, is_fin (fdiv binary32 x y) v ∧ |v - vx / vy| ≤ |vx / vy| * u32 + eta32 := by
  obtain ⟨s1, m1, rfl, hm1, rfl⟩ := hx
  obtain ⟨s2, m2, rfl, hm2, rfl⟩ := hy
  have hm20 : m2 ≠ 0 := by
    intro h; apply hy0; subst h; cases s2 <;> simp [signed]
  have hsig : signed (xor s1 s2) (m1 / m2) = signed s1 m1 / signed s2 m2 := by
    cases s1 <;> cases s2 <;> simp [signed, neg_div, div_neg]
  have habs : |signed s1 m1 / signed s2 m2| = m1 / m2 := by
    rw [abs_div, abs_signed s1 hm1, abs_signed s2 hm2]
  rw [habs] at hq ⊢
  have h := fround32_is_fin (xor s1 s2) (div_nonneg hm1 hm2) hq
  rw [hsig] at h
  simpa [fdiv, hm20] using h

theorem fmul32_is_fin {x y : FVal} {vx vy : ℚ} (hx : is_fin x vx) (hy : is_fin y vy)
    (hq : |vx * vy| ≤ 2 ^ 127) :
    ∃ v, is_fin (fmul binary32 x y) v ∧ |v - vx * vy| ≤ |vx * vy| * u32 + eta32 := by
  obtain ⟨s1, m1, rfl, hm1, rfl⟩ := hx
  obtain ⟨s2, m2, rfl, hm2, rfl⟩ := hy
  have hsig : signed (xor s1 s2) (m1 * m2) = signed s1 m1 * signed s2 m2 := by
    cases s1 <;> cases s2 <;> simp [signed]
  have habs : |signed s1 m1 * signed s2 m2| = m1 * m2 := by
    rw [abs_mul, abs_signed s1 hm1, abs_signed s2 hm2]
  rw [habs] at hq ⊢
  have h := fround32_is_fin (xor s1 s2) (mul_nonneg hm1 hm2) hq
  rw [hsig] at h
  simpa [fmul] using h

theorem fsub32_is_fin {x y : FVal} {vx vy : ℚ} (hx : is_fin x vx) (hy : is_fin y vy)
    (hq : |vx - vy| ≤ 2 ^ 127) :
    ∃ v, is_fin (fsub binary32 x y) v ∧ |v - (vx - vy)| ≤ |vx - vy| * u32 + eta32 := by
  obtain ⟨s1, m1, rfl, hm1, rfl⟩ := hx
  obtain ⟨s2, m2, rfl, hm2, rfl⟩ := hy
  have hneg : signed (!s2) m2 = -signed s2 m2 := by cases s2 <;> simp [signed]
  have hw : signed s1 m1 + signed (!s2) m2 = signed s1 m1 - signed s2 m2 := by
    rw [hneg]; ring
  by_cases h0 : signed s1 m1 - signed s2 m2 = 0
  · refine ⟨0, ⟨s1 && !s2, 0, ?_, le_refl _, by cases (s1 && !s2) <;> simp [signed]⟩, ?_⟩
    · simp [fsub, fneg, fadd, hw, h0]
    · rw [h0]; simp; exact by norm_num [eta32]
  · have hsig := signed_decide_abs (signed s1 m1 - signed s2 m2)
    have h := fround32_is_fin (decide (signed s1 m1 - signed s2 m2 < 0)) (abs_nonneg _) hq
    rw [hsig] at h
    simpa [fsub, fneg, fadd, hw, h0] using h

/-! ## Error analysis of the CPU percentage -/

theorem abs_le_add_of_sub {a b e : ℚ} (h : |a - b| ≤ e) : |a| ≤ |b| + e := by
  have := abs_add (a - b) b
  rw [sub_add_cancel] at this
  linarith

/-- The quotient of two rounded integers against the exact quotient. -/
theorem quot_err {a b fa fb : ℚ} (hb : b ≠ 0) (ha : |fa - a| ≤ |a| * u32)
    (hfb : |fb - b| ≤ |b| * u32) :
    fb ≠ 0 ∧ |fa / fb - a / b| ≤ 3 * u32 * |a / b| := by
  have hbpos : 0 < |b| := abs_pos.mpr hb
  have hu : u32 = 1 / 16777216 := by norm_num [u32]
  have hfb_lo : (3 / 4) * |b| ≤ |fb| := by
    have h1 : |b| ≤ |fb| + |b| * u32 := by
      have := abs_le_add_of_sub (a := b) (b := fb) (e := |b| * u32) (by rwa [abs_sub_comm])
      linarith
    rw [hu] at h1
    linarith
  have hfbpos : 0 < |fb| := by linarith
  have hfb0 : fb ≠ 0 := abs_pos.mp hfbpos
  refine ⟨hfb0, ?_⟩
  have e : fa / fb - a / b = ((fa - a) * b - a * (fb - b)) / (fb * b) := by
    rw [div_sub_div _ _ hfb0 hb]
    congr 1
    ring
  have hnum : |(fa - a) * b - a * (fb - b)| ≤ 2 * u32 * (|a| * |b|) := by
    have t := abs_sub ((fa - a) * b) (a * (fb - b))
    rw [abs_mul, abs_mul] at t
    have t1 : |fa - a| * |b| ≤ |a| * u32 * |b| := mul_le_mul_of_nonneg_right ha (abs_nonneg _)
    have t2 : |a| * |fb - b| ≤ |a| * (|b| * u32) := mul_le_mul_of_nonneg_left hfb (abs_nonneg _)
    nlinarith
  have hden : (3 / 4) * (|b| * |b|) ≤ |fb * b| := by
    rw [abs_mul]
    nlinarith
  have hdenpos : 0 < |fb * b| := by
    rw [abs_mul]; exact mul_pos hfbpos hbpos
  rw [e, abs_div, div_le_iff₀ hdenpos, abs_div]
  have hx : |a| / |b| * (|b| * |b|) = |a| * |b| := by
    have hb0 : |b| ≠ 0 := ne_of_gt hbpos
    have : |a| / |b| * (|b| * |b|) = |a| * (|b| / |b|) * |b| := by ring
    rw [this, div_self hb0, mul_one]
  have hxn : 0 ≤ |a| / |b| := div_nonneg (abs_nonneg _) (abs_nonneg _)
  calc |(fa - a) * b - a * (fb - b)| ≤ 2 * u32 * (|a| * |b|) := hnum
    _ = 2 * u32 * (|a| / |b| * (|b| * |b|)) := by rw [hx]
    _ ≤ 3 * u32 * (|a| / |b|) * ((3 / 4) * (|b| * |b|)) := by
        have : 0 ≤ |a| / |b| * (|b| * |b|) := by rw [hx]; positivity
        rw [hu]; nlinarith
    _ ≤ 3 * u32 * (|a| / |b|) * |fb * b| := by
        apply mul_le_mul_of_nonneg_left hden
        rw [hu]; positivity

/-- The rounding errors of the four `float` operations, accumulated. -/
theorem chain_err {x w q r c : ℚ} (hw : |w - x| ≤ 3 * u32 * |x|)
    (hq : |q - w| ≤ |w| * u32 + eta32) (hr : |r - (1 - q)| ≤ |1 - q| * u32 + eta32)
    (hc : |c - r * 100| ≤ |r * 100| * u32 + eta32) :
    |c - 100 * (1 - x)| ≤ (|100 * (1 - x)| + 100) / 2 ^ 20 := by
  have hu : u32 = 1 / 16777216 := by norm_num [u32]
  have he : eta32 ≤ 1 / 2 ^ 100 := by norm_num [eta32]
  have he0 : 0 ≤ eta32 := by norm_num [eta32]
  have X0 : 0 ≤ |x| := abs_nonneg _
  have Y0 : 0 ≤ |1 - x| := abs_nonneg _
  have hXY : |x| ≤ 1 + |1 - x| := by
    have := abs_le_add_of_sub (a := x) (b := 1) (e := |1 - x|) (by rw [abs_sub_comm])
    simpa using this
  have w1 : |w| ≤ |x| + 3 * u32 * |x| := abs_le_add_of_sub hw
  have qx : |q - x| ≤ |q - w| + |w - x| := abs_sub_le q w x
  have q1 : |1 - q| ≤ |1 - x| + |q - x| := by
    have := abs_sub_le (1 - q) (1 - x) 0
    have e : 1 - q - (1 - x) = -(q - x) := by ring
    rw [e, abs_neg] at this
    simpa [add_comm] using this
  have rx : |r - (1 - x)| ≤ |r - (1 - q)| + |q - x| := by
    have := abs_sub_le r (1 - q) (1 - x)
    have e : 1 - q - (1 - x) = -(q - x) := by ring
    rwa [e, abs_neg] at this
  have r1 : |r| ≤ |1 - x| + |r - (1 - x)| := abs_le_add_of_sub (le_refl _)
  have r100 : |r * 100| = 100 * |r| := by
    rw [abs_mul]; norm_num; ring
  have cE : |c - 100 * (1 - x)| ≤ |c - r * 100| + 100 * |r - (1 - x)| := by
    have := abs_sub_le c (r * 100) (100 * (1 - x))
    have e : r * 100 - 100 * (1 - x) = 100 * (r - (1 - x)) := by ring
    rw [e, abs_mul] at this
    simpa using this
  have E100 : |100 * (1 - x)| = 100 * |1 - x| := by
    rw [abs_mul]; norm_num
  rw [E100]
  rw [r100] at hc
  rw [hu] at hw hq hr hc w1
  have e20 : ((2 : ℚ) ^ 20) = 1048576 := by norm_num
  have e100 : (1 : ℚ) / 2 ^ 100 ≤ 1 / 2 ^ 40 := by norm_num
  rw [e20]
  have e40 : (1 : ℚ) / 2 ^ 40 = 1 / 1099511627776 := by norm_num
  rw [e40] at e100
  linarith

theorem of_int32_one : of_int binary32 1 = FVal.fin false 1 := by decide!

theorem of_int32_hundred : of_int binary32 100 = FVal.fin false 100 := by decide!

theorem of_int32_zero : of_int binary32 0 = FVal.fin false 0 := by decide!

theorem isnan_of_is_fin {x : FVal} {v : ℚ} (h : is_fin x v) : isnan x = false := by
  obtain ⟨s, m, rfl, _, _⟩ := h
  rfl

theorem toRat_of_is_fin {x : FVal} {v : ℚ} (h : is_fin x v) : x.toRat = some v := by
  obtain ⟨s, m, rfl, _, rfl⟩ := h
  rfl

/-- The value `c_usage` is finite and within `(|E| + 100) / 2^20` of the exact
percentage `E`, whenever the two differences fit an `int` and the totals
differ. -/
theorem cpu_c_usage_err (s1 s2 : CpuSample)
    (hT : -2147483648 ≤ s2.total - s1.total ∧ s2.total - s1.total ≤ 2147483647)
    (hI : -2147483648 ≤ s2.idle - s1.idle ∧ s2.idle - s1.idle ≤ 2147483647)
    (hne : s2.total ≠ s1.total) :
    ∃ v, (cpu_c_usage s1 s2).toRat = some v ∧
      |v - cpu_exact s1 s2| ≤ (|cpu_exact s1 s2| + 100) / 2 ^ 20 := by
  have hu : u32 = 1 / 16777216 := by norm_num [u32]
  have he : eta32 ≤ 1 := by norm_num [eta32]
  have wt : isub s2.total s1.total = s2.total - s1.total :=
    wrap32_of_range hT.1 (by omega)
  have wi : isub s2.idle s1.idle = s2.idle - s1.idle :=
    wrap32_of_range hI.1 (by omega)
  generalize ha : s2.idle - s1.idle = a at hI wi
  generalize hb : s2.total - s1.total = b at hT wt
  have hb0 : b ≠ 0 := by rw [← hb]; omega
  have hbq : (b : ℚ) ≠ 0 := by exact_mod_cast hb0
  have habs : |(a : ℚ)| ≤ 2 ^ 31 := by
    rw [abs_le]
    constructor
    · have : ((-2147483648 : ℤ) : ℚ) ≤ (a : ℚ) := by exact_mod_cast hI.1
      norm_num at this ⊢; linarith
    · have : (a : ℚ) ≤ ((2147483647 : ℤ) : ℚ) := by exact_mod_cast hI.2
      norm_num at this ⊢; linarith
  have hbbs : |(b : ℚ)| ≤ 2 ^ 31 := by
    rw [abs_le]
    constructor
    · have : ((-2147483648 : ℤ) : ℚ) ≤ (b : ℚ) := by exact_mod_cast hT.1
      norm_num at this ⊢; linarith
    · have : (b : ℚ) ≤ ((2147483647 : ℤ) : ℚ) := by exact_mod_cast hT.2
      norm_num at this ⊢; linarith
  have hb1 : (1 : ℚ) ≤ |(b : ℚ)| := by
    have h1 : 1 ≤ |b| := Int.one_le_abs hb0
    have : ((1 : ℤ) : ℚ) ≤ ((|b| : ℤ) : ℚ) := by exact_mod_cast h1
    simpa using this
  have hx : |(a : ℚ) / (b : ℚ)| ≤ 2 ^ 31 := by
    rw [abs_div, div_le_iff₀ (by linarith)]
    nlinarith [abs_nonneg (a : ℚ)]
  obtain ⟨fa, hfa, efa⟩ := of_int32_is_fin a habs
  obtain ⟨fb, hfb, efb⟩ := of_int32_is_fin b hbbs
  obtain ⟨hfb0, hw⟩ := quot_err hbq efa efb
  have w1 : |fa / fb| ≤ |(a : ℚ) / (b : ℚ)| + 3 * u32 * |(a : ℚ) / (b : ℚ)| :=
    abs_le_add_of_sub hw
  have w2 : |fa / fb| ≤ 2 ^ 32 := by
    rw [hu] at w1; norm_num at hx ⊢; linarith [abs_nonneg ((a : ℚ) / (b : ℚ))]
  obtain ⟨q, hq, eq⟩ := fdiv32_is_fin hfa hfb hfb0 (le_trans w2 (by norm_num))
  have q1 : |q| ≤ 2 ^ 33 := by
    have := abs_le_add_of_sub eq
    rw [hu] at this; norm_num at w2 ⊢; linarith [abs_nonneg (fa / fb)]
  have hone : is_fin (of_int binary32 1) 1 :=
    ⟨false, 1, of_int32_one, by norm_num, by simp [signed]⟩
  have hhun : is_fin (of_int binary32 100) 100 :=
    ⟨false, 100, of_int32_hundred, by norm_num, by simp [signed]⟩
  have q2 : |1 - q| ≤ 2 ^ 34 := by
    have := abs_sub 1 q
    norm_num at q1 this ⊢; linarith
  obtain ⟨r, hr, er⟩ := fsub32_is_fin hone hq (le_trans q2 (by norm_num))
  have r1 : |r| ≤ 2 ^ 35 := by
    have := abs_le_add_of_sub er
    rw [hu] at this; norm_num at q2 ⊢; linarith [abs_nonneg (1 - q)]
  have r2 : |r * 100| ≤ 2 ^ 127 := by
    rw [abs_mul]; norm_num at r1 ⊢; linarith
  obtain ⟨c, hc, ec⟩ := fmul32_is_fin hr hhun r2
  refine ⟨c, ?_, ?_⟩
  · have : cpu_c_usage s1 s2 = fmul binary32 (fsub binary32 (of_int binary32 1)
        (fdiv binary32 (of_int binary32 a) (of_int binary32 b))) (of_int binary32 100) := by
      simp only [cpu_c_usage, wt, wi, isnan_of_is_fin hq]
      simp
    rw [this]
    exact toRat_of_is_fin hc
  · have := chain_err hw eq er ec
    simpa [cpu_exact, ha, hb] using this

/-! ## CPU claims -/

/-- C8 fails as stated: for the samples (total 0, idle 0) and (total 80,
idle 33) the exact value of `100 * (1 - 33/80)` is 58.75, yet the `float`
computation yields 15400959/262144 = 58.749996..., and the line shows 58.7%
where 58.75 itself would be printed as 58.8. -/
theorem cpu_percentage_not_exact :
    cpu_exact ⟨0, 0⟩ ⟨80, 33⟩ = 235 / 4 ∧
    cpu_c_usage ⟨0, 0⟩ ⟨80, 33⟩ = FVal.fin false (15400959 / 262144) ∧
    (cpu_c_usage ⟨0, 0⟩ ⟨80, 33⟩).toRat ≠ some (cpu_exact ⟨0, 0⟩ ⟨80, 33⟩) ∧
    cpu_line ⟨0, 0⟩ ⟨80, 33⟩ = some "###########---------] 58.7%\n" ∧
    fmt_f1 (FVal.fin false (235 / 4)) = ['5', '8', '.', '8'] := by
  decide!

/-- C8 (as amended): for every pair of CPU samples with different totals whose
two differences fit an `int`, the CPU percentage is the single-precision
evaluation of `100 * (1 - (idle2 - idle1) / (total2 - total1))`: a finite
number within `(|E| + 100) / 2^20` of the exact value `E` of that formula.  For
the samples (total 1000, idle 900) and (total 1100, idle 950) it is exactly 50,
printed as 50.0%, and the gauge has 10 of its 20 segments filled. -/
theorem cpu_percentage_rounded :
    (∀ s1 s2 : CpuSample,
      (-2147483648 ≤ s2.total - s1.total ∧ s2.total - s1.total ≤ 2147483647) →
      (-2147483648 ≤ s2.idle - s1.idle ∧ s2.idle - s1.idle ≤ 2147483647) →
      s2.total ≠ s1.total →
      ∃ v, (cpu_c_usage s1 s2).toRat = some v ∧
        |v - cpu_exact s1 s2| ≤ (|cpu_exact s1 s2| + 100) / 2 ^ 20) ∧
    cpu_c_usage ⟨1000, 900⟩ ⟨1100, 950⟩ = FVal.fin false 50 ∧
    cpu_exact ⟨1000, 900⟩ ⟨1100, 950⟩ = 50 ∧
    cpu_line ⟨1000, 900⟩ ⟨1100, 950⟩ = some "##########----------] 50.0%\n" :=
  ⟨cpu_c_usage_err, by decide!, by decide!, by decide!⟩

theorem cpu_percentage_rounded_witness :
    ((-2147483648 : Int) ≤ (1100 : Int) - 1000 ∧ (1100 : Int) - 1000 ≤ 2147483647) ∧
    ((-2147483648 : Int) ≤ (950 : Int) - 900 ∧ (950 : Int) - 900 ≤ 2147483647) ∧
    ((1100 : Int) ≠ 1000) ∧
    ∃ v, (cpu_c_usage ⟨1000, 900⟩ ⟨1100, 950⟩).toRat = some v ∧
      |v - cpu_exact ⟨1000, 900⟩ ⟨1100, 950⟩|
        ≤ (|cpu_exact ⟨1000, 900⟩ ⟨1100, 950⟩| + 100) / 2 ^ 20 :=
  ⟨by decide, by decide, by decide,
    cpu_percentage_rounded.1 ⟨1000, 900⟩ ⟨1100, 950⟩ (by decide) (by decide) (by decide)⟩

/-- With equal totals and equal idle values the quotient is `0.0 / 0.0`, a NaN,
and the guard replaces it by 0: no segment is filled and 0.0% is printed. -/
theorem cpu_zero_deltas (s1 s2 : CpuSample)
    (ht : isub s2.total s1.total = 0) (hi : isub s2.idle s1.idle = 0) :
    cpu_c_usage s1 s2 = FVal.fin false 0 ∧
    cpu_line s1 s2 = some "--------------------] 0.0%\n" := by
  have h : cpu_c_usage s1 s2 = FVal.fin false 0 := by
    simp only [cpu_c_usage, ht, hi, of_int32_zero]
    simp [fdiv, isnan]
  refine ⟨h, ?_⟩
  simp only [cpu_line, h]
  decide!

/-- With equal totals and different idle values the quotient is an infinity,
which `isnan` does not catch: `c_usage` is infinite and its conversion to
`int` is undefined. -/
theorem cpu_zero_total_delta_inf (s1 s2 : CpuSample)
    (ht : s2.total = s1.total)
    (hI : -2147483648 ≤ s2.idle - s1.idle ∧ s2.idle - s1.idle ≤ 2147483647)
    (hi : s2.idle ≠ s1.idle) :
    cpu_c_usage s1 s2 = FVal.inf (decide (0 < s2.idle - s1.idle)) ∧
    cpu_line s1 s2 = none := by
  have wt : isub s2.total s1.total = 0 := by rw [ht]; simp [isub, wrap32]
  have wi : isub s2.idle s1.idle = s2.idle - s1.idle := wrap32_of_range hI.1 (by omega)
  generalize ha : s2.idle - s1.idle = a at hI wi
  have ha0 : a ≠ 0 := by rw [← ha]; omega
  have habs : |(a : ℚ)| ≤ 2 ^ 31 := by
    rw [abs_le]
    constructor
    · have : ((-2147483648 : ℤ) : ℚ) ≤ (a : ℚ) := by exact_mod_cast hI.1
      norm_num at this ⊢; linarith
    · have : (a : ℚ) ≤ ((2147483647 : ℤ) : ℚ) := by exact_mod_cast hI.2
      norm_num at this ⊢; linarith
  have hm : (0 : ℚ) ≤ |(a : ℚ)| := abs_nonneg _
  have hfin : of_int binary32 a = FVal.fin (decide (a < 0)) (round_mag binary32 |(a : ℚ)|) :=
    fround32_fin _ hm (le_trans habs (by norm_num))
  have hne : round_mag binary32 |(a : ℚ)| ≠ 0 := by
    have h1 : (1 : ℚ) ≤ |(a : ℚ)| := by
      have h1 : 1 ≤ |a| := Int.one_le_abs ha0
      have : ((1 : ℤ) : ℚ) ≤ ((|a| : ℤ) : ℚ) := by exact_mod_cast h1
      simpa using this
    have h2 := round_mag_err32_normal h1
    intro h0
    rw [h0, zero_sub, abs_neg, abs_abs] at h2
    have hu : u32 = 1 / 16777216 := by norm_num [u32]
    rw [hu] at h2
    linarith
  have h : cpu_c_usage s1 s2 = FVal.inf (decide (0 < a)) := by
    simp only [cpu_c_usage, wt, wi, hfin, of_int32_zero, of_int32_one, of_int32_hundred]
    have hs : (!decide (a < 0)) = decide (0 < a) := by
      by_cases h : a < 0
      · have : ¬ 0 < a := by omega
        simp [h, this]
      · have : 0 < a := by omega
        simp [h, this]
    simp [fdiv, hne, isnan, fsub, fneg, fadd, fmul, hs]
  exact ⟨h, by simp [cpu_line, h, cpu_count, to_int]⟩

/-- C9: with equal totals and equal idle values the line is an empty gauge and
0.0%, as claimed; but for the samples (total 15, idle 5) and (total 15,
idle 10) the quotient is `5.0 / 0.0 = +inf`, not a NaN, so `c_usage` is `-inf`
(printed as `-inf`), and the conversion `(int) c_usage` that sizes the gauge is
undefined. -/
theorem cpu_zero_total_delta_not_zero :
    cpu_line ⟨15, 5⟩ ⟨15, 5⟩ = some "--------------------] 0.0%\n" ∧
    cpu_c_usage ⟨15, 5⟩ ⟨15, 10⟩ = FVal.inf true ∧
    fmt_f1 (cpu_c_usage ⟨15, 5⟩ ⟨15, 10⟩) = ['-', 'i', 'n', 'f'] ∧
    cpu_count (cpu_c_usage ⟨15, 5⟩ ⟨15, 10⟩) = none ∧
    cpu_line ⟨15, 5⟩ ⟨15, 10⟩ = none := by
  decide!

/-! ## Buffers under tokenization -/

theorem refines_refl (b : List Char) : refines b b :=
  ⟨rfl, fun _ => Or.inl rfl⟩

theorem refines_trans {a b c : List Char} (h1 : refines a b) (h2 : refines b c) :
    refines a c := by
  refine ⟨h1.1.trans h2.1, fun j => ?_⟩
  rcases h1.2 j with e | e
  · rw [e]; exact h2.2 j
  · exact Or.inr e

theorem refines_set (b : List Char) (q : Nat) : refines (b.set q NUL) b := by
  refine ⟨List.length_set _ _ _, fun j => ?_⟩
  rw [List.getElem?_set]
  by_cases h : q = j
  · by_cases h2 : q < b.length
    · right
      have : j < b.length := h ▸ h2
      simp [h, this]
    · left
      simp only [h, if_true]
      have : b.length ≤ j := by omega
      simp [h ▸ h2, List.getElem?_eq_none this]
  · left; simp [h]

theorem next_token_refines (st : TokState) (D : List Char) :
    refines (next_token st D).2.buf st.buf := by
  obtain ⟨buf, ptr⟩ := st
  cases ptr with
  | none => exact refines_refl _
  | some p =>
    simp only [next_token]
    split
    · exact refines_refl _
    · split
      · exact refines_refl _
      · exact refines_set _ _

theorem token_loop_refines (D : List Char) :
    ∀ (fuel : Nat) (st : TokState) (r : List (List Char) × TokState),
      token_loop fuel st D = some r → refines r.2.buf st.buf := by
  intro fuel
  induction fuel with
  | zero => intro st r h; simp [token_loop] at h
  | succ fuel ih =>
    intro st r h
    have hn := next_token_refines st D
    rw [token_loop] at h
    generalize hnt : next_token st D = nt at h hn
    obtain ⟨ret, st1⟩ := nt
    cases ret with
    | none =>
      simp only [Option.some.injEq] at h
      subst h
      exact hn
    | some p =>
      simp only at h
      generalize hrec : token_loop fuel st1 D = rec at h
      cases rec with
      | none => simp at h
      | some r2 =>
        simp only [Option.some.injEq] at h
        subst h
        exact refines_trans (ih st1 r2 hrec) hn

/-- A buffer that holds a NUL splits into its C string, the NUL and the rest. -/
theorem buf_split {b : List Char} (h : NUL ∈ b) :
    ∃ post, b = cstr b ++ NUL :: post := by
  have e : b = cstr b ++ b.dropWhile (fun c => c != NUL) :=
    (List.takeWhile_append_dropWhile _ _).symm
  generalize hd : b.dropWhile (fun c => c != NUL) = d at e
  cases d with
  | nil =>
    exfalso
    rw [List.append_nil] at e
    have hm : NUL ∈ cstr b := by rw [← e]; exact h
    have := List.mem_takeWhile_imp hm
    simp at this
  | cons x d =>
    have hx := List.head_dropWhile_not (fun c => c != NUL) b (by rw [hd]; simp)
    simp only [hd, List.head_cons] at hx
    have : x = NUL := by simpa using hx
    subst this
    exact ⟨d, e⟩

theorem cstr_not_mem (b : List Char) : NUL ∉ cstr b := by
  intro h
  have := List.mem_takeWhile_imp h
  simp at this

/-- Tokenizing a buffer that holds a NUL: the tokens are the reference split of
its C string, and the buffer changes only by bytes becoming NUL. -/
theorem tokenize_spec {b D : List Char} (hb : NUL ∈ b) (hD : NUL ∉ D) :
    ∃ b1, tokenize b D = some (splitTokens D (cstr b), b1) ∧ refines b1 b := by
  obtain ⟨post, e⟩ := buf_split hb
  have hlen : (cstr b).length < b.length + 1 := by
    have : (cstr b).length ≤ b.length := (List.takeWhile_prefix _).length_le
    omega
  obtain ⟨bufF, h⟩ := token_loop_spec hD (b.length + 1) (cstr b) [] post (cstr_not_mem b) hlen
  simp only [List.nil_append, List.length_nil] at h
  rw [← e] at h
  refine ⟨bufF, by simp [tokenize, h], ?_⟩
  exact token_loop_refines D _ _ _ h

/-! ## Label search in a line buffer -/

theorem prefix_drop_iff (l b : List Char) (k : Nat) :
    l <+: b.drop k ↔ ∀ i (h : i < l.length), b[k + i]? = some l[i] := by
  rw [List.isPrefix_iff]
  simp only [List.getElem?_drop]

theorem prefix_of_refines {b1 b l : List Char} (hr : refines b1 b) (hl : NUL ∉ l) (k : Nat)
    (h : l <+: b1.drop k) : l <+: b.drop k := by
  rw [prefix_drop_iff] at h ⊢
  intro i hi
  have h1 := h i hi
  rcases hr.2 (k + i) with e | e
  · rw [← e]; exact h1
  · exfalso
    rw [h1] at e
    have : l[i] = NUL := by simpa using e
    exact hl (this ▸ List.getElem_mem _)

/-- When the label occurs nowhere in the buffer except possibly at its start,
`strstr` finds it exactly when the buffer starts with it. -/
theorem strstr_at_start {b l : List Char} (hl : NUL ∉ l)
    (h : ∀ k, 1 ≤ k → ¬ l <+: b.drop k) : strstr b l = decide (l <+: b) := by
  unfold strstr
  rw [cstr_of_not_mem hl]
  have hpre : cstr b <+: b := List.takeWhile_prefix _
  congr 1
  apply propext
  constructor
  · intro hin
    rw [List.isInfix_iff] at hin
    obtain ⟨k, hk, hi⟩ := hin
    have hocc : l <+: b.drop k := by
      rw [prefix_drop_iff]
      intro i hlt
      have h1 := hi i hlt
      rw [Nat.add_comm]
      rw [List.isPrefix_iff] at hpre
      have hlt2 : i + k < (cstr b).length := by omega
      rw [hpre (i + k) hlt2]
      rw [List.getElem?_eq_getElem hlt2] at h1
      exact h1
    rcases Nat.eq_zero_or_pos k with rfl | hpos
    · simpa using hocc
    · exact absurd hocc (h k hpos)
  · intro hp
    have : l <+: cstr b := by
      obtain ⟨t, rfl⟩ := hp
      unfold cstr
      rw [List.takeWhile_append_of_pos]
      · exact List.prefix_append _ _
      · intro c hc
        have : c ≠ NUL := fun e => hl (e ▸ hc)
        simpa using this
    exact this.isInfix

/-! ## The scan of `meminfo` -/

theorem read_line_loop_spec (size : Nat) (rest : List Char) :
    ∀ (body : List Char) (i : Nat) (str : List Char),
      '\n' ∉ body → NUL ∉ body → i + body.length < size → i + body.length < str.length →
      read_line_loop size i str (body ++ '\n' :: rest)
        = (i + body.length + 1,
            str.take i ++ body ++ '\n' :: str.drop (i + body.length + 1), rest) := by
  intro body
  induction body with
  | nil =>
    intro i str _ _ h1 h2
    simp only [List.length_nil, Nat.add_zero] at h1 h2
    simp only [List.nil_append, read_line_loop, h1, if_true, true_or, List.append_nil,
      List.length_nil, Nat.add_zero]
    rw [List.set_eq_take_append_cons_drop, if_pos h2]
  | cons c body ih =>
    intro i str hn hz h1 h2
    simp only [List.length_cons] at h1 h2
    have hc1 : c ≠ '\n' := fun e => hn (by simp [e])
    have hc2 : c ≠ NUL := fun e => hz (by simp [e])
    have hi : i < size := by omega
    have hil : i < str.length := by omega
    have step : read_line_loop size i str (c :: (body ++ '\n' :: rest))
        = read_line_loop size (i + 1) (str.set i c) (body ++ '\n' :: rest) := by
      rw [read_line_loop]
      simp [hi, hc1, hc2]
    rw [List.cons_append, step]
    rw [ih (i + 1) (str.set i c) (fun h => hn (List.mem_cons_of_mem _ h))
      (fun h => hz (List.mem_cons_of_mem _ h)) (by omega) (by simp; omega)]
    have e1 : (str.set i c).take (i + 1) = str.take i ++ [c] := by
      rw [List.set_eq_take_append_cons_drop, if_pos hil]
      rw [List.take_append_eq_append_take]
      simp [List.take_take, Nat.min_eq_left (Nat.le_succ i), List.length_take,
        Nat.min_eq_left (Nat.le_of_lt hil)]
    have e2 : (str.set i c).drop (i + 1 + body.length + 1)
        = str.drop (i + (body.length + 1) + 1) := by
      rw [List.drop_set_of_lt _ _ (by omega)]
      congr 1; omega
    rw [e1, e2]
    simp [Nat.add_assoc, Nat.add_comm 1]

theorem read_line_spec (size : Nat) (body rest str : List Char)
    (hn : '\n' ∉ body) (hz : NUL ∉ body) (h1 : body.length < size)
    (h2 : body.length < str.length) :
    read_line str size (body ++ '\n' :: rest)
      = (body.length + 1, body ++ '\n' :: str.drop (body.length + 1), rest) := by
  unfold read_line
  rw [read_line_loop_spec size rest body 0 str hn hz (by omega) (by omega)]
  simp

theorem read_line_eof (size : Nat) (str : List Char) :
    read_line str size [] = (0, str, []) := rfl

/-! ### A line stored at the start of the buffer -/

theorem line_buf_get_lt (body b : List Char) {j : Nat} (h : j < body.length) :
    (body ++ '\n' :: b.drop (body.length + 1))[j]? = body[j]? :=
  List.getElem?_append_left h

theorem line_buf_get_eq (body b : List Char) :
    (body ++ '\n' :: b.drop (body.length + 1))[body.length]? = some '\n' := by
  rw [List.getElem?_append_right (Nat.le_refl _)]
  simp

theorem line_buf_get_gt (body b : List Char) {j : Nat} (h : body.length < j) :
    (body ++ '\n' :: b.drop (body.length + 1))[j]? = b[j]? := by
  rw [List.getElem?_append_right (Nat.le_of_lt h)]
  obtain ⟨d, hd⟩ : ∃ d, j - body.length = d + 1 := ⟨j - body.length - 1, by omega⟩
  rw [hd, List.getElem?_cons_succ, List.getElem?_drop]
  congr 1; omega

theorem line_buf_prefix_iff (body b l : List Char) (hl : '\n' ∉ l) :
    l <+: body ++ '\n' :: b.drop (body.length + 1) ↔ l <+: body := by
  constructor
  · intro h
    rw [List.isPrefix_iff] at h ⊢
    by_cases hlen : l.length ≤ body.length
    · intro i hi
      rw [← line_buf_get_lt body b (by omega)]
      exact h i hi
    · exfalso
      have hi : body.length < l.length := by omega
      have h1 := h body.length hi
      rw [line_buf_get_eq] at h1
      have : l[body.length] = '\n' := by simpa using h1.symm
      exact hl (this ▸ List.getElem_mem _)
  · intro h
    exact h.trans (List.prefix_append _ _)

theorem line_buf_no_occ (body b l : List Char) (hl : '\n' ∉ l)
    (hbody : ∀ k, 1 ≤ k → ¬ l <+: body.drop k) (hb : ∀ k, 1 ≤ k → ¬ l <+: b.drop k) :
    ∀ k, 1 ≤ k → ¬ l <+: (body ++ '\n' :: b.drop (body.length + 1)).drop k := by
  intro k hk h
  rw [prefix_drop_iff] at h
  by_cases hgt : body.length < k
  · apply hb k hk
    rw [prefix_drop_iff]
    intro i hi
    rw [← line_buf_get_gt body b (by omega)]
    exact h i hi
  · by_cases hfit : k + l.length ≤ body.length
    · apply hbody k hk
      rw [prefix_drop_iff]
      intro i hi
      rw [← line_buf_get_lt body b (by omega)]
      exact h i hi
    · have hi : body.length - k < l.length := by omega
      have h1 := h (body.length - k) hi
      have e : k + (body.length - k) = body.length := by omega
      rw [e, line_buf_get_eq] at h1
      have : l[body.length - k] = '\n' := by simpa using h1.symm
      exact hl (this ▸ List.getElem_mem _)

/-- A label whose first byte does not occur after the first byte of `body`
cannot occur in `body` anywhere but at its start. -/
theorem no_occ_of_head {body l : List Char} (c : Char) (t : List Char) (hl : l = c :: t)
    (h : c ∉ body.tail) : ∀ k, 1 ≤ k → ¬ l <+: body.drop k := by
  intro k hk hp
  subst hl
  rw [prefix_drop_iff] at hp
  have h0 := hp 0 (by simp)
  simp only [Nat.add_zero, List.getElem_cons_zero] at h0
  apply h
  obtain ⟨d, rfl⟩ : ∃ d, k = d + 1 := ⟨k - 1, by omega⟩
  cases body with
  | nil => simp at h0
  | cons x body =>
    rw [List.getElem?_cons_succ] at h0
    exact List.getElem?_mem h0

theorem no_occ_of_not_infix {body l : List Char} (h : ¬ l <:+: body) :
    ∀ k, ¬ l <+: body.drop k := by
  intro k hp
  apply h
  exact hp.isInfix.trans (List.drop_suffix k body).isInfix

theorem buf_ok_line {b body : List Char} (hok : buf_ok b) (hlen : body.length + 1 < BUF_SZ)
    (h1 : ∀ k, 1 ≤ k → ¬ memtotal_label <+: body.drop k)
    (h2 : ∀ k, 1 ≤ k → ¬ active_label <+: body.drop k) :
    buf_ok (body ++ '\n' :: b.drop (body.length + 1)) := by
  obtain ⟨hl, hz, o1, o2⟩ := hok
  refine ⟨?_, ?_, ?_, ?_⟩
  · simp only [List.length_append, List.length_cons, List.length_drop]
    omega
  · rw [line_buf_get_gt body b (by omega)]
    exact hz
  · exact line_buf_no_occ body b _ (by decide) h1 o1
  · exact line_buf_no_occ body b _ (by decide) h2 o2

theorem buf_ok_refines {b b1 : List Char} (hok : buf_ok b) (hr : refines b1 b) : buf_ok b1 := by
  obtain ⟨hl, hz, o1, o2⟩ := hok
  refine ⟨hr.1.trans hl, ?_, ?_, ?_⟩
  · rcases hr.2 (BUF_SZ - 1) with e | e
    · rw [e]; exact hz
    · exact e
  · intro k hk h
    exact o1 k hk (prefix_of_refines hr (by decide) k h)
  · intro k hk h
    exact o2 k hk (prefix_of_refines hr (by decide) k h)

theorem buf_ok_mem {b : List Char} (hok : buf_ok b) : NUL ∈ b :=
  List.getElem?_mem hok.2.1

theorem mem_delims_nul : NUL ∉ mem_delims := by decide

/-- One round of the loop on a line that mentions neither label: nothing is
assigned. -/
theorem mem_scan_other (fuel : Nat) (st : MemScan) (body rest : List Char)
    (hok : buf_ok st.buf) (hb : other_line body) :
    ∃ b1, buf_ok b1 ∧
      mem_scan (fuel + 1) (body ++ '\n' :: rest) st = mem_scan fuel rest ⟨b1, st.tot, st.active⟩ := by
  obtain ⟨hn, hz, hlen, n1, n2⟩ := hb
  have hrl := read_line_spec BUF_SZ body rest st.buf hn hz (by omega) (by rw [hok.1]; omega)
  have ok1 : buf_ok (body ++ '\n' :: st.buf.drop (body.length + 1)) :=
    buf_ok_line hok hlen (fun k _ => no_occ_of_not_infix n1 k) (fun k _ => no_occ_of_not_infix n2 k)
  have s1 : strstr (body ++ '\n' :: st.buf.drop (body.length + 1)) memtotal_label = false := by
    rw [strstr_at_start (by decide) ok1.2.2.1, decide_eq_false_iff_not,
      line_buf_prefix_iff _ _ _ (by decide)]
    exact fun h => n1 (List.IsPrefix.isInfix h)
  have s2 : strstr (body ++ '\n' :: st.buf.drop (body.length + 1)) active_label = false := by
    rw [strstr_at_start (by decide) ok1.2.2.2, decide_eq_false_iff_not,
      line_buf_prefix_iff _ _ _ (by decide)]
    exact fun h => n2 (List.IsPrefix.isInfix h)
  refine ⟨_, ok1, ?_⟩
  rw [mem_scan, hrl]
  simp [mem_total_step, mem_active_step, s1, s2]

theorem digit_chars_facts :
    ∀ c ∈ ['0', '1', '2', '3', '4', '5', '6', '7', '8', '9'],
      c ≠ '\n' ∧ c ≠ NUL ∧ c ≠ 'M' ∧ c ≠ 'A' ∧ c ∉ mem_delims := by
  decide

theorem value_line_facts (l : List Char) (n : Nat) (ds : List Char) (hd : is_digits ds)
    (hl : ∀ c ∈ l, c ≠ '\n' ∧ c ≠ NUL) (hlt : 'M' ∉ l.tail ∧ 'A' ∉ l.tail) (hne : l ≠ []) :
    '\n' ∉ value_line l n ds ∧ NUL ∉ value_line l n ds ∧
    'M' ∉ (value_line l n ds).tail ∧ 'A' ∉ (value_line l n ds).tail := by
  obtain ⟨x, t, rfl⟩ := List.exists_cons_of_ne_nil hne
  have hds : ∀ c ∈ ds, c ≠ '\n' ∧ c ≠ NUL ∧ c ≠ 'M' ∧ c ≠ 'A' ∧ c ∉ mem_delims :=
    fun c hc => digit_chars_facts c (hd.2 c hc)
  have e : (value_line (x :: t) n ds).tail = t ++ List.replicate n ' ' ++ ds ++ [' ', 'k', 'B'] := by
    simp [value_line]
  simp only [List.tail_cons] at hlt
  refine ⟨?_, ?_, ?_, ?_⟩
  · intro h
    simp only [value_line, List.mem_append, List.mem_replicate, List.mem_cons] at h
    rcases h with ((h | h) | h) | h
    · rcases h with rfl | h
      · exact (hl _ (List.mem_cons_self _ _)).1 rfl
      · exact (hl _ (List.mem_cons_of_mem _ h)).1 rfl
    · exact absurd h.2 (by decide)
    · exact (hds _ h).1 rfl
    · revert h; decide
  · intro h
    simp only [value_line, List.mem_append, List.mem_replicate, List.mem_cons] at h
    rcases h with ((h | h) | h) | h
    · rcases h with h | h
      · exact (hl _ (List.mem_cons_self _ _)).2 h.symm
      · exact (hl _ (List.mem_cons_of_mem _ h)).2 rfl
    · exact absurd h.2 (by decide)
    · exact (hds _ h).2.1 rfl
    · revert h; decide
  · rw [e]
    intro h
    simp only [List.mem_append, List.mem_replicate] at h
    rcases h with ((h | h) | h) | h
    · exact hlt.1 h
    · exact absurd h.2 (by decide)
    · exact (hds _ h).2.2.1 rfl
    · revert h; decide
  · rw [e]
    intro h
    simp only [List.mem_append, List.mem_replicate] at h
    rcases h with ((h | h) | h) | h
    · exact hlt.2 h
    · exact absurd h.2 (by decide)
    · exact (hds _ h).2.2.2.1 rfl
    · revert h; decide

/-- The tokens of a value line: the label, the digits, `kB`, then whatever the
bytes after the newline give. -/
theorem value_line_tokens (l : List Char) (n : Nat) (ds junk : List Char) (hd : is_digits ds)
    (hl : ∀ c ∈ l, c ∉ mem_delims) (hne : l ≠ []) :
    splitTokens mem_delims (value_line l (n + 1) ds ++ '\n' :: junk)
      = l :: ds :: ['k', 'B'] :: splitTokens mem_delims junk := by
  have hds : ∀ c ∈ ds, c ∉ mem_delims := fun c hc => (digit_chars_facts c (hd.2 c hc)).2.2.2.2
  have e : value_line l (n + 1) ds ++ '\n' :: junk
      = l ++ ' ' :: (List.replicate n ' ' ++ (ds ++ ' ' :: (['k', 'B'] ++ '\n' :: junk))) := by
    simp [value_line, List.replicate_succ]
  rw [e, splitTokens_token_cons hl hne (by decide),
    splitTokens_delims_append (by intro c hc; rw [List.eq_of_mem_replicate hc]; decide),
    splitTokens_token_cons hds hd.1 (by decide),
    splitTokens_token_cons (by decide) (by decide) (by decide)]

theorem label_facts :
    (∀ c ∈ memtotal_label, c ≠ '\n' ∧ c ≠ NUL) ∧ ('M' ∉ memtotal_label.tail ∧ 'A' ∉ memtotal_label.tail) ∧
    memtotal_label ≠ [] ∧ (∀ c ∈ memtotal_label, c ∉ mem_delims) ∧
    (∀ c ∈ active_label, c ≠ '\n' ∧ c ≠ NUL) ∧ ('M' ∉ active_label.tail ∧ 'A' ∉ active_label.tail) ∧
    active_label ≠ [] ∧ (∀ c ∈ active_label, c ∉ mem_delims) := by
  decide

/-- A value line read into the buffer and tokenized: the token with index 1 is
the digits, and the buffer stays well-formed. -/
theorem value_line_tokenize (l : List Char) (n : Nat) (ds b : List Char) (hok : buf_ok b)
    (hd : is_digits ds) (hl : ∀ c ∈ l, c ≠ '\n' ∧ c ≠ NUL)
    (hlt : 'M' ∉ l.tail ∧ 'A' ∉ l.tail) (hne : l ≠ []) (hlD : ∀ c ∈ l, c ∉ mem_delims)
    (hlen : (value_line l (n + 1) ds).length + 1 < BUF_SZ) :
    buf_ok (value_line l (n + 1) ds ++ '\n' :: b.drop ((value_line l (n + 1) ds).length + 1)) ∧
    ∃ b1 toks,
      tokenize (value_line l (n + 1) ds ++ '\n' :: b.drop ((value_line l (n + 1) ds).length + 1))
        mem_delims = some (toks, b1) ∧
      toks.get? 1 = some ds ∧
      refines b1 (value_line l (n + 1) ds ++ '\n' :: b.drop ((value_line l (n + 1) ds).length + 1)) ∧
      buf_ok b1 := by
  obtain ⟨f1, f2, f3, f4⟩ := value_line_facts l (n + 1) ds hd hl hlt hne
  generalize hbody : value_line l (n + 1) ds = body at *
  have ok0 : buf_ok (body ++ '\n' :: b.drop (body.length + 1)) :=
    buf_ok_line hok hlen (no_occ_of_head 'M' _ rfl f3) (no_occ_of_head 'A' _ rfl f4)
  refine ⟨ok0, ?_⟩
  obtain ⟨b1, ht, hr⟩ := tokenize_spec (buf_ok_mem ok0) mem_delims_nul
  have hc : cstr (body ++ '\n' :: b.drop (body.length + 1))
      = body ++ '\n' :: cstr (b.drop (body.length + 1)) := by
    have : NUL ∉ body ++ ['\n'] := by
      intro h
      rcases List.mem_append.mp h with h | h
      · exact f2 h
      · revert h; decide
    have e := cstr_append this (b.drop (body.length + 1))
    simpa [List.append_assoc] using e
  refine ⟨b1, _, ht, ?_, hr, buf_ok_refines ok0 hr⟩
  rw [hc, ← hbody, value_line_tokens l n ds _ hd hlD hne]
  rfl

theorem mem_scan_total (fuel : Nat) (st : MemScan) (n : Nat) (ds rest : List Char)
    (hok : buf_ok st.buf) (hd : is_digits ds)
    (hlen : (value_line memtotal_label (n + 1) ds).length + 1 < BUF_SZ) :
    ∃ b1, buf_ok b1 ∧
      mem_scan (fuel + 1) (value_line memtotal_label (n + 1) ds ++ '\n' :: rest) st
        = mem_scan fuel rest ⟨b1, some (to_float (atof ds)), st.active⟩ := by
  obtain ⟨l1, l2, l3, l4, _, _, _, _⟩ := label_facts
  obtain ⟨f1, f2, f3, f4⟩ := value_line_facts memtotal_label (n + 1) ds hd l1 l2 l3
  obtain ⟨ok0, b1, toks, ht, hg, hr, ok1⟩ :=
    value_line_tokenize memtotal_label n ds st.buf hok hd l1 l2 l3 l4 hlen
  have hrl := read_line_spec BUF_SZ (value_line memtotal_label (n + 1) ds) rest st.buf f1 f2
    (by omega) (by rw [hok.1]; omega)
  generalize hbody : value_line memtotal_label (n + 1) ds = body at *
  have hpre : memtotal_label <+: body := by
    rw [← hbody]; unfold value_line
    simp only [List.append_assoc]
    exact List.prefix_append _ _
  have s1 : strstr (body ++ '\n' :: st.buf.drop (body.length + 1)) memtotal_label = true := by
    rw [strstr_at_start (by decide) ok0.2.2.1, decide_eq_true_iff,
      line_buf_prefix_iff _ _ _ (by decide)]
    exact hpre
  have s2 : strstr b1 active_label = false := by
    rw [strstr_at_start (by decide) ok1.2.2.2, decide_eq_false_iff_not]
    intro h
    have h0 : active_label <+: (body ++ '\n' :: st.buf.drop (body.length + 1)).drop 0 :=
      prefix_of_refines hr (by decide) 0 (by simpa using h)
    rw [List.drop_zero, line_buf_prefix_iff _ _ _ (by decide)] at h0
    obtain ⟨t1, e1⟩ := hpre
    obtain ⟨t2, e2⟩ := h0
    rw [← e2] at e1
    simp [memtotal_label, active_label] at e1
  refine ⟨b1, ok1, ?_⟩
  have hg1 : toks[1]? = some ds := by simpa using hg
  rw [mem_scan, hrl]
  simp [mem_total_step, mem_active_step, s1, s2, ht, hg1]

theorem mem_scan_active (fuel : Nat) (st : MemScan) (n : Nat) (ds rest : List Char)
    (hok : buf_ok st.buf) (hd : is_digits ds)
    (hlen : (value_line active_label (n + 1) ds).length + 1 < BUF_SZ) :
    ∃ b1, buf_ok b1 ∧
      mem_scan (fuel + 1) (value_line active_label (n + 1) ds ++ '\n' :: rest) st
        = mem_scan fuel rest ⟨b1, st.tot, some (to_float (atof ds))⟩ := by
  obtain ⟨_, _, _, _, l1, l2, l3, l4⟩ := label_facts
  obtain ⟨f1, f2, f3, f4⟩ := value_line_facts active_label (n + 1) ds hd l1 l2 l3
  obtain ⟨ok0, b1, toks, ht, hg, hr, ok1⟩ :=
    value_line_tokenize active_label n ds st.buf hok hd l1 l2 l3 l4 hlen
  have hrl := read_line_spec BUF_SZ (value_line active_label (n + 1) ds) rest st.buf f1 f2
    (by omega) (by rw [hok.1]; omega)
  generalize hbody : value_line active_label (n + 1) ds = body at *
  have hpre : active_label <+: body := by
    rw [← hbody]; unfold value_line
    simp only [List.append_assoc]
    exact List.prefix_append _ _
  have s1 : strstr (body ++ '\n' :: st.buf.drop (body.length + 1)) memtotal_label = false := by
    rw [strstr_at_start (by decide) ok0.2.2.1, decide_eq_false_iff_not,
      line_buf_prefix_iff _ _ _ (by decide)]
    intro h0
    obtain ⟨t1, e1⟩ := hpre
    obtain ⟨t2, e2⟩ := h0
    rw [← e2] at e1
    simp [memtotal_label, active_label] at e1
  have s2 : strstr (body ++ '\n' :: st.buf.drop (body.length + 1)) active_label = true := by
    rw [strstr_at_start (by decide) ok0.2.2.2, decide_eq_true_iff,
      line_buf_prefix_iff _ _ _ (by decide)]
    exact hpre
  refine ⟨b1, ok1, ?_⟩
  have hg1 : toks[1]? = some ds := by simpa using hg
  rw [mem_scan, hrl]
  simp [mem_total_step, mem_active_step, s1, s2, ht, hg1]

theorem lines_text_cons (l : List Char) (ls : List (List Char)) (rest : List Char) :
    lines_text (l :: ls) ++ rest = l ++ '\n' :: (lines_text ls ++ rest) := by
  simp [lines_text]

theorem lines_text_length (ls : List (List Char)) : ls.length ≤ (lines_text ls).length := by
  induction ls with
  | nil => simp [lines_text]
  | cons l ls ih =>
    have := lines_text_cons l ls []
    simp only [List.append_nil] at this
    rw [this]
    simp only [List.length_append, List.length_cons]
    omega

theorem mem_scan_others :
    ∀ (ls : List (List Char)), (∀ l ∈ ls, other_line l) →
    ∀ (fuel : Nat) (rest : List Char) (st : MemScan), buf_ok st.buf →
      ∃ b1, buf_ok b1 ∧
        mem_scan (fuel + ls.length) (lines_text ls ++ rest) st
          = mem_scan fuel rest ⟨b1, st.tot, st.active⟩ := by
  intro ls
  induction ls with
  | nil =>
    intro _ fuel rest st hok
    exact ⟨st.buf, hok, by simp [lines_text]⟩
  | cons l ls ih =>
    intro h fuel rest st hok
    obtain ⟨b0, ok0, e0⟩ := mem_scan_other (fuel + ls.length) st l (lines_text ls ++ rest) hok
      (h l (List.mem_cons_self _ _))
    obtain ⟨b1, ok1, e1⟩ := ih (fun x hx => h x (List.mem_cons_of_mem _ hx)) fuel rest
      ⟨b0, st.tot, st.active⟩ ok0
    refine ⟨b1, ok1, ?_⟩
    rw [lines_text_cons, List.length_cons, ← Nat.add_assoc, e0, e1]

theorem mem_scan_eof (fuel : Nat) (st : MemScan) : mem_scan (fuel + 1) [] st = some st := by
  simp [mem_scan, read_line_eof]

/-- The scan of a `meminfo` file of the kernel's form assigns the `MemTotal:`
value to `tot` and the `Active:` value to `active`. -/
theorem mem_scan_meminfo (pre mid post : List (List Char)) (n1 n2 : Nat) (dT dA : List Char)
    (b : List Char) (t0 a0 : Option FVal) (hok : buf_ok b)
    (hpre : ∀ l ∈ pre, other_line l) (hmid : ∀ l ∈ mid, other_line l)
    (hpost : ∀ l ∈ post, other_line l) (hT : is_digits dT) (hA : is_digits dA)
    (hlT : (value_line memtotal_label (n1 + 1) dT).length + 1 < BUF_SZ)
    (hlA : (value_line active_label (n2 + 1) dA).length + 1 < BUF_SZ)
    (fuel : Nat) (hfuel : pre.length + mid.length + post.length + 3 ≤ fuel) :
    ∃ b1, mem_scan fuel (meminfo_text pre mid post n1 dT n2 dA) ⟨b, t0, a0⟩
      = some ⟨b1, some (to_float (atof dT)), some (to_float (atof dA))⟩ := by
  obtain ⟨k, rfl⟩ : ∃ k, fuel = ((((k + 1 + post.length) + 1) + mid.length) + 1) + pre.length :=
    ⟨fuel - (pre.length + mid.length + post.length + 3), by omega⟩
  obtain ⟨b1, ok1, e1⟩ := mem_scan_others pre hpre _ (value_line memtotal_label (n1 + 1) dT ++ '\n' ::
    (lines_text mid ++ (value_line active_label (n2 + 1) dA ++ '\n' :: lines_text post)))
    ⟨b, t0, a0⟩ hok
  obtain ⟨b2, ok2, e2⟩ := mem_scan_total (((k + 1 + post.length) + 1) + mid.length)
    ⟨b1, t0, a0⟩ n1 dT
    (lines_text mid ++ (value_line active_label (n2 + 1) dA ++ '\n' :: lines_text post)) ok1 hT hlT
  obtain ⟨b3, ok3, e3⟩ := mem_scan_others mid hmid ((k + 1 + post.length) + 1)
    (value_line active_label (n2 + 1) dA ++ '\n' :: lines_text post)
    ⟨b2, some (to_float (atof dT)), a0⟩ ok2
  obtain ⟨b4, ok4, e4⟩ := mem_scan_active (k + 1 + post.length)
    ⟨b3, some (to_float (atof dT)), a0⟩ n2 dA (lines_text post) ok3 hA hlA
  obtain ⟨b5, ok5, e5⟩ := mem_scan_others post hpost (k + 1) []
    ⟨b4, some (to_float (atof dT)), some (to_float (atof dA))⟩ ok4
  refine ⟨b5, ?_⟩
  rw [List.append_nil] at e5
  unfold meminfo_text
  rw [e1, e2, e3, e4, e5, mem_scan_eof]

theorem near_mono {v x e e1 : ℚ} (h : near v x e) (hx : 0 ≤ x) (he : e ≤ e1) : near v x e1 :=
  le_trans h (mul_le_mul_of_nonneg_right he hx)

theorem near_zero {v e : ℚ} (h : near v 0 e) : v = 0 := by
  unfold near at h
  simpa using h

theorem near_bounds {v x e : ℚ} (h : near v x e) : (1 - e) * x ≤ v ∧ v ≤ (1 + e) * x := by
  unfold near at h
  rw [abs_le] at h
  constructor <;> linarith [h.1, h.2]

theorem near_div_const {v x e : ℚ} (h : near v x e) {c : ℚ} (hc : 0 < c) :
    near (v / c) (x / c) e := by
  unfold near at h ⊢
  have e1 : v / c - x / c = (v - x) / c := by ring
  rw [e1, abs_div, abs_of_pos hc, div_le_iff₀ hc]
  have : e * (x / c) * c = e * x := by field_simp
  rw [this]; exact h

theorem near_mul_const {v x e : ℚ} (h : near v x e) {c : ℚ} (hc : 0 ≤ c) :
    near (c * v) (c * x) e := by
  unfold near at h ⊢
  have e1 : c * v - c * x = c * (v - x) := by ring
  rw [e1, abs_mul, abs_of_nonneg hc]
  have : e * (c * x) = c * (e * x) := by ring
  rw [this]
  exact mul_le_mul_of_nonneg_left h hc

/-- The quotient of two approximations. -/
theorem near_quot {a A t T e : ℚ} (ha : near a A e) (ht : near t T e) (hA : 0 ≤ A) (hT : 0 < T)
    (he0 : 0 ≤ e) (he : e ≤ 1 / 4) : 0 < t ∧ near (a / t) (A / T) (3 * e) := by
  have hb := near_bounds ht
  have htpos : 0 < t := by nlinarith [hb.1]
  refine ⟨htpos, ?_⟩
  unfold near at ha ht ⊢
  have e1 : a / t - A / T = ((a - A) * T - A * (t - T)) / (t * T) := by
    rw [div_sub_div _ _ (ne_of_gt htpos) (ne_of_gt hT)]
    congr 1; ring
  have hden : 0 < t * T := mul_pos htpos hT
  rw [e1, abs_div, abs_of_pos hden, div_le_iff₀ hden]
  have hnum : |(a - A) * T - A * (t - T)| ≤ 2 * e * (A * T) := by
    have t0 := abs_sub ((a - A) * T) (A * (t - T))
    rw [abs_mul, abs_mul, abs_of_pos hT, abs_of_nonneg hA] at t0
    have t1 : |a - A| * T ≤ e * A * T := mul_le_mul_of_nonneg_right ha (le_of_lt hT)
    have t2 : A * |t - T| ≤ A * (e * T) := mul_le_mul_of_nonneg_left ht hA
    nlinarith
  have hx : A / T * (t * T) = A * t := by field_simp; ring
  have : 3 * e * (A / T) * (t * T) = 3 * e * (A * t) := by rw [mul_assoc, hx]
  rw [this]
  have hAt : (3 / 4) * (A * T) ≤ A * t := by
    have : (3 / 4) * T ≤ t := by nlinarith [hb.1]
    nlinarith
  have hAT : 0 ≤ A * T := mul_nonneg hA (le_of_lt hT)
  calc |(a - A) * T - A * (t - T)| ≤ 2 * e * (A * T) := hnum
    _ ≤ 3 * e * ((3 / 4) * (A * T)) := by nlinarith
    _ ≤ 3 * e * (A * t) := by
        apply mul_le_mul_of_nonneg_left hAt; linarith

theorem round_mag_zero (fmt : FloatFormat) : round_mag fmt 0 = 0 := by
  simp [round_mag]

/-- One rounding to `float` of an approximation of moderate size. -/
theorem step32 {v x e : ℚ} (hn : near v x e) (he : e ≤ 1 / 2)
    (hlo : x = 0 ∨ 1 / 2 ^ 125 ≤ x) (hhi : x ≤ 2 ^ 126) :
    fround binary32 false v = FVal.fin false (round_mag binary32 v) ∧
    near (round_mag binary32 v) x (e + u32 + e * u32) := by
  have hu : u32 = 1 / 16777216 := by norm_num [u32]
  rcases hlo with rfl | hlo
  · have hv := near_zero hn
    subst hv
    refine ⟨fround32_fin false (le_refl _) (by norm_num), ?_⟩
    rw [round_mag_zero]
    unfold near; simp
  · have hxpos : 0 < x := lt_of_lt_of_le (by norm_num) hlo
    have hb := near_bounds hn
    have hvlo : 1 / 2 ^ 126 ≤ v := by
      have : (1 / 2 : ℚ) * x ≤ v := by nlinarith [hb.1]
      have h2 : (1 / 2 : ℚ) * (1 / 2 ^ 125) ≤ (1 / 2) * x :=
        mul_le_mul_of_nonneg_left hlo (by norm_num)
      have h3 : (1 / 2 : ℚ) * (1 / 2 ^ 125) = 1 / 2 ^ 126 := by norm_num
      linarith
    have hv0 : 0 ≤ v := le_trans (by norm_num) hvlo
    have hvhi : v ≤ 2 ^ 127 := by
      have : v ≤ 2 * x := by nlinarith [hb.2]
      have h2 : (2 : ℚ) * 2 ^ 126 = 2 ^ 127 := by norm_num
      linarith
    refine ⟨fround32_fin false hv0 hvhi, ?_⟩
    have hemin : (2 : ℚ) ^ binary32.emin ≤ v := by
      have : (2 : ℚ) ^ binary32.emin = 1 / 2 ^ 126 := by
        have : binary32.emin = -((126 : ℕ) : ℤ) := by simp [binary32, FloatFormat.emin]
        rw [this, zpow_neg, zpow_natCast]; norm_num
      rw [this]; exact hvlo
    have hr := round_mag_err_normal binary32 hemin
    have e1 : (2 : ℚ) ^ (-((binary32.prec : ℕ) : ℤ)) = u32 := by
      simp [binary32, u32, zpow_neg]
      norm_cast
    rw [e1] at hr
    unfold near at hn ⊢
    have tri := abs_sub_le (round_mag binary32 v) v x
    have : v * u32 ≤ (1 + e) * x * u32 := by
      apply mul_le_mul_of_nonneg_right hb.2; rw [hu]; norm_num
    nlinarith

/-- One rounding to `double` of a natural number. -/
theorem step64 (N : ℕ) (hN : (N : ℚ) ≤ 2 ^ 64) :
    fround binary64 false (N : ℚ) = FVal.fin false (round_mag binary64 (N : ℚ)) ∧
    near (round_mag binary64 (N : ℚ)) (N : ℚ) u32 := by
  have hu : u32 = 1 / 16777216 := by norm_num [u32]
  have hN0 : (0 : ℚ) ≤ N := Nat.cast_nonneg N
  have herr : |round_mag binary64 (N : ℚ) - N| ≤ (N : ℚ) * (1 / 2 ^ 53) := by
    rcases Nat.eq_zero_or_pos N with h0 | hpos
    · subst h0; simp [round_mag_zero]
    · have h1 : (1 : ℚ) ≤ N := by exact_mod_cast hpos
      have hemin : (2 : ℚ) ^ binary64.emin ≤ N := by
        have : (2 : ℚ) ^ binary64.emin ≤ 2 ^ (0 : ℤ) :=
          zpow_le_zpow_right₀ (by norm_num) (by simp [binary64, FloatFormat.emin])
        simp at this
        linarith
      have hr := round_mag_err_normal binary64 hemin
      have e1 : (2 : ℚ) ^ (-((binary64.prec : ℕ) : ℤ)) = 1 / 2 ^ 53 := by
        simp [binary64, zpow_neg]
        norm_cast
      rwa [e1] at hr
  constructor
  · have hlt : round_mag binary64 (N : ℚ) < 2 ^ (binary64.emax + 1) := by
      have e : (2 : ℚ) ^ (binary64.emax + 1) = 2 ^ 1024 := by
        have : binary64.emax + 1 = ((1024 : ℕ) : ℤ) := by simp [binary64]
        rw [this, zpow_natCast]
      rw [e]
      rw [abs_le] at herr
      have h1 : round_mag binary64 (N : ℚ) ≤ N + N * (1 / 2 ^ 53) := by linarith [herr.2]
      have h2 : (N : ℚ) * (1 / 2 ^ 53) ≤ N := by
        have : (N : ℚ) * (1 / 2 ^ 53) ≤ N * 1 := mul_le_mul_of_nonneg_left (by norm_num) hN0
        linarith
      have h3 : (2 : ℚ) ^ 64 + 2 ^ 64 < 2 ^ 1024 := by norm_num
      linarith
    unfold fround
    rw [if_neg (not_le.mpr hlt)]
  · unfold near
    have : (N : ℚ) * (1 / 2 ^ 53) ≤ u32 * N := by
      rw [hu]
      have : (1 : ℚ) / 2 ^ 53 ≤ 1 / 16777216 := by norm_num
      nlinarith
    linarith

theorem digit_chars_parse :
    ∀ c ∈ ['0', '1', '2', '3', '4', '5', '6', '7', '8', '9'],
      (dec_digit c).isSome = true ∧ isspace c = false ∧ c ≠ '-' ∧ c ≠ '+' ∧ c ≠ NUL ∧
      c.toLower ≠ 'i' ∧ c.toLower ≠ 'n' ∧ c.toLower ≠ 'x' := by
  decide

theorem take_digits_all (ds : List Char)
    (h : ∀ c ∈ ds, c ∈ ['0', '1', '2', '3', '4', '5', '6', '7', '8', '9']) :
    (take_digits dec_digit ds).2 = [] ∧ ((take_digits dec_digit ds).1 = [] → ds = []) := by
  induction ds with
  | nil => simp [take_digits]
  | cons c cs ih =>
    have hc := (digit_chars_parse c (h c (List.mem_cons_self _ _))).1
    obtain ⟨d, hd⟩ := Option.isSome_iff_exists.mp hc
    have := ih (fun x hx => h x (List.mem_cons_of_mem _ hx))
    simp [take_digits, hd, this.1]

/-- `atof` of a string of decimal digits is the number they denote, rounded to
`double`. -/
theorem atof_digits (ds : List Char) (hd : is_digits ds) :
    atof ds = fround binary64 false (decimal_value ds : ℚ) := by
  obtain ⟨hne, hall⟩ := hd
  have hz : NUL ∉ ds := fun h => (digit_chars_parse _ (hall _ h)).2.2.2.2.1 rfl
  obtain ⟨htd2, htd1⟩ := take_digits_all ds hall
  have hm : mantissa 10 dec_digit ds = some ((decimal_value ds : ℚ), []) := by
    unfold mantissa
    rw [htd2]
    simp only
    rw [if_neg (fun h => hne (htd1 h))]
    simp [decimal_value]
  obtain ⟨c, cs, rfl⟩ := List.exists_cons_of_ne_nil hne
  obtain ⟨-, c2, c3, c4, -, c6, c7, -⟩ := digit_chars_parse c (hall c (List.mem_cons_self _ _))
  have hsub : subject (c :: cs) = Subject.number (decimal_value (c :: cs) : ℚ) := by
    unfold subject
    have p1 : ¬ ['i', 'n', 'f'] <+: (c :: cs).map Char.toLower := by
      simp only [List.map_cons, List.cons_prefix_cons]
      exact fun h => c6 h.1.symm
    have p2 : ¬ ['n', 'a', 'n'] <+: (c :: cs).map Char.toLower := by
      simp only [List.map_cons, List.cons_prefix_cons]
      exact fun h => c7 h.1.symm
    rw [if_neg p1, if_neg p2]
    split
    · rename_i x r heq
      have hx : x ∈ c :: cs := by rw [heq]; simp
      have hx8 := (digit_chars_parse x (hall x hx)).2.2.2.2.2.2.2
      rw [if_neg hx8, hm]
      simp [exponent_part]
    · rw [hm]
      simp [exponent_part]
  unfold atof
  rw [cstr_of_not_mem hz]
  have hdw : (c :: cs).dropWhile isspace = c :: cs := by
    simp [List.dropWhile_cons, c2]
  rw [hdw]
  split
  · rename_i r heq
    exact absurd (List.cons.inj heq).1 c3
  · rename_i r heq
    exact absurd (List.cons.inj heq).1 c4
  · rw [hsub]; rfl

theorem of_int32_1024 : of_int binary32 1024 = FVal.fin false 1024 := by decide!

theorem fdiv32_pos (x y : ℚ) (hy : y ≠ 0) :
    fdiv binary32 (FVal.fin false x) (FVal.fin false y) = fround binary32 false (x / y) := by
  simp [fdiv, hy]

/-- Lines 383 and 414 for one value: the `double` from `atof`, stored in a
`float` and divided twice by 1024, is within `7 * u32` of `N / 2^20`. -/
theorem gb_chain (N : ℕ) (hN : (N : ℚ) ≤ 2 ^ 64) :
    ∃ g, fdiv binary32 (fdiv binary32 (to_float (fround binary64 false (N : ℚ)))
        (of_int binary32 1024)) (of_int binary32 1024) = FVal.fin false g ∧
      near g ((N : ℚ) / 2 ^ 20) (7 * u32) := by
  have hu : u32 = 1 / 16777216 := by norm_num [u32]
  have hN0 : (0 : ℚ) ≤ N := Nat.cast_nonneg N
  have hlo : (N : ℚ) = 0 ∨ 1 ≤ (N : ℚ) := by
    rcases Nat.eq_zero_or_pos N with h | h
    · left; exact_mod_cast h
    · right; exact_mod_cast h
  obtain ⟨h64, n64⟩ := step64 N hN
  -- double to float
  obtain ⟨h1, n1⟩ := step32 n64 (by rw [hu]; norm_num)
    (by rcases hlo with h | h
        · exact Or.inl h
        · right; exact le_trans (by norm_num) h)
    (le_trans hN (by norm_num))
  have n1b : near (round_mag binary32 (round_mag binary64 (N : ℚ))) (N : ℚ) (3 * u32) :=
    near_mono n1 hN0 (by rw [hu]; norm_num)
  -- first division by 1024
  have d1 := near_div_const n1b (c := 1024) (by norm_num)
  obtain ⟨h2, n2⟩ := step32 d1 (by rw [hu]; norm_num)
    (by rcases hlo with h | h
        · left; rw [h]; norm_num
        · right
          have : (1 : ℚ) / 1024 ≤ (N : ℚ) / 1024 := by
            apply div_le_div_of_nonneg_right h; norm_num
          exact le_trans (by norm_num) this)
    (by have : (N : ℚ) / 1024 ≤ N := by
          apply div_le_self hN0; norm_num
        exact le_trans this (le_trans hN (by norm_num)))
  have hN1 : (0 : ℚ) ≤ (N : ℚ) / 1024 := div_nonneg hN0 (by norm_num)
  have n2b := near_mono n2 hN1 (show 3 * u32 + u32 + 3 * u32 * u32 ≤ 5 * u32 by rw [hu]; norm_num)
  -- second division by 1024
  have d2 := near_div_const n2b (c := 1024) (by norm_num)
  have hN2 : (0 : ℚ) ≤ (N : ℚ) / 1024 / 1024 := div_nonneg hN1 (by norm_num)
  obtain ⟨h3, n3⟩ := step32 d2 (by rw [hu]; norm_num)
    (by rcases hlo with h | h
        · left; rw [h]; norm_num
        · right
          have : (1 : ℚ) / 1024 / 1024 ≤ (N : ℚ) / 1024 / 1024 := by
            apply div_le_div_of_nonneg_right _ (by norm_num)
            apply div_le_div_of_nonneg_right h; norm_num
          exact le_trans (by norm_num) this)
    (by have h1 : (N : ℚ) / 1024 / 1024 ≤ (N : ℚ) / 1024 := by
          apply div_le_self hN1; norm_num
        have h2 : (N : ℚ) / 1024 ≤ N := by
          apply div_le_self hN0; norm_num
        exact le_trans h1 (le_trans h2 (le_trans hN (by norm_num))))
  have n3b := near_mono n3 hN2 (show 5 * u32 + u32 + 5 * u32 * u32 ≤ 7 * u32 by rw [hu]; norm_num)
  have e20 : (N : ℚ) / 1024 / 1024 = (N : ℚ) / 2 ^ 20 := by
    rw [div_div]; norm_num
  rw [e20] at n3b
  refine ⟨_, ?_, n3b⟩
  rw [h64, to_float, h1, of_int32_1024, fdiv32_pos _ _ (by norm_num), h2,
    fdiv32_pos _ _ (by norm_num), h3]

/-- Lines 414-416: the three figures of the memory line are finite and close to
`100 * A / T`, `A / 2^20` and `T / 2^20`. -/
theorem mem_figures_err (T A : ℕ) (hT1 : 1 ≤ T) (hT : (T : ℚ) ≤ 2 ^ 64)
    (hA : (A : ℚ) ≤ 2 ^ 64) :
    ∃ m a t, mem_figures (to_float (fround binary64 false (T : ℚ)))
        (to_float (fround binary64 false (A : ℚ)))
        = ⟨FVal.fin false m, FVal.fin false a, FVal.fin false t⟩ ∧
      near m (100 * ((A : ℚ) / T)) (1 / 2 ^ 19) ∧
      near a ((A : ℚ) / 2 ^ 20) (1 / 2 ^ 21) ∧
      near t ((T : ℚ) / 2 ^ 20) (1 / 2 ^ 21) := by
  have hu : u32 = 1 / 16777216 := by norm_num [u32]
  have hA0 : (0 : ℚ) ≤ A := Nat.cast_nonneg A
  have hTq : (1 : ℚ) ≤ T := by exact_mod_cast hT1
  have hTpos : (0 : ℚ) < T := by linarith
  obtain ⟨t, ht, nt⟩ := gb_chain T hT
  obtain ⟨a, ha, na⟩ := gb_chain A hA
  have hAg : (0 : ℚ) ≤ (A : ℚ) / 2 ^ 20 := div_nonneg hA0 (by norm_num)
  have hTg : (0 : ℚ) < (T : ℚ) / 2 ^ 20 := div_pos hTpos (by norm_num)
  obtain ⟨htpos, nq⟩ := near_quot na nt hAg hTg (by rw [hu]; norm_num) (by rw [hu]; norm_num)
  have eq : (A : ℚ) / 2 ^ 20 / ((T : ℚ) / 2 ^ 20) = (A : ℚ) / T := by
    field_simp
  rw [eq] at nq
  have hq0 : (0 : ℚ) ≤ (A : ℚ) / T := div_nonneg hA0 (le_of_lt hTpos)
  have hqhi : (A : ℚ) / T ≤ 2 ^ 64 := by
    rw [div_le_iff₀ hTpos]
    nlinarith
  have hqlo : (A : ℚ) / T = 0 ∨ 1 / 2 ^ 64 ≤ (A : ℚ) / T := by
    rcases Nat.eq_zero_or_pos A with h | h
    · left; rw [h]; simp
    · right
      have hA1 : (1 : ℚ) ≤ A := by exact_mod_cast h
      rw [le_div_iff₀ hTpos]
      have : (1 : ℚ) / 2 ^ 64 * T ≤ 1 / 2 ^ 64 * 2 ^ 64 :=
        mul_le_mul_of_nonneg_left hT (by norm_num)
      have e1 : (1 : ℚ) / 2 ^ 64 * 2 ^ 64 = 1 := by norm_num
      linarith
  obtain ⟨h1, n1⟩ := step32 nq (by rw [hu]; norm_num)
    (by rcases hqlo with h | h
        · exact Or.inl h
        · right; exact le_trans (by norm_num) h)
    (le_trans hqhi (by norm_num))
  have n1b := near_mono n1 hq0
    (show 3 * (7 * u32) + u32 + 3 * (7 * u32) * u32 ≤ 23 * u32 by rw [hu]; norm_num)
  have nm := near_mul_const n1b (c := 100) (by norm_num)
  have hE0 : (0 : ℚ) ≤ 100 * ((A : ℚ) / T) := mul_nonneg (by norm_num) hq0
  obtain ⟨h2, n2⟩ := step32 nm (by rw [hu]; norm_num)
    (by rcases hqlo with h | h
        · left; rw [h]; norm_num
        · right
          have : (1 : ℚ) / 2 ^ 64 ≤ 100 * ((A : ℚ) / T) := by linarith
          exact le_trans (by norm_num) this)
    (by have : 100 * ((A : ℚ) / T) ≤ 100 * 2 ^ 64 := by linarith
        exact le_trans this (by norm_num))
  have n2b := near_mono n2 hE0
    (show 23 * u32 + u32 + 23 * u32 * u32 ≤ 1 / 2 ^ 19 by rw [hu]; norm_num)
  refine ⟨_, a, t, ?_, n2b, near_mono na hAg (by rw [hu]; norm_num),
    near_mono nt (le_of_lt hTg) (by rw [hu]; norm_num)⟩
  simp only [mem_figures, ht, ha, fdiv32_pos _ _ (ne_of_gt htpos), h1, of_int32_hundred, fmul,
    Bool.xor_false, h2]

theorem of_int64_five : of_int binary64 5 = FVal.fin false 5 := by decide!

/-- Line 419 for a percentage between 0 and 100.25: the gauge size is defined
and lies between 0 and 20. -/
theorem mem_count_bounds {m : ℚ} (h0 : 0 ≤ m) (h1 : m ≤ 100 + 1 / 4) :
    ∃ c, mem_count (FVal.fin false m) = some c ∧ 0 ≤ c ∧ c ≤ 20 := by
  have hf0 : 0 ≤ ⌊m⌋ := Int.floor_nonneg.mpr h0
  have hf1 : ((⌊m⌋ : ℤ) : ℚ) ≤ m := Int.floor_le m
  have hf2 : m < ((⌊m⌋ : ℤ) : ℚ) + 1 := Int.lt_floor_add_one m
  have hfq : (0 : ℚ) ≤ ((⌊m⌋ : ℤ) : ℚ) := by exact_mod_cast hf0
  -- the rounded value
  obtain ⟨r, hr, hr0, hr1⟩ : ∃ r : ℚ, fround_int (FVal.fin false m) = FVal.fin false r ∧
      0 ≤ r ∧ r ≤ 100 := by
    by_cases hc : m - ⌊m⌋ < 1 / 2
    · refine ⟨(⌊m⌋ : ℚ), by simp only [fround_int]; rw [if_pos hc], hfq, ?_⟩
      have : ⌊m⌋ ≤ 100 := by
        by_contra hcon
        have : (101 : ℤ) ≤ ⌊m⌋ := by omega
        have : ((101 : ℤ) : ℚ) ≤ ((⌊m⌋ : ℤ) : ℚ) := by exact_mod_cast this
        norm_num at this
        linarith
      exact_mod_cast this
    · refine ⟨(⌊m⌋ : ℚ) + 1, by simp only [fround_int]; rw [if_neg hc], by linarith, ?_⟩
      have : ⌊m⌋ ≤ 99 := by
        by_contra hcon
        have : (100 : ℤ) ≤ ⌊m⌋ := by omega
        have : ((100 : ℤ) : ℚ) ≤ ((⌊m⌋ : ℤ) : ℚ) := by exact_mod_cast this
        norm_num at this
        linarith
      have : ((⌊m⌋ : ℤ) : ℚ) ≤ 99 := by exact_mod_cast this
      linarith
  have hx0 : 0 ≤ r / 5 := div_nonneg hr0 (by norm_num)
  have hx1 : r / 5 ≤ 20 := by linarith
  have herr := round_mag_err binary64 hx0
  have e1 : (2 : ℚ) ^ (-((binary64.prec : ℕ) : ℤ)) ≤ 1 / 100 := by
    have : (2 : ℚ) ^ (-((binary64.prec : ℕ) : ℤ)) ≤ 2 ^ (-(7 : ℤ)) :=
      zpow_le_zpow_right₀ (by norm_num) (by simp [binary64])
    have e : (2 : ℚ) ^ (-(7 : ℤ)) = 1 / 128 := by
      rw [zpow_neg]; norm_num
    rw [e] at this
    linarith
  have e2 : (2 : ℚ) ^ (binary64.emin - ((binary64.prec : ℕ) : ℤ)) ≤ 1 / 100 := by
    have : (2 : ℚ) ^ (binary64.emin - ((binary64.prec : ℕ) : ℤ)) ≤ 2 ^ (-(7 : ℤ)) :=
      zpow_le_zpow_right₀ (by norm_num) (by simp [binary64, FloatFormat.emin])
    have e : (2 : ℚ) ^ (-(7 : ℤ)) = 1 / 128 := by
      rw [zpow_neg]; norm_num
    rw [e] at this
    linarith
  have hp : (0 : ℚ) ≤ (2 : ℚ) ^ (-((binary64.prec : ℕ) : ℤ)) := le_of_lt (zpow_pos (by norm_num) _)
  have hy0 : 0 ≤ round_mag binary64 (r / 5) := round_mag_nonneg _ hx0
  have hy1 : round_mag binary64 (r / 5) ≤ 20 + 1 / 2 := by
    rw [abs_le] at herr
    have : r / 5 * (2 : ℚ) ^ (-((binary64.prec : ℕ) : ℤ)) ≤ 20 * (1 / 100) := by
      apply mul_le_mul hx1 e1 hp (by norm_num)
    linarith [herr.2]
  have hfin : fround binary64 false (r / 5) = FVal.fin false (round_mag binary64 (r / 5)) := by
    have hlt : round_mag binary64 (r / 5) < 2 ^ (binary64.emax + 1) := by
      have : (2 : ℚ) ^ (5 : ℤ) ≤ 2 ^ (binary64.emax + 1) :=
        zpow_le_zpow_right₀ (by norm_num) (by simp [binary64])
      have e : (2 : ℚ) ^ (5 : ℤ) = 32 := by norm_num
      rw [e] at this
      linarith
    unfold fround
    rw [if_neg (not_le.mpr hlt)]
  have hfl0 : 0 ≤ ⌊round_mag binary64 (r / 5)⌋ := Int.floor_nonneg.mpr hy0
  have hfl1 : ⌊round_mag binary64 (r / 5)⌋ ≤ 20 := by
    by_contra hcon
    have : (21 : ℤ) ≤ ⌊round_mag binary64 (r / 5)⌋ := by omega
    have h21 : ((21 : ℤ) : ℚ) ≤ round_mag binary64 (r / 5) :=
      le_trans (by exact_mod_cast this) (Int.floor_le _)
    norm_num at h21
    linarith
  refine ⟨⌊round_mag binary64 (r / 5)⌋, ?_, hfl0, hfl1⟩
  unfold mem_count
  have hxor : xor false false = false := rfl
  rw [hr, of_int64_five, fdiv, if_neg (by norm_num), hxor, hfin]
  simp only [to_int, Bool.false_eq_true, if_false]
  rw [if_neg]
  omega

theorem buf_zero_ok : buf_ok (List.replicate BUF_SZ NUL) := by
  have key : ∀ l : List Char, l ≠ [] → NUL ∉ l →
      ∀ k, ¬ l <+: (List.replicate BUF_SZ NUL).drop k := by
    intro l hne hz k hp
    obtain ⟨x, t, rfl⟩ := List.exists_cons_of_ne_nil hne
    rw [prefix_drop_iff] at hp
    have h0 := hp 0 (by simp)
    have hx : x ∈ List.replicate BUF_SZ NUL := List.getElem?_mem h0
    have : x = NUL := List.eq_of_mem_replicate hx
    exact hz (by simp [this])
  refine ⟨List.length_replicate _ _, ?_, fun k _ => key _ (by decide) (by decide) k,
    fun k _ => key _ (by decide) (by decide) k⟩
  rw [List.getElem?_replicate, if_pos (by decide)]

theorem value_line_length (l : List Char) (n : Nat) (ds : List Char) :
    l.length ≤ (value_line l n ds).length := by
  simp only [value_line, List.length_append]
  omega

theorem meminfo_text_length (pre mid post : List (List Char)) (n1 n2 : Nat) (dT dA : List Char) :
    pre.length + mid.length + post.length + 3 ≤ (meminfo_text pre mid post n1 dT n2 dA).length + 1 := by
  have h1 := lines_text_length pre
  have h2 := lines_text_length mid
  have h3 := lines_text_length post
  have h4 := value_line_length memtotal_label (n1 + 1) dT
  have h5 : memtotal_label.length = 9 := by decide
  simp only [meminfo_text, List.length_append, List.length_cons]
  omega

/-- The memory line for a `meminfo` file of the kernel's form. -/
theorem hardware_mem_line_err (pre mid post : List (List Char)) (n1 n2 : Nat)
    (dT dA b : List Char) (hok : buf_ok b)
    (hpre : ∀ l ∈ pre, other_line l) (hmid : ∀ l ∈ mid, other_line l)
    (hpost : ∀ l ∈ post, other_line l) (hT : is_digits dT) (hA : is_digits dA)
    (hlT : (value_line memtotal_label (n1 + 1) dT).length + 1 < BUF_SZ)
    (hlA : (value_line active_label (n2 + 1) dA).length + 1 < BUF_SZ)
    (hT1 : 1 ≤ decimal_value dT) (hT2 : decimal_value dT ≤ 2 ^ 64)
    (hAT : decimal_value dA ≤ decimal_value dT) :
    ∃ (m a t : ℚ) (count : Int),
      hardware_mem_line b (meminfo_text pre mid post n1 dT n2 dA)
        = some (String.mk (gauge count ++ [']', ' '] ++ fmt_f1 (FVal.fin false m) ++
            ['%', ' ', '('] ++ fmt_f1 (FVal.fin false a) ++ [' ', 'G', 'B', ' ', '/', ' '] ++
            fmt_f1 (FVal.fin false t) ++ [' ', 'G', 'B', ')', '\n'])) ∧
      0 ≤ count ∧ count ≤ 20 ∧
      |m - 100 * ((decimal_value dA : ℚ) / (decimal_value dT : ℚ))|
        ≤ 1 / 2 ^ 19 * (100 * ((decimal_value dA : ℚ) / (decimal_value dT : ℚ))) ∧
      |a - (decimal_value dA : ℚ) / 2 ^ 20| ≤ 1 / 2 ^ 21 * ((decimal_value dA : ℚ) / 2 ^ 20) ∧
      |t - (decimal_value dT : ℚ) / 2 ^ 20| ≤ 1 / 2 ^ 21 * ((decimal_value dT : ℚ) / 2 ^ 20) := by
  obtain ⟨b1, hscan⟩ := mem_scan_meminfo pre mid post n1 n2 dT dA b none none hok hpre hmid hpost
    hT hA hlT hlA _ (meminfo_text_length pre mid post n1 n2 dT dA)
  have hTq : ((decimal_value dT : ℕ) : ℚ) ≤ 2 ^ 64 := by exact_mod_cast hT2
  have hAq : ((decimal_value dA : ℕ) : ℚ) ≤ 2 ^ 64 :=
    le_trans (by exact_mod_cast hAT) hTq
  obtain ⟨m, a, t, hfig, nm, na, nt⟩ := mem_figures_err (decimal_value dT) (decimal_value dA)
    hT1 hTq hAq
  have hT0 : (0 : ℚ) < (decimal_value dT : ℚ) := by exact_mod_cast hT1
  have hA0 : (0 : ℚ) ≤ (decimal_value dA : ℚ) := Nat.cast_nonneg _
  have hq0 : (0 : ℚ) ≤ (decimal_value dA : ℚ) / (decimal_value dT : ℚ) :=
    div_nonneg hA0 (le_of_lt hT0)
  have hq1 : (decimal_value dA : ℚ) / (decimal_value dT : ℚ) ≤ 1 := by
    rw [div_le_one hT0]
    exact_mod_cast hAT
  have hb := near_bounds nm
  have hm0 : 0 ≤ m := by
    have : (0 : ℚ) ≤ (1 - 1 / 2 ^ 19) * (100 * ((decimal_value dA : ℚ) / (decimal_value dT : ℚ))) :=
      mul_nonneg (by norm_num) (mul_nonneg (by norm_num) hq0)
    linarith [hb.1]
  have hm1 : m ≤ 100 + 1 / 4 := by
    have h2 : (1 + 1 / 2 ^ 19 : ℚ) * (100 * ((decimal_value dA : ℚ) / (decimal_value dT : ℚ)))
        ≤ (1 + 1 / 2 ^ 19) * (100 * 1) := by
      apply mul_le_mul_of_nonneg_left _ (by norm_num)
      linarith
    have h3 : (1 + 1 / 2 ^ 19 : ℚ) * (100 * 1) ≤ 100 + 1 / 4 := by norm_num
    linarith [hb.2]
  obtain ⟨count, hcount, hc0, hc1⟩ := mem_count_bounds hm0 hm1
  refine ⟨m, a, t, count, ?_, hc0, hc1, nm, na, nt⟩
  unfold hardware_mem_line
  rw [hscan]
  simp only
  rw [atof_digits dT hT, atof_digits dA hA, hfig]
  simp only [mem_line, hcount, Option.map_some']

/-- The scan of lines of the kernel's form, in any order: `tot` and `active`
are assigned the values of the `MemTotal:` and `Active:` lines met. -/
theorem mem_scan_lines (dT dA : List Char) (hT : is_digits dT) (hA : is_digits dA) :
    ∀ (ls : List MemLine) (fuel : Nat) (rest : List Char) (st : MemScan), buf_ok st.buf →
      (∀ l ∈ ls, MemLine.fits dT dA l) →
      ∃ b1, buf_ok b1 ∧
        mem_scan (fuel + ls.length) (meminfo_lines dT dA ls ++ rest) st
          = mem_scan fuel rest
              ⟨b1, if ls.any MemLine.is_total then some (to_float (atof dT)) else st.tot,
                if ls.any MemLine.is_active then some (to_float (atof dA)) else st.active⟩ := by
  intro ls
  induction ls with
  | nil =>
    intro fuel rest st hok _
    exact ⟨st.buf, hok, by simp [meminfo_lines, lines_text]⟩
  | cons l ls ih =>
    intro fuel rest st hok h
    have hrest : ∀ x ∈ ls, MemLine.fits dT dA x := fun x hx => h x (List.mem_cons_of_mem _ hx)
    have hl := h l (List.mem_cons_self _ _)
    have htext : meminfo_lines dT dA (l :: ls) ++ rest
        = MemLine.text dT dA l ++ '\n' :: (meminfo_lines dT dA ls ++ rest) := by
      unfold meminfo_lines
      rw [List.map_cons, lines_text_cons]
    rw [htext, List.length_cons, ← Nat.add_assoc]
    cases l with
    | other body =>
      obtain ⟨b0, ok0, e0⟩ := mem_scan_other (fuel + ls.length) st body
        (meminfo_lines dT dA ls ++ rest) hok hl
      obtain ⟨b1, ok1, e1⟩ := ih fuel rest ⟨b0, st.tot, st.active⟩ ok0 hrest
      refine ⟨b1, ok1, ?_⟩
      simp only [MemLine.text]
      rw [e0, e1]
      simp [MemLine.is_total, MemLine.is_active]
    | total n =>
      obtain ⟨b0, ok0, e0⟩ := mem_scan_total (fuel + ls.length) st n dT
        (meminfo_lines dT dA ls ++ rest) hok hT hl
      obtain ⟨b1, ok1, e1⟩ := ih fuel rest ⟨b0, some (to_float (atof dT)), st.active⟩ ok0 hrest
      refine ⟨b1, ok1, ?_⟩
      simp only [MemLine.text]
      rw [e0, e1]
      simp [MemLine.is_total, MemLine.is_active]
    | active n =>
      obtain ⟨b0, ok0, e0⟩ := mem_scan_active (fuel + ls.length) st n dA
        (meminfo_lines dT dA ls ++ rest) hok hA hl
      obtain ⟨b1, ok1, e1⟩ := ih fuel rest ⟨b0, st.tot, some (to_float (atof dA))⟩ ok0 hrest
      refine ⟨b1, ok1, ?_⟩
      simp only [MemLine.text]
      rw [e0, e1]
      simp [MemLine.is_total, MemLine.is_active]

/-- Line 419 for a percentage up to `10^10 + 20000`: the conversion to `int` is
defined and the gauge size is not negative. -/
theorem mem_count_defined {m : ℚ} (h0 : 0 ≤ m) (h1 : m ≤ 10 ^ 10 + 20000) :
    ∃ c, mem_count (FVal.fin false m) = some c ∧ 0 ≤ c := by
  have hf0 : 0 ≤ ⌊m⌋ := Int.floor_nonneg.mpr h0
  have hf1 : ((⌊m⌋ : ℤ) : ℚ) ≤ m := Int.floor_le m
  have hfq : (0 : ℚ) ≤ ((⌊m⌋ : ℤ) : ℚ) := by exact_mod_cast hf0
  obtain ⟨r, hr, hr0, hr1⟩ : ∃ r : ℚ, fround_int (FVal.fin false m) = FVal.fin false r ∧
      0 ≤ r ∧ r ≤ 10 ^ 10 + 20001 := by
    by_cases hc : m - ⌊m⌋ < 1 / 2
    · exact ⟨(⌊m⌋ : ℚ), by simp only [fround_int]; rw [if_pos hc], hfq, by linarith⟩
    · exact ⟨(⌊m⌋ : ℚ) + 1, by simp only [fround_int]; rw [if_neg hc], by linarith, by linarith⟩
  have hx0 : 0 ≤ r / 5 := div_nonneg hr0 (by norm_num)
  have hx1 : r / 5 ≤ 2000004001 := by linarith
  have herr := round_mag_err binary64 hx0
  have e1 : (2 : ℚ) ^ (-((binary64.prec : ℕ) : ℤ)) ≤ 1 / 2 ^ 32 := by
    have : (2 : ℚ) ^ (-((binary64.prec : ℕ) : ℤ)) ≤ 2 ^ (-(32 : ℤ)) :=
      zpow_le_zpow_right₀ (by norm_num) (by simp [binary64])
    have e : (2 : ℚ) ^ (-(32 : ℤ)) = 1 / 2 ^ 32 := by
      rw [zpow_neg]; norm_num
    rw [e] at this
    exact this
  have e2 : (2 : ℚ) ^ (binary64.emin - ((binary64.prec : ℕ) : ℤ)) ≤ 1 / 100 := by
    have : (2 : ℚ) ^ (binary64.emin - ((binary64.prec : ℕ) : ℤ)) ≤ 2 ^ (-(7 : ℤ)) :=
      zpow_le_zpow_right₀ (by norm_num) (by simp [binary64, FloatFormat.emin])
    have e : (2 : ℚ) ^ (-(7 : ℤ)) = 1 / 128 := by
      rw [zpow_neg]; norm_num
    rw [e] at this
    linarith
  have hp : (0 : ℚ) ≤ (2 : ℚ) ^ (-((binary64.prec : ℕ) : ℤ)) := le_of_lt (zpow_pos (by norm_num) _)
  have hy0 : 0 ≤ round_mag binary64 (r / 5) := round_mag_nonneg _ hx0
  have hy1 : round_mag binary64 (r / 5) ≤ 2000004003 := by
    rw [abs_le] at herr
    have : r / 5 * (2 : ℚ) ^ (-((binary64.prec : ℕ) : ℤ)) ≤ 2000004001 * (1 / 2 ^ 32) := by
      apply mul_le_mul hx1 e1 hp (by norm_num)
    have h2 : (2000004001 : ℚ) * (1 / 2 ^ 32) ≤ 1 := by norm_num
    linarith [herr.2]
  have hfin : fround binary64 false (r / 5) = FVal.fin false (round_mag binary64 (r / 5)) := by
    have hlt : round_mag binary64 (r / 5) < 2 ^ (binary64.emax + 1) := by
      have : (2 : ℚ) ^ (32 : ℤ) ≤ 2 ^ (binary64.emax + 1) :=
        zpow_le_zpow_right₀ (by norm_num) (by simp [binary64])
      have e : (2 : ℚ) ^ (32 : ℤ) = 4294967296 := by norm_num
      rw [e] at this
      linarith
    unfold fround
    rw [if_neg (not_le.mpr hlt)]
  have hfl0 : 0 ≤ ⌊round_mag binary64 (r / 5)⌋ := Int.floor_nonneg.mpr hy0
  have hfl1 : ⌊round_mag binary64 (r / 5)⌋ ≤ 2147483647 := by
    by_contra hcon
    have : (2147483648 : ℤ) ≤ ⌊round_mag binary64 (r / 5)⌋ := by omega
    have h21 : ((2147483648 : ℤ) : ℚ) ≤ round_mag binary64 (r / 5) :=
      le_trans (by exact_mod_cast this) (Int.floor_le _)
    norm_num at h21
    linarith
  refine ⟨⌊round_mag binary64 (r / 5)⌋, ?_, hfl0⟩
  unfold mem_count
  have hxor : xor false false = false := rfl
  rw [hr, of_int64_five, fdiv, if_neg (by norm_num), hxor, hfin]
  simp only [to_int, Bool.false_eq_true, if_false]
  rw [if_neg]
  omega

theorem meminfo_lines_length (dT dA : List Char) (ls : List MemLine) :
    ls.length + 1 ≤ (meminfo_lines dT dA ls).length + 1 := by
  have := lines_text_length (ls.map (MemLine.text dT dA))
  rw [List.length_map] at this
  unfold meminfo_lines
  omega

/-- The memory line for a `meminfo` file of the kernel's form, the lines in any
order. -/
theorem hardware_mem_line_lines (ls : List MemLine) (dT dA b : List Char) (hok : buf_ok b)
    (hls : ∀ l ∈ ls, MemLine.fits dT dA l)
    (htot : ls.any MemLine.is_total = true) (hact : ls.any MemLine.is_active = true)
    (hT : is_digits dT) (hA : is_digits dA)
    (hT1 : 1 ≤ decimal_value dT) (hT2 : decimal_value dT ≤ 2 ^ 64)
    (hA2 : decimal_value dA ≤ 2 ^ 64) :
    ∃ (m a t : ℚ),
      hardware_mem_line b (meminfo_lines dT dA ls)
        = mem_line ⟨FVal.fin false m, FVal.fin false a, FVal.fin false t⟩ ∧
      |m - 100 * ((decimal_value dA : ℚ) / (decimal_value dT : ℚ))|
        ≤ 1 / 2 ^ 19 * (100 * ((decimal_value dA : ℚ) / (decimal_value dT : ℚ))) ∧
      |a - (decimal_value dA : ℚ) / 2 ^ 20| ≤ 1 / 2 ^ 21 * ((decimal_value dA : ℚ) / 2 ^ 20) ∧
      |t - (decimal_value dT : ℚ) / 2 ^ 20| ≤ 1 / 2 ^ 21 * ((decimal_value dT : ℚ) / 2 ^ 20) ∧
      (decimal_value dA ≤ 10 ^ 8 * decimal_value dT →
        ∃ count : Int,
          mem_line ⟨FVal.fin false m, FVal.fin false a, FVal.fin false t⟩
            = some (String.mk (gauge count ++ [']', ' '] ++ fmt_f1 (FVal.fin false m) ++
                ['%', ' ', '('] ++ fmt_f1 (FVal.fin false a) ++ [' ', 'G', 'B', ' ', '/', ' '] ++
                fmt_f1 (FVal.fin false t) ++ [' ', 'G', 'B', ')', '\n'])) ∧
          0 ≤ count ∧ (decimal_value dA ≤ decimal_value dT → count ≤ 20)) := by
  obtain ⟨k, hk⟩ : ∃ k, (meminfo_lines dT dA ls).length + 1 = (k + 1) + ls.length :=
    ⟨(meminfo_lines dT dA ls).length + 1 - (ls.length + 1), by
      have := meminfo_lines_length dT dA ls
      omega⟩
  obtain ⟨b1, -, hscan⟩ := mem_scan_lines dT dA hT hA ls (k + 1) [] ⟨b, none, none⟩ hok hls
  rw [List.append_nil, htot, hact, mem_scan_eof] at hscan
  simp only [if_true] at hscan
  have hTq : ((decimal_value dT : ℕ) : ℚ) ≤ 2 ^ 64 := by exact_mod_cast hT2
  have hAq : ((decimal_value dA : ℕ) : ℚ) ≤ 2 ^ 64 := by exact_mod_cast hA2
  obtain ⟨m, a, t, hfig, nm, na, nt⟩ := mem_figures_err (decimal_value dT) (decimal_value dA)
    hT1 hTq hAq
  have hT0 : (0 : ℚ) < (decimal_value dT : ℚ) := by exact_mod_cast hT1
  have hA0 : (0 : ℚ) ≤ (decimal_value dA : ℚ) := Nat.cast_nonneg _
  have hq0 : (0 : ℚ) ≤ (decimal_value dA : ℚ) / (decimal_value dT : ℚ) :=
    div_nonneg hA0 (le_of_lt hT0)
  have hb := near_bounds nm
  have hm0 : 0 ≤ m := by
    have : (0 : ℚ) ≤ (1 - 1 / 2 ^ 19) * (100 * ((decimal_value dA : ℚ) / (decimal_value dT : ℚ))) :=
      mul_nonneg (by norm_num) (mul_nonneg (by norm_num) hq0)
    linarith [hb.1]
  refine ⟨m, a, t, ?_, nm, na, nt, ?_⟩
  · unfold hardware_mem_line
    rw [hk, hscan]
    simp only
    rw [atof_digits dT hT, atof_digits dA hA, hfig]
  · intro hAT
    have hq1 : (decimal_value dA : ℚ) / (decimal_value dT : ℚ) ≤ 10 ^ 8 := by
      rw [div_le_iff₀ hT0]
      exact_mod_cast hAT
    have hm1 : m ≤ 10 ^ 10 + 20000 := by
      have h2 : (1 + 1 / 2 ^ 19 : ℚ) * (100 * ((decimal_value dA : ℚ) / (decimal_value dT : ℚ)))
          ≤ (1 + 1 / 2 ^ 19) * (100 * 10 ^ 8) := by
        apply mul_le_mul_of_nonneg_left _ (by norm_num)
        linarith
      have h3 : (1 + 1 / 2 ^ 19 : ℚ) * (100 * 10 ^ 8) ≤ 10 ^ 10 + 20000 := by norm_num
      linarith [hb.2]
    obtain ⟨count, hcount, hc0⟩ := mem_count_defined hm0 hm1
    refine ⟨count, ?_, hc0, ?_⟩
    · simp only [mem_line, hcount, Option.map_some']
    · intro hle
      have hq2 : (decimal_value dA : ℚ) / (decimal_value dT : ℚ) ≤ 1 := by
        rw [div_le_one hT0]
        exact_mod_cast hle
      have hm2 : m ≤ 100 + 1 / 4 := by
        have h2 : (1 + 1 / 2 ^ 19 : ℚ) * (100 * ((decimal_value dA : ℚ) / (decimal_value dT : ℚ)))
            ≤ (1 + 1 / 2 ^ 19) * (100 * 1) := by
          apply mul_le_mul_of_nonneg_left _ (by norm_num)
          linarith
        have h3 : (1 + 1 / 2 ^ 19 : ℚ) * (100 * 1) ≤ 100 + 1 / 4 := by norm_num
        linarith [hb.2]
      obtain ⟨c, hc, -, hc1⟩ := mem_count_bounds hm0 hm2
      rw [hcount] at hc
      simp only [Option.some.injEq] at hc
      rw [hc]
      exact hc1

/-! ## Memory claim -/

set_option maxRecDepth 1000000 in
/-- C10 fails as stated: for a `meminfo` with total 10485760 kB and active
6160384 kB the exact percentage `100 * active / total` is 58.75, yet the `float`
computation yields 15400959/262144 = 58.749996..., and the line shows 58.7%
where 58.75 itself would be printed as 58.8. -/
theorem mem_percentage_not_exact :
    (100 * (6160384 : ℚ) / 10485760 = 235 / 4) ∧
    (mem_figures (to_float (atof "10485760".toList)) (to_float (atof "6160384".toList))).mem_usage
      = FVal.fin false (15400959 / 262144) ∧
    hardware_mem_line (List.replicate BUF_SZ NUL)
      ("MemTotal:       10485760 kB\nMemFree:         1000000 kB\n" ++
        "Active:           6160384 kB\nInactive:         2000000 kB\n").toList
      = some "###########---------] 58.7% (5.9 GB / 10.0 GB)\n" ∧
    fmt_f1 (FVal.fin false (235 / 4)) = ['5', '8', '.', '8'] := by
  decide!

set_option maxRecDepth 1000000 in
/-- C10 (as amended): for every `meminfo` text of the kernel's form (lines that
mention neither label, a line `MemTotal:`, blanks, total, ` kB`, and a line
`Active:`, blanks, active, ` kB`, in any order; every line shorter than the
buffer) with `0 < total <= 2^64` and `active <= 2^64`, read into a well-formed
line buffer, the memory line is the line for three `float` figures: the
percentage, within a relative `2^-19` of `100 * active / total`, and the two GB
figures, within a relative `2^-21` of `active / 1024^2` and `total / 1024^2`.
When `active <= 10^8 * total` the gauge size fits an `int` and the line is
printed: a gauge and the three figures with one decimal; when `active <= total`
the gauge has at most 20 filled segments.  For total 16777216 and active 4194304
the line is 5 filled segments of 20, 25.0%, 4.0 GB / 16.0 GB. -/
theorem mem_line_rounded :
    (∀ (ls : List MemLine) (dT dA b : List Char),
      buf_ok b → (∀ l ∈ ls, MemLine.fits dT dA l) →
      ls.any MemLine.is_total = true → ls.any MemLine.is_active = true →
      is_digits dT → is_digits dA →
      1 ≤ decimal_value dT → decimal_value dT ≤ 2 ^ 64 → decimal_value dA ≤ 2 ^ 64 →
      ∃ (m a t : ℚ),
        hardware_mem_line b (meminfo_lines dT dA ls)
          = mem_line ⟨FVal.fin false m, FVal.fin false a, FVal.fin false t⟩ ∧
        |m - 100 * ((decimal_value dA : ℚ) / (decimal_value dT : ℚ))|
          ≤ 1 / 2 ^ 19 * (100 * ((decimal_value dA : ℚ) / (decimal_value dT : ℚ))) ∧
        |a - (decimal_value dA : ℚ) / 2 ^ 20| ≤ 1 / 2 ^ 21 * ((decimal_value dA : ℚ) / 2 ^ 20) ∧
        |t - (decimal_value dT : ℚ) / 2 ^ 20| ≤ 1 / 2 ^ 21 * ((decimal_value dT : ℚ) / 2 ^ 20) ∧
        (decimal_value dA ≤ 10 ^ 8 * decimal_value dT →
          ∃ count : Int,
            mem_line ⟨FVal.fin false m, FVal.fin false a, FVal.fin false t⟩
              = some (String.mk (gauge count ++ [']', ' '] ++ fmt_f1 (FVal.fin false m) ++
                  ['%', ' ', '('] ++ fmt_f1 (FVal.fin false a) ++
                  [' ', 'G', 'B', ' ', '/', ' '] ++
                  fmt_f1 (FVal.fin false t) ++ [' ', 'G', 'B', ')', '\n'])) ∧
            0 ≤ count ∧ (decimal_value dA ≤ decimal_value dT → count ≤ 20))) ∧
    hardware_mem_line (List.replicate BUF_SZ NUL)
      ("MemTotal:       16777216 kB\nMemFree:         1000000 kB\n" ++
        "Active:           4194304 kB\nInactive:         2000000 kB\n").toList
      = some "#####---------------] 25.0% (4.0 GB / 16.0 GB)\n" :=
  ⟨fun ls dT dA b hok hls htot hact hT hA hT1 hT2 hA2 =>
    hardware_mem_line_lines ls dT dA b hok hls htot hact hT hA hT1 hT2 hA2, by decide!⟩

theorem mem_line_rounded_witness :
    buf_ok (List.replicate BUF_SZ NUL) ∧
    (∀ l ∈ [MemLine.active 10, MemLine.other "MemFree:         1000000 kB".toList,
        MemLine.total 6, MemLine.other "Inactive:         2000000 kB".toList],
      MemLine.fits "16777216".toList "18874368".toList l) ∧
    is_digits "16777216".toList ∧ is_digits "18874368".toList ∧
    1 ≤ decimal_value "16777216".toList ∧ decimal_value "16777216".toList ≤ 2 ^ 64 ∧
    decimal_value "18874368".toList ≤ 2 ^ 64 ∧
    ∃ (m a t : ℚ),
      hardware_mem_line (List.replicate BUF_SZ NUL)
          (meminfo_lines "16777216".toList "18874368".toList
            [MemLine.active 10, MemLine.other "MemFree:         1000000 kB".toList,
              MemLine.total 6, MemLine.other "Inactive:         2000000 kB".toList])
        = mem_line ⟨FVal.fin false m, FVal.fin false a, FVal.fin false t⟩ ∧
      |m - 100 * ((decimal_value "18874368".toList : ℚ) / (decimal_value "16777216".toList : ℚ))|
        ≤ 1 / 2 ^ 19 *
          (100 * ((decimal_value "18874368".toList : ℚ) / (decimal_value "16777216".toList : ℚ))) ∧
      |a - (decimal_value "18874368".toList : ℚ) / 2 ^ 20|
        ≤ 1 / 2 ^ 21 * ((decimal_value "18874368".toList : ℚ) / 2 ^ 20) ∧
      |t - (decimal_value "16777216".toList : ℚ) / 2 ^ 20|
        ≤ 1 / 2 ^ 21 * ((decimal_value "16777216".toList : ℚ) / 2 ^ 20) ∧
      (decimal_value "18874368".toList ≤ 10 ^ 8 * decimal_value "16777216".toList →
        ∃ count : Int,
          mem_line ⟨FVal.fin false m, FVal.fin false a, FVal.fin false t⟩
            = some (String.mk (gauge count ++ [']', ' '] ++ fmt_f1 (FVal.fin false m) ++
                ['%', ' ', '('] ++ fmt_f1 (FVal.fin false a) ++
                [' ', 'G', 'B', ' ', '/', ' '] ++
                fmt_f1 (FVal.fin false t) ++ [' ', 'G', 'B', ')', '\n'])) ∧
          0 ≤ count ∧
          (decimal_value "18874368".toList ≤ decimal_value "16777216".toList → count ≤ 20)) :=
  ⟨buf_zero_ok, by decide, by decide, by decide, by decide, by decide, by decide,
    mem_line_rounded.1 [MemLine.active 10, MemLine.other "MemFree:         1000000 kB".toList,
        MemLine.total 6, MemLine.other "Inactive:         2000000 kB".toList]
      "16777216".toList "18874368".toList (List.replicate BUF_SZ NUL) buf_zero_ok
      (by decide) (by decide) (by decide) (by decide) (by decide) (by decide) (by decide)
      (by decide)⟩

set_option maxRecDepth 1000000 in
/-- Two files outside the usual order and range: with the `Active:` line before
the `MemTotal:` line the memory line is the same as with the lines in the
kernel's order, and with active above total the percentage is above 100 and all
20 segments are filled. -/
theorem mem_line_examples :
    meminfo_lines "16777216".toList "18874368".toList
        [MemLine.active 10, MemLine.other "MemFree:         1000000 kB".toList,
          MemLine.total 6, MemLine.other "Inactive:         2000000 kB".toList]
      = ("Active:           18874368 kB\nMemFree:         1000000 kB\n" ++
          "MemTotal:       16777216 kB\nInactive:         2000000 kB\n").toList ∧
    hardware_mem_line (List.replicate BUF_SZ NUL)
      ("Active:           18874368 kB\nMemFree:         1000000 kB\n" ++
        "MemTotal:       16777216 kB\nInactive:         2000000 kB\n").toList
      = some "####################] 112.5% (18.0 GB / 16.0 GB)\n" ∧
    hardware_mem_line (List.replicate BUF_SZ NUL)
      ("Active:           4194304 kB\nMemFree:         1000000 kB\n" ++
        "MemTotal:       16777216 kB\nInactive:         2000000 kB\n").toList
      = some "#####---------------] 25.0% (4.0 GB / 16.0 GB)\n" := by
  decide!

theorem meminfo_text_example :
    meminfo_text [] ["MemFree:         1000000 kB".toList]
        ["Inactive:         2000000 kB".toList] 6 "16777216".toList 10 "4194304".toList
      = ("MemTotal:       16777216 kB\nMemFree:         1000000 kB\n" ++
        "Active:           4194304 kB\nInactive:         2000000 kB\n").toList := by
  decide

/-! ## The line reader: `read_line`, `read_file`, the processor count -/

theorem first_line_append (file : List Char) :
    file = first_line file ++ file.drop (first_line file).length := by
  induction file with
  | nil => rfl
  | cons c cs ih =>
    unfold first_line
    split
    · simp
    · simp only [List.length_cons, List.drop_succ_cons, List.cons_append]
      rw [← ih]

theorem first_line_eq_nil {file : List Char} : (first_line file).length = 0 ↔ file = [] := by
  cases file with
  | nil => simp [first_line]
  | cons c cs => unfold first_line; split <;> simp

theorem read_line_loop_fits (size : Nat) :
    ∀ (file : List Char) (i : Nat) (str : List Char),
      i + (first_line file).length ≤ size →
      (read_line_loop size i str file).1 = i + (first_line file).length ∧
      (read_line_loop size i str file).2.2 = file.drop (first_line file).length := by
  intro file
  induction file with
  | nil => intro i str _; simp [read_line_loop, first_line]
  | cons c cs ih =>
    intro i str h
    unfold first_line at h ⊢
    by_cases hc : c = '\n' ∨ c = NUL
    · rw [if_pos hc] at h ⊢
      simp only [List.length_singleton] at h ⊢
      have hi : i < size := by omega
      rw [read_line_loop, if_pos hi, if_pos hc]
      simp
    · rw [if_neg hc] at h ⊢
      simp only [List.length_cons] at h ⊢
      have hi : i < size := by omega
      rw [read_line_loop, if_pos hi, if_neg hc]
      have := ih (i + 1) (str.set i c) (by omega)
      rw [this.1, this.2]
      constructor
      · omega
      · simp

/-- C16, counterexample.  With a buffer of 2 bytes and the file `"abc\n"`,
`read_line` returns 2 although it has taken 3 bytes from the file (only the
newline is left unread, the byte `c` is lost) and it has not reached the
newline; with a buffer of 0 bytes it returns 0 although the file is not at its
end (and one byte is taken). -/
theorem read_line_count_short :
    read_line ['x', 'x'] 2 ['a', 'b', 'c', '\n'] = (2, ['a', 'b'], ['\n']) ∧
    read_line [] 0 ['a', '\n'] = (0, [], ['\n']) := by
  decide

/-- C16, amended.  Whenever the first line of the unread file content (up to
and including its first newline or NUL, or all of it when there is neither)
fits the buffer size, `read_line` takes exactly that line from the file and
returns its length, terminator included; the result is 0 if and only if the
file is at its end. -/
theorem read_line_consumes_line (str file : List Char) (size : Nat)
    (hfit : (first_line file).length ≤ size) :
    (read_line str size file).1 = (first_line file).length ∧
    file = first_line file ++ (read_line str size file).2.2 ∧
    ((read_line str size file).1 = 0 ↔ file = []) := by
  have h := read_line_loop_fits size file 0 str (by omega)
  unfold read_line
  rw [h.1, h.2]
  refine ⟨by omega, first_line_append file, ?_⟩
  rw [Nat.zero_add]
  exact first_line_eq_nil

theorem read_line_consumes_line_witness :
    (first_line ['a', 'b', '\n', 'c']).length ≤ 3 ∧
    ((read_line ['x', 'x', 'x'] 3 ['a', 'b', '\n', 'c']).1
      = (first_line ['a', 'b', '\n', 'c']).length ∧
    ['a', 'b', '\n', 'c']
      = first_line ['a', 'b', '\n', 'c'] ++ (read_line ['x', 'x', 'x'] 3 ['a', 'b', '\n', 'c']).2.2 ∧
    ((read_line ['x', 'x', 'x'] 3 ['a', 'b', '\n', 'c']).1 = 0 ↔ ['a', 'b', '\n', 'c'] = [])) :=
  ⟨by decide, read_line_consumes_line ['x', 'x', 'x'] ['a', 'b', '\n', 'c'] 3 (by decide)⟩

set_option maxRecDepth 1000000 in
/-- C18.  For the six-line `cpuinfo` of a KVM guest below, two lines contain
`"processor"` (the first and the `model name` line) but `hardware_info`
prints 3: after the shorter line `stepping` is read, the buffer still holds
`Common KVM processor` from the line before it. -/
theorem processing_units_stale_line :
    processing_units (List.replicate BUF_SZ NUL)
      ("processor\t: 0\nvendor_id\t: GenuineIntel\ncpu family\t: 15\nmodel\t\t: 6\n" ++
        "model name\t: Common KVM processor\nstepping\t: 1\n").toList = some 3 ∧
    processor_lines
      ("processor\t: 0\nvendor_id\t: GenuineIntel\ncpu family\t: 15\nmodel\t\t: 6\n" ++
        "model name\t: Common KVM processor\nstepping\t: 1\n").toList = 2 := by
  decide!

set_option maxRecDepth 1000000 in
/-- C19.  `sys_info` reads the host name `ip-172-31-25-100` and then the kernel
release `5.4.0-1045-aws` into the same static buffer: the second string
returned is `"5.4.0-1045-aws 0"`, the last byte of the host name standing
between the blank and the NUL that `buf[read_sz+1] = 0` places one byte too
far.  And for a file of two lines the string returned is the second line, not
the first. -/
theorem read_file_stale_byte :
    sys_info_names (List.replicate BUF_SZ NUL) (some "ip-172-31-25-100\n".toList)
        (some "5.4.0-1045-aws\n".toList)
      = some ("ip-172-31-25-100 ".toList, "5.4.0-1045-aws 0".toList) ∧
    (read_file (List.replicate BUF_SZ NUL) (some "first\nsecond\n".toList)).map cstr
      = some "second ".toList := by
  decide!

/-! ## The sample taken from `stat` -/

theorem atoi_digits (ds : List Char) (hd : is_digits ds) (hv : decimal_value ds ≤ 2147483647) :
    atoi ds = (decimal_value ds : Int) := by
  obtain ⟨hne, hall⟩ := hd
  have hz : NUL ∉ ds := fun h => (digit_chars_parse _ (hall _ h)).2.2.2.2.1 rfl
  obtain ⟨c, cs, rfl⟩ := List.exists_cons_of_ne_nil hne
  obtain ⟨-, c2, c3, c4, -⟩ := digit_chars_parse c (hall c (List.mem_cons_self _ _))
  unfold atoi
  rw [cstr_of_not_mem hz]
  have hdw : (c :: cs).dropWhile isspace = c :: cs := by
    simp [List.dropWhile_cons, c2]
  rw [hdw]
  have key : wrap32 (min 9223372036854775807
      (digits_val 10 (take_digits dec_digit (c :: cs)).1 : Int)) = (decimal_value (c :: cs) : Int) := by
    unfold decimal_value at hv ⊢
    have h1 : ((digits_val 10 (take_digits dec_digit (c :: cs)).1 : Nat) : Int) ≤ 2147483647 := by
      exact_mod_cast hv
    rw [min_eq_right (by omega), wrap32_of_range (by omega) (by omega)]
  split
  · rename_i r heq
    exact absurd (List.cons.inj heq).1 c3
  · rename_i r heq
    exact absurd (List.cons.inj heq).1 c4
  · exact key

theorem splitOnP_append_cons_of (P : Char → Bool) (x : List Char) {d : Char} (hd : P d = true)
    (y : List Char) : (x ++ d :: y).splitOnP P = x.splitOnP P ++ y.splitOnP P := by
  induction x with
  | nil => simp [List.splitOnP_cons, hd]
  | cons c cs ih =>
    rw [List.cons_append, List.splitOnP_cons, List.splitOnP_cons, ih]
    by_cases hc : P c = true
    · simp [hc]
    · simp only [hc, if_false, Bool.false_eq_true]
      obtain ⟨h, t, ht⟩ := List.exists_cons_of_ne_nil (List.splitOnP_ne_nil P cs)
      rw [ht]
      simp [List.modifyHead]

theorem splitTokens_append_delim (D x : List Char) {d : Char} (hd : d ∈ D) (y : List Char) :
    splitTokens D (x ++ d :: y) = splitTokens D x ++ splitTokens D y := by
  unfold splitTokens
  rw [splitOnP_append_cons_of _ x (by simpa using hd), List.filter_append]

theorem stat_tokens_done : ∀ (l : List (List Char)) (tok : Nat) (s : CpuSample),
    10 ≤ tok → stat_tokens l tok s = s := by
  intro l
  induction l with
  | nil => intro tok s _; rfl
  | cons t ts ih =>
    intro tok s h
    rw [stat_tokens, if_neg (by omega)]
    exact ih _ _ (by omega)

theorem list_ten {α : Type} (l : List α) (h : 10 ≤ l.length) :
    ∃ a0 a1 a2 a3 a4 a5 a6 a7 a8 a9 more,
      l = a0 :: a1 :: a2 :: a3 :: a4 :: a5 :: a6 :: a7 :: a8 :: a9 :: more := by
  rcases l with _ | ⟨a0, _ | ⟨a1, _ | ⟨a2, _ | ⟨a3, _ | ⟨a4, _ | ⟨a5, _ | ⟨a6, _ | ⟨a7, _ |
    ⟨a8, _ | ⟨a9, more⟩⟩⟩⟩⟩⟩⟩⟩⟩⟩ <;> simp at h
  exact ⟨a0, a1, a2, a3, a4, a5, a6, a7, a8, a9, more, rfl⟩


theorem stat_tokens_ten (t0 t1 t2 t3 t4 t5 t6 t7 t8 t9 : List Char) (more : List (List Char)) :
    stat_tokens (t0 :: t1 :: t2 :: t3 :: t4 :: t5 :: t6 :: t7 :: t8 :: t9 :: more) 0 ⟨0, 0⟩
      = ⟨iadd (iadd (iadd (iadd (iadd (iadd (iadd (iadd (iadd 0 (atoi t1)) (atoi t2)) (atoi t3))
          (atoi t4)) (atoi t5)) (atoi t6)) (atoi t7)) (atoi t8)) (atoi t9), atoi t4⟩ := by
  simp [stat_tokens, stat_tokens_done]

theorem sized_line {b body : List Char} (hb : b.length = BUF_SZ)
    (hlast : b[BUF_SZ - 1]? = some NUL) (hlen : body.length + 1 < BUF_SZ) :
    (body ++ '\n' :: b.drop (body.length + 1)).length = BUF_SZ ∧
    (body ++ '\n' :: b.drop (body.length + 1))[BUF_SZ - 1]? = some NUL := by
  constructor
  · simp only [List.length_append, List.length_cons, List.length_drop]; omega
  · rw [line_buf_get_gt body b (by omega)]; exact hlast

theorem line_buf_cstr {b body : List Char} (hz : NUL ∉ body) :
    cstr (body ++ '\n' :: b.drop (body.length + 1))
      = body ++ '\n' :: cstr (b.drop (body.length + 1)) := by
  rw [cstr_append hz]
  congr 1

theorem stat_scan_first_line (b body rest : List Char) (fuel : Nat)
    (hb : b.length = BUF_SZ) (hlast : b[BUF_SZ - 1]? = some NUL)
    (hn : '\n' ∉ body) (hz : NUL ∉ body) (hlen : body.length + 1 < BUF_SZ)
    (hcpu : cpu_label <:+: body) :
    ∃ junk b1, stat_scan (fuel + 1) b (body ++ '\n' :: rest)
      = some (stat_tokens (splitTokens mem_delims body ++ junk) 0 ⟨0, 0⟩, b1) := by
  have hrl := read_line_spec BUF_SZ body rest b hn hz (by omega) (by omega)
  obtain ⟨hs1, hs2⟩ := sized_line hb hlast hlen
  have hmem : NUL ∈ body ++ '\n' :: b.drop (body.length + 1) := List.getElem?_mem hs2
  obtain ⟨b1, htok, -⟩ := tokenize_spec hmem mem_delims_nul
  have hstr : strstr (body ++ '\n' :: b.drop (body.length + 1)) cpu_label = true := by
    unfold strstr
    rw [decide_eq_true_iff, line_buf_cstr hz, cstr_of_not_mem (by decide)]
    exact List.IsInfix.trans hcpu (List.infix_append' [] body _)
  refine ⟨splitTokens mem_delims (cstr (b.drop (body.length + 1))), b1, ?_⟩
  rw [stat_scan, hrl]
  simp only
  rw [if_neg (by omega), if_pos hstr, htok, line_buf_cstr hz,
    splitTokens_append_delim _ _ (by decide)]
  rfl


theorem iadd_nine (a1 a2 a3 a4 a5 a6 a7 a8 a9 : Nat)
    (h : a1 + (a2 + (a3 + (a4 + (a5 + (a6 + (a7 + (a8 + (a9 + 0)))))))) ≤ 2147483647) :
    iadd (iadd (iadd (iadd (iadd (iadd (iadd (iadd (iadd 0 (a1 : Int)) a2) a3) a4) a5) a6) a7)
      a8) a9 = ((a1 + (a2 + (a3 + (a4 + (a5 + (a6 + (a7 + (a8 + (a9 + 0)))))))) : Nat) : Int) := by
  have step : ∀ (x : Int) (n : Nat), 0 ≤ x → x + n ≤ 2147483647 → iadd x n = x + n := by
    intro x n h0 h1
    exact wrap32_of_range (by omega) (by omega)
  rw [step 0 a1 (by omega) (by omega), step _ a2 (by omega) (by omega),
    step _ a3 (by omega) (by omega), step _ a4 (by omega) (by omega),
    step _ a5 (by omega) (by omega), step _ a6 (by omega) (by omega),
    step _ a7 (by omega) (by omega), step _ a8 (by omega) (by omega),
    step _ a9 (by omega) (by omega)]
  push_cast
  omega

set_option maxRecDepth 1000000 in
/-- C17, counterexample.  Every counter of the line
`cpu  2000000000 0 0 2000000000 0 0 0 0 0 0` fits an `int`, but their sum
4000000000 does not: the `int` accumulator `total[i]` ends at -294967296. -/
theorem stat_total_overflows :
    cpu_sample (List.replicate BUF_SZ NUL)
      "cpu  2000000000 0 0 2000000000 0 0 0 0 0 0\ncpu0 1 2 3 4 5 6 7 8 9 10\n".toList
      = some ⟨-294967296, 2000000000⟩ ∧
    (counters "cpu  2000000000 0 0 2000000000 0 0 0 0 0 0".toList).sum = 4000000000 := by
  decide!

/-- The token loop over a line with at least 10 tokens, whatever tokens follow
those of the line. -/
theorem stat_tokens_sum (body : List Char) (junk : List (List Char))
    (h10 : 10 ≤ (splitTokens mem_delims body).length)
    (hd : ∀ t ∈ ((splitTokens mem_delims body).drop 1).take 9, is_digits t)
    (hsum : (counters body).sum ≤ 2147483647) :
    stat_tokens (splitTokens mem_delims body ++ junk) 0 ⟨0, 0⟩
      = ⟨((counters body).sum : Nat),
          (decimal_value ((splitTokens mem_delims body).getD 4 []) : Nat)⟩ := by
  obtain ⟨t0, t1, t2, t3, t4, t5, t6, t7, t8, t9, more, hl⟩ := list_ten _ h10
  unfold counters at hsum ⊢
  rw [hl] at hd hsum ⊢
  simp only [List.drop_succ_cons, List.drop_zero, List.take_succ_cons, List.take_zero,
    List.mem_cons, List.map_cons, List.map_nil, List.sum_cons, List.sum_nil,
    List.not_mem_nil, or_false, forall_eq_or_imp, forall_eq] at hd hsum
  obtain ⟨d1, d2, d3, d4, d5, d6, d7, d8, d9⟩ := hd
  simp only [List.cons_append, stat_tokens_ten, List.drop_succ_cons,
    List.drop_zero, List.take_succ_cons, List.take_zero, List.map_cons, List.map_nil,
    List.sum_cons, List.sum_nil, List.getD_cons_succ, List.getD_cons_zero]
  rw [atoi_digits t1 d1 (by omega), atoi_digits t2 d2 (by omega), atoi_digits t3 d3 (by omega),
    atoi_digits t4 d4 (by omega), atoi_digits t5 d5 (by omega), atoi_digits t6 d6 (by omega),
    atoi_digits t7 d7 (by omega), atoi_digits t8 d8 (by omega), atoi_digits t9 d9 (by omega)]
  rw [iadd_nine _ _ _ _ _ _ _ _ _ hsum]

/-- C17, amended.  Let the first line of `stat` contain `"cpu"` and have at
least 10 tokens when split at blanks (and `,`, `?`, `!`), those with index 1 to
9 being decimal numbers whose sum fits an `int`.  Then, whatever the static
buffer held and whatever follows the line, the sample has `total` = the sum of
the tokens 1 to 9 and `idle` = token 4. -/
theorem stat_sample_sum (b body rest : List Char)
    (hb : b.length = BUF_SZ) (hlast : b[BUF_SZ - 1]? = some NUL)
    (hn : '\n' ∉ body) (hz : NUL ∉ body) (hlen : body.length + 1 < BUF_SZ)
    (hcpu : cpu_label <:+: body)
    (h10 : 10 ≤ (splitTokens mem_delims body).length)
    (hd : ∀ t ∈ ((splitTokens mem_delims body).drop 1).take 9, is_digits t)
    (hsum : (counters body).sum ≤ 2147483647) :
    cpu_sample b (body ++ '\n' :: rest)
      = some ⟨((counters body).sum : Nat),
          (decimal_value ((splitTokens mem_delims body).getD 4 []) : Nat)⟩ := by
  obtain ⟨junk, b1, hscan⟩ :=
    stat_scan_first_line b body rest (body ++ '\n' :: rest).length hb hlast hn hz hlen hcpu
  unfold cpu_sample
  rw [hscan, stat_tokens_sum body junk h10 hd hsum]
  rfl

set_option maxRecDepth 1000000 in
theorem stat_sample_sum_witness :
    (List.replicate BUF_SZ NUL).length = BUF_SZ ∧
    (List.replicate BUF_SZ NUL)[BUF_SZ - 1]? = some NUL ∧
    '\n' ∉ "cpu  2255 34 2290 22625563 6290 127 456 0 0 0".toList ∧
    NUL ∉ "cpu  2255 34 2290 22625563 6290 127 456 0 0 0".toList ∧
    "cpu  2255 34 2290 22625563 6290 127 456 0 0 0".toList.length + 1 < BUF_SZ ∧
    cpu_label <:+: "cpu  2255 34 2290 22625563 6290 127 456 0 0 0".toList ∧
    10 ≤ (splitTokens mem_delims "cpu  2255 34 2290 22625563 6290 127 456 0 0 0".toList).length ∧
    (∀ t ∈ ((splitTokens mem_delims
        "cpu  2255 34 2290 22625563 6290 127 456 0 0 0".toList).drop 1).take 9, is_digits t) ∧
    (counters "cpu  2255 34 2290 22625563 6290 127 456 0 0 0".toList).sum ≤ 2147483647 ∧
    cpu_sample (List.replicate BUF_SZ NUL)
        ("cpu  2255 34 2290 22625563 6290 127 456 0 0 0".toList ++ '\n' ::
          "cpu0 1132 34 1441 11311718 3675 127 438 0 0 0\nintr 114930548\n".toList)
      = some ⟨((counters "cpu  2255 34 2290 22625563 6290 127 456 0 0 0".toList).sum : Nat),
          (decimal_value ((splitTokens mem_delims
            "cpu  2255 34 2290 22625563 6290 127 456 0 0 0".toList).getD 4 []) : Nat)⟩ :=
  ⟨by decide, by decide!, by decide, by decide, by decide, by decide, by decide, by decide,
    by decide, stat_sample_sum _ _ _ (by decide) (by decide!) (by decide) (by decide)
      (by decide) (by decide) (by decide) (by decide) (by decide)⟩

/-! ## The two gauges -/

theorem gauge_loop_fill : ∀ (n k : Nat), k < 2147483648 →
    gauge_loop n (k : Int) = List.replicate (min n k) '#' ++ List.replicate (n - k) '-' := by
  intro n
  induction n with
  | zero => intro k _; simp [gauge_loop]
  | succ n ih =>
    intro k hk
    cases k with
    | zero =>
      have h := ih 0 (by omega)
      simp only [Nat.cast_zero, Nat.min_zero, List.replicate_zero, List.nil_append,
        Nat.sub_zero] at h
      rw [gauge_loop]
      simp only [Nat.cast_zero, ne_eq, not_true_eq_false, if_false, Nat.min_zero,
        List.replicate_zero, List.nil_append, Nat.sub_zero]
      rw [h, List.replicate_succ]
    | succ k =>
      have h := ih k (by omega)
      have e : isub ((k + 1 : Nat) : Int) 1 = (k : Int) := by
        unfold isub
        rw [wrap32_of_range (by omega) (by omega)]
        push_cast
        omega
      rw [gauge_loop, if_pos (by push_cast; omega), e, h, Nat.succ_min_succ,
        List.replicate_succ, Nat.succ_sub_succ]
      rfl

theorem gauge_fill (k : Nat) (hk : k ≤ 20) :
    gauge (k : Int) = List.replicate k '#' ++ List.replicate (20 - k) '-' := by
  unfold gauge
  rw [gauge_loop_fill 20 k (by omega), Nat.min_eq_right hk]

set_option maxRecDepth 100000 in
theorem mem_count_table : ∀ n : Fin 101,
    to_int (fdiv binary64 (FVal.fin false (((n.val : Nat) : ℤ) : ℚ)) (of_int binary64 5))
      = some (((n.val : Nat) : ℤ) / 5) := by
  decide!

theorem floor_add_half (m : ℚ) :
    ⌊m + 1 / 2⌋ = if m - ⌊m⌋ < 1 / 2 then ⌊m⌋ else ⌊m⌋ + 1 := by
  have hf1 : ((⌊m⌋ : ℤ) : ℚ) ≤ m := Int.floor_le m
  have hf2 : m < ((⌊m⌋ : ℤ) : ℚ) + 1 := Int.lt_floor_add_one m
  split
  · rw [Int.floor_eq_iff]
    constructor <;> linarith
  · rw [Int.floor_eq_iff]
    push_cast
    constructor <;> linarith

/-- Line 419 for a percentage between 0 and 100: `countm` is the integer
quotient by 5 of the percentage rounded to the nearest integer. -/
theorem mem_count_rounds {m : ℚ} (h0 : 0 ≤ m) (h1 : m ≤ 100) :
    mem_count (FVal.fin false m) = some (⌊m + 1 / 2⌋ / 5) ∧
    0 ≤ ⌊m + 1 / 2⌋ / 5 ∧ ⌊m + 1 / 2⌋ / 5 ≤ 20 := by
  have hr0 : 0 ≤ ⌊m + 1 / 2⌋ := Int.floor_nonneg.mpr (by linarith)
  have hr1 : ⌊m + 1 / 2⌋ ≤ 100 := by
    have : ⌊m + 1 / 2⌋ < 101 := by
      rw [Int.floor_lt]
      push_cast
      linarith
    omega
  have hfr : fround_int (FVal.fin false m) = FVal.fin false ((⌊m + 1 / 2⌋ : ℤ) : ℚ) := by
    simp only [fround_int]
    rw [floor_add_half]
    split <;> simp
  have ht := mem_count_table ⟨⌊m + 1 / 2⌋.toNat, by omega⟩
  simp only [Int.toNat_of_nonneg hr0] at ht
  unfold mem_count
  rw [hfr, ht]
  exact ⟨rfl, by omega, by omega⟩

/-- Line 345 for a percentage between 0 and 100: `count` is the integer
quotient by 5 of the percentage truncated to an integer. -/
theorem cpu_count_truncates {m : ℚ} (h0 : 0 ≤ m) (h1 : m ≤ 100) :
    cpu_count (FVal.fin false m) = some (⌊m⌋ / 5) ∧ 0 ≤ ⌊m⌋ / 5 ∧ ⌊m⌋ / 5 ≤ 20 := by
  have hr0 : 0 ≤ ⌊m⌋ := Int.floor_nonneg.mpr h0
  have hr1 : ⌊m⌋ ≤ 100 := by
    have : ⌊m⌋ < 101 := by
      rw [Int.floor_lt]
      push_cast
      linarith
    omega
  unfold cpu_count
  simp only [to_int, Bool.false_eq_true, if_false]
  rw [if_neg (by omega)]
  simp only [Option.map_some']
  rw [idiv_of_nonneg hr0 (by omega) (by norm_num)]
  exact ⟨rfl, by omega, by omega⟩

/-- The memory gauge (lines 419-431) is the gauge of the specification for
every percentage between 0 and 100. -/
theorem mem_gauge_as_specified {m : ℚ} (h0 : 0 ≤ m) (h1 : m ≤ 100) :
    (mem_count (FVal.fin false m)).map gauge = some (gauge_spec m) := by
  obtain ⟨hc, hc0, hc1⟩ := mem_count_rounds h0 h1
  rw [hc, Option.map_some']
  obtain ⟨k, hk⟩ := Int.eq_ofNat_of_zero_le hc0
  unfold gauge_spec
  rw [hk] at hc1 ⊢
  rw [gauge_fill k (by omega), Int.toNat_ofNat]

/-- The CPU gauge (lines 345-357) for a percentage between 0 and 100: the
number of `#` is the quotient by 5 of the percentage truncated, not rounded. -/
theorem cpu_gauge_truncated {m : ℚ} (h0 : 0 ≤ m) (h1 : m ≤ 100) :
    (cpu_count (FVal.fin false m)).map gauge
      = some (List.replicate (⌊m⌋ / 5).toNat '#' ++
          List.replicate (20 - (⌊m⌋ / 5).toNat) '-') := by
  obtain ⟨hc, hc0, hc1⟩ := cpu_count_truncates h0 h1
  rw [hc, Option.map_some']
  obtain ⟨k, hk⟩ := Int.eq_ofNat_of_zero_le hc0
  rw [hk] at hc1 ⊢
  rw [gauge_fill k (by omega), Int.toNat_ofNat]

/-- C11.  For the samples (total 1000, idle 900) and (total 1200, idle 921) the
utilization is 89.5: the CPU line shows 17 filled segments, whereas
`round(89.5) / 5 = 18`, which is what the gauge of the specification and the
memory gauge (line 419) show for the same value. -/
theorem cpu_gauge_not_rounded :
    cpu_line ⟨1000, 900⟩ ⟨1200, 921⟩ = some "#################---] 89.5%\n" ∧
    (cpu_c_usage ⟨1000, 900⟩ ⟨1200, 921⟩).toRat = some (179 / 2) ∧
    gauge_spec (179 / 2) = "##################--".toList ∧
    (mem_count (cpu_c_usage ⟨1000, 900⟩ ⟨1200, 921⟩)).map gauge
      = some "##################--".toList := by
  decide!

/-! ## The view selection -/

theorem live_override_all (o : view_opts) (hl : (live_override o).live_view = true) :
    live_override o = ⟨true, true, true, true⟩ := by
  unfold live_override at hl ⊢
  by_cases h : o.live_view = true
  · rw [if_pos h]; rfl
  · rw [if_neg h] at hl
    exact absurd hl h

/-- Whatever the command line, a view selection with the live view on has every
other view on as well. -/
theorem live_selection_is_all (argv : List (List Char)) (o : view_opts)
    (h : view_selection argv = MainResult.views o) (hl : o.live_view = true) :
    o = ⟨true, true, true, true⟩ := by
  unfold view_selection at h
  split at h
  · exact absurd h (by simp)
  · simp only [MainResult.views.injEq] at h
    subst h
    exact live_override_all _ hl

/-- C12.  For the command line `inspector -l` the view selection `main` ends
with has every view on, not the live view alone; and the live flag is lost
when `-a` follows it or when `-p` is spelled in one argument with its
directory. -/
theorem live_view_not_exclusive :
    view_selection (words ["inspector", "-l"]) = MainResult.views ⟨true, true, true, true⟩ ∧
    view_selection (words ["inspector", "-l", "-a"]) = MainResult.views ⟨true, false, true, true⟩ ∧
    view_selection (words ["inspector", "-l", "-p/proc"]) = MainResult.views ⟨true, false, true, true⟩ := by
  decide

/-- C13.  With `-p` and its directory in one argument, or `-p` in one argument
with a view flag, the single view asked for with `-r` is replaced by the
default of all three views; with `-p` and its directory as two arguments of
their own the selection is the hardware view alone. -/
theorem view_flags_lost_with_joined_proc :
    view_selection (words ["inspector", "-r", "-p/proc"]) = MainResult.views ⟨true, false, true, true⟩ ∧
    view_selection (words ["inspector", "-rp", "/proc"]) = MainResult.views ⟨true, false, true, true⟩ ∧
    view_selection (words ["inspector", "-r", "-p", "/proc"])
      = MainResult.views ⟨true, false, false, false⟩ := by
  decide

theorem getopt_scan_cons (arg : List Char) (rest : List (List Char)) :
    getopt_scan (arg :: rest)
      = if arg = ['-', '-'] then []
        else if arg.head? = some '-' ∧ arg.tail ≠ [] then
          (getopt_cluster arg.tail rest.head?).1 ++
            (if (getopt_cluster arg.tail rest.head?).2 then getopt_scan rest.tail
              else getopt_scan rest)
        else getopt_scan rest := by
  cases rest <;> simp [getopt_scan]

theorem getopt_scan_groups : ∀ gs : List ArgGroup,
    (∀ g ∈ gs, g.is_view = true ∨ g.is_proc = true) →
    getopt_scan (group_args gs) = gs.map ArgGroup.event := by
  intro gs
  induction gs with
  | nil => intro _; rfl
  | cons g gs ih =>
    intro h
    have ih1 := ih (fun x hx => h x (List.mem_cons_of_mem _ hx))
    have hg := h g (List.mem_cons_self _ _)
    cases g with
    | flag c =>
      have hc : c = 'a' ∨ c = 'r' ∨ c = 's' ∨ c = 't' := by
        simpa [ArgGroup.is_view, ArgGroup.is_proc, or_assoc] using hg
      have step : getopt_scan (['-', c] :: group_args gs)
          = OptEvent.opt c none :: getopt_scan (group_args gs) := by
        rcases hc with rfl | rfl | rfl | rfl <;>
          simp [getopt_scan_cons, getopt_cluster, opt_lookup, optstring]
      simp only [group_args, ArgGroup.args, List.cons_append, List.nil_append, List.map_cons,
        ArgGroup.event]
      rw [step, ih1]
    | proc dir =>
      simp only [group_args, ArgGroup.args, List.cons_append, List.nil_append, List.map_cons,
        ArgGroup.event]
      rw [← ih1]
      simp [getopt_scan_cons, getopt_cluster, opt_lookup, optstring]

theorem group_args_length : ∀ gs : List ArgGroup,
    (∀ g ∈ gs, g.is_view = true ∨ g.is_proc = true) →
    (group_args gs).length
      = (gs.filter ArgGroup.is_view).length + 2 * (gs.filter ArgGroup.is_proc).length := by
  intro gs
  induction gs with
  | nil => intro _; rfl
  | cons g gs ih =>
    intro h
    have ih1 := ih (fun x hx => h x (List.mem_cons_of_mem _ hx))
    have hg := h g (List.mem_cons_self _ _)
    cases g with
    | flag c =>
      have hv : (ArgGroup.flag c).is_view = true := by
        simpa [ArgGroup.is_proc] using hg
      simp only [group_args, ArgGroup.args, List.cons_append, List.nil_append, List.length_cons,
        List.filter_cons, hv, if_true, ArgGroup.is_proc, Bool.false_eq_true, if_false]
      omega
    | proc dir =>
      simp only [group_args, ArgGroup.args, List.cons_append, List.nil_append, List.length_cons,
        List.filter_cons, ArgGroup.is_view, ArgGroup.is_proc, Bool.false_eq_true, if_false,
        if_true]
      omega

theorem main_switch_groups : ∀ (gs : List ArgGroup) (st : MainState),
    (∀ g ∈ gs, g.is_view = true ∨ g.is_proc = true) → st.options.live_view = false →
    ∃ loc, main_switch (gs.map ArgGroup.event) st
      = Except.ok ⟨⟨st.options.hardware || (named_views gs).hardware, false,
          st.options.system || (named_views gs).system,
          st.options.task_list || (named_views gs).task_list⟩,
        st.alt_proc || decide (0 < (gs.filter ArgGroup.is_proc).length), loc⟩ := by
  intro gs
  induction gs with
  | nil =>
    intro st _ hl
    refine ⟨st.procfs_loc, ?_⟩
    obtain ⟨⟨h, l, s, t⟩, a, loc⟩ := st
    simp only at hl
    subst hl
    simp [main_switch, named_views]
  | cons g gs ih =>
    intro st h hl
    have hrest : ∀ x ∈ gs, x.is_view = true ∨ x.is_proc = true :=
      fun x hx => h x (List.mem_cons_of_mem _ hx)
    have hg := h g (List.mem_cons_self _ _)
    obtain ⟨⟨hw, l, sy, tl⟩, ap, loc0⟩ := st
    simp only at hl
    subst hl
    cases g with
    | flag c =>
      have hc : c = 'a' ∨ c = 'r' ∨ c = 's' ∨ c = 't' := by
        simpa [ArgGroup.is_view, ArgGroup.is_proc, or_assoc] using hg
      rcases hc with rfl | rfl | rfl | rfl
      · obtain ⟨loc, hloc⟩ := ih ⟨defaults, ap, loc0⟩ hrest rfl
        refine ⟨loc, ?_⟩
        rw [List.map_cons, ArgGroup.event, main_switch, if_pos rfl, hloc]
        simp [named_views, defaults, ArgGroup.is_proc]
      · obtain ⟨loc, hloc⟩ := ih ⟨⟨true, false, sy, tl⟩, ap, loc0⟩ hrest rfl
        refine ⟨loc, ?_⟩
        rw [List.map_cons, ArgGroup.event, main_switch, if_neg (by decide), if_neg (by decide),
          if_neg (by decide), if_neg (by decide), if_pos rfl, hloc]
        simp [named_views, ArgGroup.is_proc]
      · obtain ⟨loc, hloc⟩ := ih ⟨⟨hw, false, true, tl⟩, ap, loc0⟩ hrest rfl
        refine ⟨loc, ?_⟩
        rw [List.map_cons, ArgGroup.event, main_switch, if_neg (by decide), if_neg (by decide),
          if_neg (by decide), if_neg (by decide), if_neg (by decide), if_pos rfl, hloc]
        simp [named_views, ArgGroup.is_proc]
      · obtain ⟨loc, hloc⟩ := ih ⟨⟨hw, false, sy, true⟩, ap, loc0⟩ hrest rfl
        refine ⟨loc, ?_⟩
        rw [List.map_cons, ArgGroup.event, main_switch, if_neg (by decide), if_neg (by decide),
          if_neg (by decide), if_neg (by decide), if_neg (by decide), if_neg (by decide),
          if_pos rfl, hloc]
        simp [named_views, ArgGroup.is_proc]
    | proc dir =>
      obtain ⟨loc, hloc⟩ := ih ⟨⟨hw, false, sy, tl⟩, true, dir⟩ hrest rfl
      refine ⟨loc, ?_⟩
      rw [List.map_cons, ArgGroup.event, main_switch, if_neg (by decide), if_neg (by decide),
        if_neg (by decide), if_pos rfl]
      simp only [Option.getD_some]
      rw [hloc]
      simp [named_views, ArgGroup.is_proc]

/-- The usual spelling of a command line: when every view flag is an argument of its
own and `-p`, given at most once, is followed by its directory as the next
argument (and there is no `-l` and nothing else), the view selection is the
default if no view flag is given and otherwise exactly the views the flags
name. -/
theorem view_selection_usual_spelling (prog : List Char) (gs : List ArgGroup)
    (hgs : ∀ g ∈ gs, g.is_view = true ∨ g.is_proc = true)
    (hp : (gs.filter ArgGroup.is_proc).length ≤ 1) :
    view_selection (prog :: group_args gs)
      = MainResult.views
          (if (gs.filter ArgGroup.is_view).length = 0 then defaults else named_views gs) := by
  obtain ⟨loc, hloc⟩ := main_switch_groups gs
    ⟨⟨false, false, false, false⟩, false, "/proc".toList⟩ hgs rfl
  have hlen := group_args_length gs hgs
  unfold view_selection
  rw [List.tail_cons, getopt_scan_groups gs hgs, hloc]
  simp only [Bool.false_or, List.length_cons, main_adjust]
  have hnv : (named_views gs).live_view = false := rfl
  have hd : defaults.live_view = false := rfl
  have hno : ∀ o : view_opts, o.live_view = false → live_override o = o := by
    intro o ho
    unfold live_override
    rw [if_neg (by simp [ho])]
  congr 1
  by_cases hv : (gs.filter ArgGroup.is_view).length = 0
  · rw [if_pos hv]
    by_cases hpr : 0 < (gs.filter ArgGroup.is_proc).length
    · simp only [hpr, decide_True, if_true]
      rw [if_pos (by push_cast; omega)]
      exact hno _ hd
    · simp only [hpr, decide_False, Bool.false_eq_true, if_false]
      rw [if_pos (by push_cast; omega)]
      exact hno _ hd
  · rw [if_neg hv]
    by_cases hpr : 0 < (gs.filter ArgGroup.is_proc).length
    · simp only [hpr, decide_True, if_true]
      rw [if_neg (by push_cast; omega)]
      exact hno _ rfl
    · simp only [hpr, decide_False, Bool.false_eq_true, if_false]
      rw [if_neg (by push_cast; omega)]
      exact hno _ rfl

theorem view_selection_usual_spelling_example :
    view_selection ("inspector".toList :: group_args
        [ArgGroup.flag 's', ArgGroup.proc "/tmp/proc".toList, ArgGroup.flag 't'])
      = MainResult.views ⟨false, false, true, true⟩ :=
  view_selection_usual_spelling _ _ (by decide) (by decide)

/-! ## The scan of a `status` file -/

theorem sized_refines {b b1 : List Char} (hs : sized b) (hr : refines b1 b) : sized b1 := by
  refine ⟨hr.1.trans hs.1, ?_⟩
  rcases hr.2 (BUF_SZ - 1) with e | e
  · rw [e]; exact hs.2
  · exact e

theorem sized_mem {b : List Char} (hs : sized b) : NUL ∈ b :=
  List.getElem?_mem hs.2

theorem sized_zero : sized (List.replicate BUF_SZ NUL) := by
  refine ⟨List.length_replicate _ _, ?_⟩
  rw [List.getElem?_replicate, if_pos (by decide)]

theorem label_free_zero {l : List Char} (c : Char) (t : List Char) (hl : l = c :: t)
    (hc : c ≠ NUL) : ∀ k, ¬ l <+: (List.replicate BUF_SZ NUL).drop k := by
  intro k h
  rw [hl, List.drop_replicate] at h
  obtain ⟨r, hr⟩ := h
  have hm : c ∈ List.replicate (BUF_SZ - k) NUL := by
    rw [← hr]; simp
  exact hc (List.eq_of_mem_replicate hm)

theorem label_free_refines {l b b1 : List Char} (h : label_free l b) (hl : NUL ∉ l)
    (hr : refines b1 b) : label_free l b1 :=
  fun k hk hp => h k hk (prefix_of_refines hr hl k hp)

theorem quiet_strstr {l b : List Char} (hl : NUL ∉ l) (h : ∀ k, ¬ l <+: b.drop k) :
    strstr b l = false := by
  rw [strstr_at_start hl (fun k _ => h k), decide_eq_false_iff_not]
  exact h 0

theorem quiet_refines {l b b1 : List Char} (hl : NUL ∉ l) (h : ∀ k, ¬ l <+: b.drop k)
    (hr : refines b1 b) : ∀ k, ¬ l <+: b1.drop k :=
  fun k hp => h k (prefix_of_refines hr hl k hp)

theorem quiet_line {l b body : List Char} (hl : '\n' ∉ l) (h : label_free l b)
    (hb : ¬ l <:+: body) : ∀ k, ¬ l <+: (body ++ '\n' :: b.drop (body.length + 1)).drop k := by
  intro k
  rcases Nat.eq_zero_or_pos k with rfl | hk
  · rw [List.drop_zero, line_buf_prefix_iff _ _ _ hl]
    exact fun hp => hb (List.IsPrefix.isInfix hp)
  · exact line_buf_no_occ body b l hl (fun j _ => no_occ_of_not_infix hb j) h k hk

theorem name_step_spec (st st1 : TaskScan) (hm : NUL ∈ st.buf) (h : name_step st = some st1) :
    refines st1.buf st.buf ∧
      st1.loc.threads = st.loc.threads ∧ st1.loc.pid = st.loc.pid ∧
      st1.loc.state = st.loc.state := by
  unfold name_step at h
  split at h
  · obtain ⟨b1, htok, hr⟩ := tokenize_spec hm (by decide : NUL ∉ name_delims)
    rw [htok, Option.some_bind] at h
    simp only at h
    split at h
    · obtain ⟨nm, -, rfl⟩ := Option.map_eq_some'.mp h
      exact ⟨hr, rfl, rfl, rfl⟩
    · simp only [Option.some.injEq] at h
      subst h
      exact ⟨hr, rfl, rfl, rfl⟩
  · simp only [Option.some.injEq] at h
    subst h
    exact ⟨refines_refl _, rfl, rfl, rfl⟩

theorem state_step_spec (st st1 : TaskScan) (hm : NUL ∈ st.buf) (h : state_step st = some st1) :
    refines st1.buf st.buf ∧
      st1.loc.threads = st.loc.threads ∧ st1.loc.pid = st.loc.pid ∧
      st1.loc.name = st.loc.name := by
  unfold state_step at h
  split at h
  · obtain ⟨b1, htok, hr⟩ := tokenize_spec hm (by decide : NUL ∉ state_delims)
    rw [htok, Option.some_bind] at h
    simp only at h
    split at h
    · obtain ⟨nm, -, rfl⟩ := Option.map_eq_some'.mp h
      exact ⟨hr, rfl, rfl, rfl⟩
    · simp only [Option.some.injEq] at h
      subst h
      exact ⟨hr, rfl, rfl, rfl⟩
  · simp only [Option.some.injEq] at h
    subst h
    exact ⟨refines_refl _, rfl, rfl, rfl⟩

theorem pid_step_spec (st st1 : TaskScan) (hm : NUL ∈ st.buf) (h : pid_step st = some st1) :
    refines st1.buf st.buf ∧
      st1.loc.threads = st.loc.threads ∧ st1.loc.name = st.loc.name ∧
      st1.loc.state = st.loc.state := by
  unfold pid_step at h
  split at h
  · obtain ⟨b1, htok, hr⟩ := tokenize_spec hm (by decide : NUL ∉ pid_delims)
    rw [htok, Option.some_bind] at h
    simp only at h
    split at h
    · obtain ⟨nm, -, rfl⟩ := Option.map_eq_some'.mp h
      exact ⟨hr, rfl, rfl, rfl⟩
    · simp only [Option.some.injEq] at h
      subst h
      exact ⟨hr, rfl, rfl, rfl⟩
  · simp only [Option.some.injEq] at h
    subst h
    exact ⟨refines_refl _, rfl, rfl, rfl⟩

theorem threads_step_spec (st st1 : TaskScan) (hm : NUL ∈ st.buf)
    (h : threads_step st = some st1) :
    refines st1.buf st.buf ∧
      st1.loc.pid = st.loc.pid ∧ st1.loc.name = st.loc.name ∧
      st1.loc.state = st.loc.state := by
  unfold threads_step at h
  split at h
  · obtain ⟨b1, htok, hr⟩ := tokenize_spec hm (by decide : NUL ∉ pid_delims)
    rw [htok, Option.some_bind] at h
    simp only at h
    split at h
    · obtain ⟨nm, -, rfl⟩ := Option.map_eq_some'.mp h
      exact ⟨hr, rfl, rfl, rfl⟩
    · simp only [Option.some.injEq] at h
      subst h
      exact ⟨hr, rfl, rfl, rfl⟩
  · simp only [Option.some.injEq] at h
    subst h
    exact ⟨refines_refl _, rfl, rfl, rfl⟩

/-- One line of a `status` file that fits the buffer, in a scan that is
defined: the four steps run in turn on the line buffer, each leaving the buffer
with some more bytes set to NUL, and the scan goes on with the rest of the
file. -/
theorem status_scan_line (fuel : Nat) (st sfin : TaskScan) (body rest : List Char)
    (hs : sized st.buf) (hb : fits_line body)
    (h : status_scan (fuel + 1) (body ++ '\n' :: rest) st = some sfin) :
    ∃ s1 s3 s4 : TaskScan,
      name_step ⟨body ++ '\n' :: st.buf.drop (body.length + 1), st.loc⟩ = some s1 ∧
      threads_step s3 = some s4 ∧
      refines s1.buf (body ++ '\n' :: st.buf.drop (body.length + 1)) ∧
      refines s3.buf s1.buf ∧ refines s4.buf s3.buf ∧
      s4.loc.name = s1.loc.name ∧ s3.loc.threads = st.loc.threads ∧
      sized s4.buf ∧
      status_scan fuel rest s4 = some sfin := by
  obtain ⟨hn, hz, hlen⟩ := hb
  have hrl := read_line_spec BUF_SZ body rest st.buf hn hz (by omega) (by rw [hs.1]; omega)
  have hs0 : sized (body ++ '\n' :: st.buf.drop (body.length + 1)) := by
    have := sized_line hs.1 hs.2 hlen
    exact ⟨this.1, this.2⟩
  rw [status_scan, hrl] at h
  simp only at h
  rw [if_neg (by omega)] at h
  obtain ⟨s4, h4', hfin⟩ := Option.bind_eq_some.mp h
  obtain ⟨s3, h3', h4⟩ := Option.bind_eq_some.mp h4'
  obtain ⟨s2, h2', h3⟩ := Option.bind_eq_some.mp h3'
  obtain ⟨s1, h1, h2⟩ := Option.bind_eq_some.mp h2'
  obtain ⟨r1, t1, -⟩ := name_step_spec _ s1 (sized_mem hs0) h1
  have hs1 := sized_refines hs0 r1
  obtain ⟨r2, t2, -, n2⟩ := state_step_spec s1 s2 (sized_mem hs1) h2
  have hs2 := sized_refines hs1 r2
  obtain ⟨r3, t3, n3, -⟩ := pid_step_spec s2 s3 (sized_mem hs2) h3
  have hs3 := sized_refines hs2 r3
  obtain ⟨r4, -, n4, -⟩ := threads_step_spec s3 s4 (sized_mem hs3) h4
  have hs4 := sized_refines hs3 r4
  refine ⟨s1, s3, s4, h1, h4, r1, refines_trans r3 r2, r4, ?_, ?_, hs4, hfin⟩
  · rw [n4, n3, n2]
  · rw [t3, t2, t1]

/-- A line that does not mention `Name:` leaves `name` as it is. -/
theorem status_scan_nameless (fuel : Nat) (st sfin : TaskScan) (body rest : List Char)
    (hs : sized st.buf) (hf : label_free name_label st.buf) (hb : fits_line body)
    (hno : ¬ name_label <:+: body)
    (h : status_scan (fuel + 1) (body ++ '\n' :: rest) st = some sfin) :
    ∃ s4 : TaskScan, sized s4.buf ∧ label_free name_label s4.buf ∧ s4.loc.name = st.loc.name ∧
      status_scan fuel rest s4 = some sfin := by
  obtain ⟨s1, s3, s4, h1, -, r1, r3, r4, hn, -, hs4, hscan⟩ :=
    status_scan_line fuel st sfin body rest hs hb h
  have hq := quiet_line (by decide : '\n' ∉ name_label) hf hno
  have e1 : s1 = ⟨body ++ '\n' :: st.buf.drop (body.length + 1), st.loc⟩ := by
    unfold name_step at h1
    rw [quiet_strstr (by decide) hq] at h1
    simpa using h1.symm
  have hq4 := quiet_refines (by decide : NUL ∉ name_label) hq (refines_trans r4 (refines_trans r3 r1))
  refine ⟨s4, hs4, fun k _ => hq4 k, ?_, hscan⟩
  rw [hn, e1]

/-- A line that does not mention `Threads:` leaves `threads` as it is. -/
theorem status_scan_threadless (fuel : Nat) (st sfin : TaskScan) (body rest : List Char)
    (hs : sized st.buf) (hf : label_free threads_label st.buf) (hb : fits_line body)
    (hno : ¬ threads_label <:+: body)
    (h : status_scan (fuel + 1) (body ++ '\n' :: rest) st = some sfin) :
    ∃ s4 : TaskScan, sized s4.buf ∧ label_free threads_label s4.buf ∧
      s4.loc.threads = st.loc.threads ∧
      status_scan fuel rest s4 = some sfin := by
  obtain ⟨s1, s3, s4, -, h4, r1, r3, r4, -, ht, hs4, hscan⟩ :=
    status_scan_line fuel st sfin body rest hs hb h
  have hq := quiet_line (by decide : '\n' ∉ threads_label) hf hno
  have hq3 := quiet_refines (by decide : NUL ∉ threads_label) hq (refines_trans r3 r1)
  have e4 : s4 = s3 := by
    unfold threads_step at h4
    rw [quiet_strstr (by decide) hq3] at h4
    simpa using h4.symm
  have hq4 := quiet_refines (by decide : NUL ∉ threads_label) hq3 r4
  refine ⟨s4, hs4, fun k _ => hq4 k, ?_, hscan⟩
  rw [e4, ht]

theorem status_scan_eof (fuel : Nat) (st : TaskScan) :
    status_scan (fuel + 1) [] st = some st := by
  rw [status_scan, read_line_eof]
  simp

theorem status_scan_nameless_lines : ∀ (ls : List (List Char)) (fuel : Nat)
    (st sfin : TaskScan) (rest : List Char), sized st.buf → label_free name_label st.buf →
    (∀ l ∈ ls, fits_line l ∧ ¬ name_label <:+: l) →
    status_scan (fuel + ls.length) (lines_text ls ++ rest) st = some sfin →
    ∃ s : TaskScan, sized s.buf ∧ label_free name_label s.buf ∧ s.loc.name = st.loc.name ∧
      status_scan fuel rest s = some sfin := by
  intro ls
  induction ls with
  | nil =>
    intro fuel st sfin rest hs hf _ h
    exact ⟨st, hs, hf, rfl, by simpa [lines_text] using h⟩
  | cons l ls ih =>
    intro fuel st sfin rest hs hf h hscan
    obtain ⟨hl1, hl2⟩ := h l (List.mem_cons_self _ _)
    rw [lines_text_cons, List.length_cons, ← Nat.add_assoc] at hscan
    obtain ⟨s4, hs4, hf4, hn4, hscan4⟩ :=
      status_scan_nameless (fuel + ls.length) st sfin l (lines_text ls ++ rest) hs hf hl1 hl2 hscan
    obtain ⟨s, hs', hf', hn', hscan'⟩ :=
      ih fuel s4 sfin rest hs4 hf4 (fun x hx => h x (List.mem_cons_of_mem _ hx)) hscan4
    exact ⟨s, hs', hf', by rw [hn', hn4], hscan'⟩

theorem status_scan_threadless_lines : ∀ (ls : List (List Char)) (fuel : Nat)
    (st sfin : TaskScan) (rest : List Char), sized st.buf → label_free threads_label st.buf →
    (∀ l ∈ ls, fits_line l ∧ ¬ threads_label <:+: l) →
    status_scan (fuel + ls.length) (lines_text ls ++ rest) st = some sfin →
    ∃ s : TaskScan, sized s.buf ∧ label_free threads_label s.buf ∧
      s.loc.threads = st.loc.threads ∧
      status_scan fuel rest s = some sfin := by
  intro ls
  induction ls with
  | nil =>
    intro fuel st sfin rest hs hf _ h
    exact ⟨st, hs, hf, rfl, by simpa [lines_text] using h⟩
  | cons l ls ih =>
    intro fuel st sfin rest hs hf h hscan
    obtain ⟨hl1, hl2⟩ := h l (List.mem_cons_self _ _)
    rw [lines_text_cons, List.length_cons, ← Nat.add_assoc] at hscan
    obtain ⟨s4, hs4, hf4, hn4, hscan4⟩ :=
      status_scan_threadless (fuel + ls.length) st sfin l (lines_text ls ++ rest) hs hf hl1 hl2
        hscan
    obtain ⟨s, hs', hf', hn', hscan'⟩ :=
      ih fuel s4 sfin rest hs4 hf4 (fun x hx => h x (List.mem_cons_of_mem _ hx)) hscan4
    exact ⟨s, hs', hf', by rw [hn', hn4], hscan'⟩

/-- The copy of a token into `name[26]` is defined exactly when the token has at
most 25 bytes, and `name` then holds the token. -/
theorem strcpy_name (dst t : List Char) (hd : dst.length = 26) (ht : NUL ∉ t) :
    (25 < t.length → strcpy dst t = none) ∧
    ∀ nm, strcpy dst t = some nm →
      t.length ≤ 25 ∧ cstr (if 25 < t.length then nm.set 25 NUL else nm) = t := by
  unfold strcpy
  rw [cstr_of_not_mem ht, hd]
  constructor
  · intro h
    rw [if_neg (by omega)]
  · intro nm h
    split at h
    · rename_i hlt
      simp only [Option.some.injEq] at h
      subst h
      rw [if_neg (by omega)]
      exact ⟨by omega, cstr_append_nul ht _⟩
    · exact absurd h (by simp)

/-- The `Name:` line, in a scan that is defined: the token with index 1 of the
line has at most 25 bytes and `name` receives it. -/
theorem status_scan_name_line (fuel : Nat) (st sfin : TaskScan) (body rest tok : List Char)
    (hs : sized st.buf) (hf : label_free name_label st.buf) (hb : fits_line body)
    (hp : name_label <+: body) (hq : label_free name_label body)
    (ht : (splitTokens name_delims body)[1]? = some tok) (hd : st.loc.name.length = 26)
    (h : status_scan (fuel + 1) (body ++ '\n' :: rest) st = some sfin) :
    ∃ s4 : TaskScan, sized s4.buf ∧ label_free name_label s4.buf ∧
      tok.length ≤ 25 ∧ cstr s4.loc.name = tok ∧
      status_scan fuel rest s4 = some sfin := by
  obtain ⟨s1, s3, s4, h1, -, r1, r3, r4, hn, -, hs4, hscan⟩ :=
    status_scan_line fuel st sfin body rest hs hb h
  obtain ⟨hnl, hz, hlen⟩ := hb
  have hs0 : sized (body ++ '\n' :: st.buf.drop (body.length + 1)) := by
    have := sized_line hs.1 hs.2 hlen
    exact ⟨this.1, this.2⟩
  have hf0 : label_free name_label (body ++ '\n' :: st.buf.drop (body.length + 1)) :=
    line_buf_no_occ body st.buf name_label (by decide) hq hf
  have hstr : strstr (body ++ '\n' :: st.buf.drop (body.length + 1)) name_label = true := by
    unfold strstr
    rw [decide_eq_true_iff, line_buf_cstr hz, cstr_of_not_mem (by decide)]
    exact List.IsInfix.trans (List.IsPrefix.isInfix hp) (List.infix_append' [] body _)
  obtain ⟨b1, htok, -⟩ := tokenize_spec (sized_mem hs0) (by decide : NUL ∉ name_delims)
  have hget : (splitTokens name_delims
      (cstr (body ++ '\n' :: st.buf.drop (body.length + 1)))).get? 1 = some tok := by
    rw [line_buf_cstr hz, splitTokens_append_delim _ _ (by decide), List.get?_eq_getElem?]
    have hlt : 1 < (splitTokens name_delims body).length := by
      by_contra hcon
      rw [List.getElem?_eq_none (by omega)] at ht
      exact absurd ht (by simp)
    rw [List.getElem?_append_left hlt]
    exact ht
  have htz : NUL ∉ tok := by
    have hm : tok ∈ splitTokens name_delims body := List.getElem?_mem ht
    exact fun h => hz ((splitTokens_mem hm).2.2 _ h)
  unfold name_step at h1
  simp only [hstr, if_true, htok, Option.some_bind, hget] at h1
  obtain ⟨nm, hnm, rfl⟩ := Option.map_eq_some'.mp h1
  obtain ⟨hle, hc⟩ := (strcpy_name _ _ hd htz).2 nm hnm
  refine ⟨s4, hs4, ?_, hle, ?_, hscan⟩
  · exact label_free_refines hf0 (by decide) (refines_trans r4 (refines_trans r3 r1))
  · rw [hn]
    exact hc

/-- The scan of a `status` file with one line that starts with `Name:`, when it
is defined: the token with index 1 of that line has at most 25 bytes, the array
`name` ends with it, and the line buffer is left with no `Name:` beyond its
start, as it was before. -/
theorem status_scan_named_file (b : List Char) (g : TaskLocals)
    (pre post : List (List Char)) (body tok : List Char) (st : TaskScan)
    (hs : sized b) (hf : label_free name_label b) (hg : g.name.length = 26)
    (hpre : ∀ l ∈ pre, fits_line l ∧ ¬ name_label <:+: l)
    (hpost : ∀ l ∈ post, fits_line l ∧ ¬ name_label <:+: l)
    (hb : fits_line body) (hp : name_label <+: body) (hq : label_free name_label body)
    (ht : (splitTokens name_delims body)[1]? = some tok)
    (h : status_scan ((lines_text pre ++ (body ++ '\n' :: lines_text post)).length + 1)
        (lines_text pre ++ (body ++ '\n' :: lines_text post)) ⟨b, g⟩ = some st) :
    tok.length ≤ 25 ∧ cstr st.loc.name = tok ∧ sized st.buf ∧ label_free name_label st.buf := by
  have hlen : pre.length + post.length + 2
      ≤ (lines_text pre ++ (body ++ '\n' :: lines_text post)).length + 1 := by
    have h1 := lines_text_length pre
    have h2 := lines_text_length post
    simp only [List.length_append, List.length_cons]
    omega
  obtain ⟨f, hfuel⟩ : ∃ f, (lines_text pre ++ (body ++ '\n' :: lines_text post)).length + 1
      = (f + 1 + post.length + 1) + pre.length := ⟨_, by
    rw [show ∀ x : Nat, x + 1 + post.length + 1 + pre.length = x + (pre.length + post.length + 2)
      from fun x => by omega]
    exact (Nat.sub_add_cancel hlen).symm⟩
  rw [hfuel] at h
  obtain ⟨s1, hs1, hf1, hn1, hscan1⟩ := status_scan_nameless_lines pre (f + 1 + post.length + 1)
    ⟨b, g⟩ st (body ++ '\n' :: lines_text post) hs hf hpre h
  obtain ⟨s2, hs2, hf2, hle, hn2, hscan2⟩ := status_scan_name_line (f + 1 + post.length) s1 st body
    (lines_text post) tok hs1 hf1 hb hp hq ht (by rw [hn1]; exact hg) hscan1
  have hscan2' : status_scan (f + 1 + post.length) (lines_text post ++ []) s2 = some st := by
    rw [List.append_nil]; exact hscan2
  obtain ⟨s3, hs3, hf3, hn3, hscan3⟩ :=
    status_scan_nameless_lines post (f + 1) s2 st [] hs2 hf2 hpost hscan2'
  rw [status_scan_eof] at hscan3
  simp only [Option.some.injEq] at hscan3
  subst hscan3
  exact ⟨hle, by rw [hn3, hn2], hs3, hf3⟩

/-- The name in the row of a task.  Let a `status` file have one line that
starts with `Name:` (and mentions it nowhere else), all its lines fitting the
line buffer, and let `tok` be the token with index 1 of that line split at
`"\t ():,?!\n"`.  Whatever the local arrays held before and for every line
buffer that earlier files of this form can have left (no `Name:` beyond its
start): whenever the row is defined, `tok` has at most 25 characters and the row
shows `tok` as the name. -/
theorem task_name_row (b : List Char) (g : TaskLocals) (d_name u : List Char)
    (pre post : List (List Char)) (body tok : List Char) (rows : List (List Char))
    (hs : sized b) (hf : label_free name_label b) (hg : g.name.length = 26)
    (hpre : ∀ l ∈ pre, fits_line l ∧ ¬ name_label <:+: l)
    (hpost : ∀ l ∈ post, fits_line l ∧ ¬ name_label <:+: l)
    (hb : fits_line body) (hp : name_label <+: body) (hq : label_free name_label body)
    (ht : (splitTokens name_delims body)[1]? = some tok)
    (h : task_rows
        [(⟨d_name, some (lines_text pre ++ (body ++ '\n' :: lines_text post)), some u⟩, g)] b
      = some rows) :
    tok.length ≤ 25 ∧ ∃ loc : TaskLocals, rows = [task_row loc u] ∧ cstr loc.name = tok := by
  simp only [task_rows] at h
  rcases hsc : status_scan ((lines_text pre ++ (body ++ '\n' :: lines_text post)).length + 1)
      (lines_text pre ++ (body ++ '\n' :: lines_text post)) ⟨b, g⟩ with _ | st
  · rw [hsc] at h
    exact absurd h (by simp)
  · rw [hsc] at h
    simp only [Option.map_some', Option.some.injEq] at h
    obtain ⟨hle, hname, -, -⟩ :=
      status_scan_named_file b g pre post body tok st hs hf hg hpre hpost hb hp hq ht hsc
    exact ⟨hle, st.loc, h.symm, hname⟩

theorem label_free_of_quiet {l b : List Char} (h : ∀ k, ¬ l <+: b.drop k) : label_free l b :=
  fun k _ => h k

set_option maxRecDepth 1000000 in
/-- The `status` file of `systemd`, scanned with a zeroed line buffer and
zeroed arrays: the row is defined and shows the name `systemd`. -/
theorem task_name_row_example :
    task_rows [(⟨"1".toList,
        some "Name:\tsystemd\nState:\tS (sleeping)\nPid:\t1\nThreads:\t1\n".toList,
        some "root".toList⟩, zero_locals)] (List.replicate BUF_SZ NUL)
      = some ["    1 |     sleeping |                   systemd |            root |     1 \n".toList] ∧
    "systemd".toList.length ≤ 25 ∧
    ∃ loc : TaskLocals,
      ["    1 |     sleeping |                   systemd |            root |     1 \n".toList]
        = [task_row loc "root".toList] ∧ cstr loc.name = "systemd".toList :=
  ⟨by decide!,
    task_name_row (List.replicate BUF_SZ NUL) zero_locals "1".toList "root".toList []
      ["State:\tS (sleeping)".toList, "Pid:\t1".toList, "Threads:\t1".toList]
      "Name:\tsystemd".toList "systemd".toList _ sized_zero
      (label_free_of_quiet (label_free_zero 'N' _ rfl (by decide))) (by decide) (by decide)
      (by decide) (by decide) (by decide) (no_occ_of_head 'N' _ rfl (by decide)) (by decide)
      (by decide!)⟩

set_option maxRecDepth 1000000 in
/-- C20.  Two ways in which the name of a row is not token 1 of the `Name:`
line.  (a) Task 2 has a `Name:` line without a name (the line has the one token
`Name`).  The line buffer is not terminated behind the line, so the token loop
runs on into what the last line of the `status` file of task 1 left there, and
the row of task 2 shows `ntary_ctxt_switches` as its name.  (b) A `Name:` line
with a token of 26 characters: `strcpy` (line 720) stores the 26 characters and
a NUL in `name[26]`, one byte more than the array has, before line 723 cuts the
name, so the copy is undefined and with it the row; the same file with a token
of 25 characters gives a row that shows the whole token. -/
theorem task_name_stale_or_overrun :
    (splitTokens name_delims "Name:\t".toList = ["Name".toList] ∧
      task_rows
        [(⟨"1".toList,
            some ("Name:\tsystemd\nState:\tS (sleeping)\nPid:\t1\nThreads:\t1\n" ++
              "voluntary_ctxt_switches:\t120\nnonvoluntary_ctxt_switches:\t5\n").toList,
            some "root".toList⟩, zero_locals),
          (⟨"2".toList,
            some ("Name:\t\nState:\tS (sleeping)\nPid:\t2\nThreads:\t1\n" ++
              "voluntary_ctxt_switches:\t7\nnonvoluntary_ctxt_switches:\t0\n").toList,
            some "root".toList⟩, zero_locals)]
        (List.replicate BUF_SZ NUL)
        = some ["    1 |     sleeping |                   systemd |            root |     1 \n".toList,
            "    2 |     sleeping |       ntary_ctxt_switches |            root |     1 \n".toList]) ∧
    (strcpy zero_locals.name "abcdefghijklmnopqrstuvwxyz".toList = none ∧
      task_rows [(⟨"1".toList,
          some "Name:\tabcdefghijklmnopqrstuvwxyz\nState:\tS (sleeping)\nPid:\t1\nThreads:\t1\n".toList,
          some "root".toList⟩, zero_locals)] (List.replicate BUF_SZ NUL) = none ∧
      task_rows [(⟨"1".toList,
          some "Name:\tabcdefghijklmnopqrstuvwxy\nState:\tS (sleeping)\nPid:\t1\nThreads:\t1\n".toList,
          some "root".toList⟩, zero_locals)] (List.replicate BUF_SZ NUL)
        = some ["    1 |     sleeping | abcdefghijklmnopqrstuvwxy |            root |     1 \n".toList]) := by
  decide!

/-- A `status` file none of whose lines mentions `Threads:` leaves the array
`threads` as it was when the iteration started: the row, whenever it is
defined, shows whatever bytes the array happened to hold. -/
theorem threads_left_unset (b : List Char) (g : TaskLocals) (d_name u : List Char)
    (ls : List (List Char)) (rows : List (List Char))
    (hs : sized b) (hf : label_free threads_label b)
    (hls : ∀ l ∈ ls, fits_line l ∧ ¬ threads_label <:+: l)
    (h : task_rows [(⟨d_name, some (lines_text ls), some u⟩, g)] b = some rows) :
    ∃ loc : TaskLocals, rows = [task_row loc u] ∧ loc.threads = g.threads := by
  have hlen := lines_text_length ls
  obtain ⟨f, hfuel⟩ : ∃ f, (lines_text ls).length + 1 = (f + 1) + ls.length := ⟨_, by
    rw [show ∀ x : Nat, x + 1 + ls.length = x + (ls.length + 1) from fun x => by omega]
    exact (Nat.sub_add_cancel (by omega : ls.length + 1 ≤ (lines_text ls).length + 1)).symm⟩
  simp only [task_rows] at h
  rcases hsc : status_scan ((lines_text ls).length + 1) (lines_text ls) ⟨b, g⟩ with _ | st
  · rw [hsc] at h
    exact absurd h (by simp)
  · rw [hsc] at h
    simp only [Option.map_some', Option.some.injEq] at h
    rw [hfuel] at hsc
    have hsc' : status_scan (f + 1 + ls.length) (lines_text ls ++ []) ⟨b, g⟩ = some st := by
      rw [List.append_nil]; exact hsc
    obtain ⟨s, -, -, ht1, hscan1⟩ :=
      status_scan_threadless_lines ls (f + 1) ⟨b, g⟩ st [] hs hf hls hsc'
    rw [status_scan_eof] at hscan1
    simp only [Option.some.injEq] at hscan1
    subst hscan1
    exact ⟨s.loc, h.symm, ht1⟩

set_option maxRecDepth 1000000 in
/-- C15.  Two tasks are listed; the `status` file of the second has no
`Threads:` line.  When the local arrays of the second iteration hold what the
first iteration left in them (first part: that content), the row of the second
task shows the thread count 4 of the first task. -/
theorem threads_field_carried_over :
    (status_scan 5 "Name:\tsystemd\nState:\tS (sleeping)\nPid:\t1\nThreads:\t4\n".toList
        ⟨List.replicate BUF_SZ NUL, zero_locals⟩).map (fun st => st.loc)
      = some ⟨'4' :: List.replicate 9 NUL, '1' :: List.replicate 19 NUL,
          "systemd".toList ++ List.replicate 19 NUL,
          "sleeping".toList ++ List.replicate 92 NUL⟩ ∧
    task_rows
      [(⟨"1".toList, some "Name:\tsystemd\nState:\tS (sleeping)\nPid:\t1\nThreads:\t4\n".toList,
          some "root".toList⟩, zero_locals),
        (⟨"7".toList, some "Name:\tkworker/0:1H\nState:\tI (idle)\nPid:\t7\n".toList,
          some "root".toList⟩,
          ⟨'4' :: List.replicate 9 NUL, '1' :: List.replicate 19 NUL,
            "systemd".toList ++ List.replicate 19 NUL,
            "sleeping".toList ++ List.replicate 92 NUL⟩)]
      (List.replicate BUF_SZ NUL)
      = some ["    1 |     sleeping |                   systemd |            root |     4 \n".toList,
          "    7 |         idle |                 kworker/0 |            root |     4 \n".toList] := by
  decide!

set_option maxRecDepth 1000000 in
/-- C14.  The directory holds the entries `1`, `self` and `uptime`; `self`
is not a number (`atoi` gives 0) but `self/status` can be opened.  The first
loop counts one task, the second prints two rows: one of them for `self`. -/
theorem row_for_non_numeric_entry :
    atoi "self".toList = 0 ∧
    tasks_count
      [⟨"1".toList, some "Name:\tsystemd\nState:\tS (sleeping)\nPid:\t1\nThreads:\t1\n".toList,
          some "root".toList⟩,
        ⟨"self".toList, some "Name:\tinspector\nState:\tR (running)\nPid:\t812\nThreads:\t1\n".toList,
          some "ada".toList⟩,
        ⟨"uptime".toList, none, none⟩] 0 = 1 ∧
    task_rows
      [(⟨"1".toList, some "Name:\tsystemd\nState:\tS (sleeping)\nPid:\t1\nThreads:\t1\n".toList,
          some "root".toList⟩, zero_locals),
        (⟨"self".toList, some "Name:\tinspector\nState:\tR (running)\nPid:\t812\nThreads:\t1\n".toList,
          some "ada".toList⟩, zero_locals),
        (⟨"uptime".toList, none, none⟩, zero_locals)]
      (List.replicate BUF_SZ NUL)
      = some ["    1 |     sleeping |                   systemd |            root |     1 \n".toList,
          "  812 |      running |                 inspector |             ada |     1 \n".toList] := by
  decide!

/-! ## Every scan comes to an end -/

theorem takeWhile_length_le (p : Char → Bool) (l : List Char) :
    (l.takeWhile p).length ≤ l.length :=
  (List.takeWhile_sublist p).length_le

theorem strspn_le (s D : List Char) : strspn s D ≤ s.length := by
  unfold strspn cstr
  exact le_trans (takeWhile_length_le _ _) (takeWhile_length_le _ _)

theorem strcspn_le (s D : List Char) : strcspn s D ≤ s.length := by
  unfold strcspn cstr
  exact le_trans (takeWhile_length_le _ _) (takeWhile_length_le _ _)

/-- A call of `next_token` that returns a token moves the cursor forward, or
sets it to NULL, and keeps the size of the buffer. -/
theorem next_token_progress (b D : List Char) (p cur : Nat) (st1 : TokState)
    (h : next_token ⟨b, some p⟩ D = (some cur, st1)) :
    p < b.length ∧ st1.buf.length = b.length ∧ ∀ p1, st1.ptr = some p1 → p + 2 ≤ p1 := by
  have h1 := strspn_le (b.drop p) D
  have h2 := strcspn_le (b.drop (p + strspn (b.drop p) D)) D
  simp only [List.length_drop] at h1 h2
  simp only [next_token] at h
  split at h
  · exact absurd h (by simp)
  · rename_i hne
    split at h
    · simp only [Prod.mk.injEq, Option.some.injEq] at h
      obtain ⟨-, rfl⟩ := h
      exact ⟨by omega, rfl, fun p1 hp => absurd hp (by simp)⟩
    · simp only [Prod.mk.injEq, Option.some.injEq] at h
      obtain ⟨-, rfl⟩ := h
      refine ⟨by omega, by simp, fun p1 hp => ?_⟩
      simp only [Option.some.injEq] at hp
      omega

theorem token_loop_total (D : List Char) : ∀ (fuel : Nat) (st : TokState),
    1 ≤ fuel → (∀ p, st.ptr = some p → st.buf.length + 1 ≤ p + fuel) →
    ∃ r, token_loop fuel st D = some r := by
  intro fuel
  induction fuel with
  | zero => intro st h; omega
  | succ fuel ih =>
    intro st _ hp
    obtain ⟨b, ptr⟩ := st
    cases ptr with
    | none => exact ⟨_, token_loop_null fuel b D⟩
    | some p =>
      rw [token_loop]
      rcases hnt : next_token ⟨b, some p⟩ D with ⟨_ | cur, st1⟩
      · exact ⟨_, rfl⟩
      · obtain ⟨hlt, hlen, hptr⟩ := next_token_progress b D p cur st1 hnt
        have hp0 := hp p rfl
        simp only at hp0
        have hf : 1 ≤ fuel := by omega
        obtain ⟨r, hr⟩ := ih st1 hf (fun p1 h1 => by
          have := hptr p1 h1
          rw [hlen]
          omega)
        simp only [hr]
        exact ⟨_, rfl⟩

theorem tokenize_total (b D : List Char) :
    ∃ r, tokenize b D = some r ∧ refines r.2 b := by
  obtain ⟨r, hr⟩ := token_loop_total D (b.length + 1) ⟨b, some 0⟩ (by omega)
    (fun p hp => by simp only [Option.some.injEq] at hp; subst hp; simp)
  have := token_loop_refines D _ _ _ hr
  exact ⟨(r.1, r.2.buf), by unfold tokenize; rw [hr]; rfl, this⟩

/-- A step of the scan is undefined only when a token does not fit its array. -/
theorem name_step_undefined (st : TaskScan) (h : name_step st = none) :
    ∃ t, strcpy st.loc.name t = none := by
  unfold name_step at h
  split at h
  · obtain ⟨r, hr, -⟩ := tokenize_total st.buf name_delims
    rw [hr, Option.some_bind] at h
    split at h
    · rename_i t _
      exact ⟨t, Option.map_eq_none'.mp h⟩
    · exact absurd h (by simp)
  · exact absurd h (by simp)

theorem state_step_undefined (st : TaskScan) (h : state_step st = none) :
    ∃ t, strcpy st.loc.state t = none := by
  unfold state_step at h
  split at h
  · obtain ⟨r, hr, -⟩ := tokenize_total st.buf state_delims
    rw [hr, Option.some_bind] at h
    split at h
    · rename_i t _
      exact ⟨t, Option.map_eq_none'.mp h⟩
    · exact absurd h (by simp)
  · exact absurd h (by simp)

theorem pid_step_undefined (st : TaskScan) (h : pid_step st = none) :
    ∃ t, strcpy st.loc.pid t = none := by
  unfold pid_step at h
  split at h
  · obtain ⟨r, hr, -⟩ := tokenize_total st.buf pid_delims
    rw [hr, Option.some_bind] at h
    split at h
    · rename_i t _
      exact ⟨t, Option.map_eq_none'.mp h⟩
    · exact absurd h (by simp)
  · exact absurd h (by simp)

theorem threads_step_undefined (st : TaskScan) (h : threads_step st = none) :
    ∃ t, strcpy st.loc.threads t = none := by
  unfold threads_step at h
  split at h
  · obtain ⟨r, hr, -⟩ := tokenize_total st.buf pid_delims
    rw [hr, Option.some_bind] at h
    split at h
    · rename_i t _
      exact ⟨t, Option.map_eq_none'.mp h⟩
    · exact absurd h (by simp)
  · exact absurd h (by simp)

theorem read_line_loop_progress (size : Nat) : ∀ (file : List Char) (i : Nat) (str : List Char),
    (read_line_loop size i str file).2.2.length ≤ file.length ∧
    ((read_line_loop size i str file).1 ≠ i →
      (read_line_loop size i str file).2.2.length < file.length) := by
  intro file
  induction file with
  | nil => intro i str; simp [read_line_loop]
  | cons c cs ih =>
    intro i str
    rw [read_line_loop]
    by_cases hi : i < size
    · rw [if_pos hi]
      by_cases hc : c = '\n' ∨ c = NUL
      · rw [if_pos hc]; simp
      · rw [if_neg hc]
        have := (ih (i + 1) (str.set i c)).1
        simp only [List.length_cons]
        exact ⟨by omega, fun _ => by omega⟩
    · rw [if_neg hi]; simp

/-- The length of the file plus one is enough fuel for `status_scan`: more
fuel does not change the result, so `none` then stands for an undefined copy
and never for a scan cut short. -/
theorem status_scan_fuel : ∀ (fuel1 fuel2 : Nat) (file : List Char) (st : TaskScan),
    file.length < fuel1 → file.length < fuel2 →
    status_scan fuel1 file st = status_scan fuel2 file st := by
  intro fuel1
  induction fuel1 with
  | zero => intro fuel2 file st h; omega
  | succ fuel1 ih =>
    intro fuel2 file st h1 h2
    obtain ⟨fuel2, rfl⟩ : ∃ k, fuel2 = k + 1 := ⟨fuel2 - 1, by omega⟩
    rw [status_scan, status_scan]
    by_cases h0 : (read_line st.buf BUF_SZ file).1 = 0
    · rw [if_pos h0, if_pos h0]
    · rw [if_neg h0, if_neg h0]
      have hprog := (read_line_loop_progress BUF_SZ file 0 st.buf).2 h0
      have hfun : status_scan fuel1 (read_line st.buf BUF_SZ file).2.2
          = status_scan fuel2 (read_line st.buf BUF_SZ file).2.2 :=
        funext (fun s => ih fuel2 _ s (by unfold read_line; omega) (by unfold read_line; omega))
      rw [hfun]

/-- The second loop of `task_info` prints a row for exactly the entries whose
`status` file can be opened, whatever their names: whenever the rows are
defined, their number is the number of such entries. -/
theorem task_rows_openable : ∀ (es : List (DirEntry × TaskLocals)) (buf : List Char)
    (rows : List (List Char)), task_rows es buf = some rows →
    rows.length = (es.filter (fun e => e.1.status.isSome)).length := by
  intro es
  induction es with
  | nil =>
    intro buf rows h
    simp only [task_rows, Option.some.injEq] at h
    subst h
    rfl
  | cons e es ih =>
    intro buf rows h
    obtain ⟨⟨d, status, pw⟩, g⟩ := e
    cases status with
    | none =>
      simp only [task_rows] at h
      simpa using ih buf rows h
    | some file =>
      simp only [task_rows] at h
      rcases hsc : status_scan (file.length + 1) file ⟨buf, g⟩ with _ | st
      · rw [hsc] at h
        exact absurd h (by simp)
      · rw [hsc] at h
        cases pw with
        | none => exact absurd h (by simp)
        | some u =>
          simp only at h
          obtain ⟨rows1, hr, rfl⟩ := Option.map_eq_some'.mp h
          have := ih st.buf rows1 hr
          simpa using this

/-- The first loop of `task_info` counts the entries with a name that `atoi`
turns into a nonzero number and a `status` file that can be opened. -/
theorem tasks_count_eq : ∀ (es : List DirEntry) (n : Int), 0 ≤ n →
    n + es.length < 2147483648 →
    tasks_count es n
      = n + ((es.filter (fun e => decide (atoi e.d_name ≠ 0) && e.status.isSome)).length : Nat) := by
  intro es
  induction es with
  | nil => intro n _ _; simp [tasks_count]
  | cons e es ih =>
    intro n h0 h1
    simp only [List.length_cons, Nat.cast_add, Nat.cast_one] at h1
    rw [tasks_count]
    by_cases ha : atoi e.d_name ≠ 0
    · rw [if_pos ha]
      rcases hs : e.status with _ | f
      · have hfil : List.filter (fun e => decide (atoi e.d_name ≠ 0) && e.status.isSome) (e :: es)
            = List.filter (fun e => decide (atoi e.d_name ≠ 0) && e.status.isSome) es := by
          rw [List.filter_cons, if_neg (by simp [hs])]
        rw [hfil]
        exact ih n h0 (by omega)
      · have e1 : iadd n 1 = n + 1 := wrap32_of_range (by omega) (by omega)
        have hfil : List.filter (fun e => decide (atoi e.d_name ≠ 0) && e.status.isSome) (e :: es)
            = e :: List.filter (fun e => decide (atoi e.d_name ≠ 0) && e.status.isSome) es := by
          rw [List.filter_cons, if_pos (by simp [hs, ha])]
        rw [hfil]
        simp only [List.length_cons, Nat.cast_add, Nat.cast_one]
        rw [e1, ih (n + 1) (by omega) (by omega)]
        omega
    · rw [if_neg ha]
      have hfil : List.filter (fun e => decide (atoi e.d_name ≠ 0) && e.status.isSome) (e :: es)
          = List.filter (fun e => decide (atoi e.d_name ≠ 0) && e.status.isSome) es := by
        rw [List.filter_cons, if_neg (by simp [ha])]
      rw [hfil]
      exact ih n h0 (by omega)

/-- What `read_file` returns for a file of one line that fits the buffer: the
line, a blank in place of its newline, and then the byte that the buffer held
one place further, unless that byte is NUL. -/
theorem read_file_one_line (b body : List Char) (hb : b.length = BUF_SZ)
    (hn : '\n' ∉ body) (hz : NUL ∉ body) (hlen : body.length + 2 < BUF_SZ) :
    (read_file b (some (body ++ ['\n']))).map cstr
      = some (body ++ ' ' :: (if b.getD (body.length + 1) NUL = NUL then []
          else [b.getD (body.length + 1) NUL])) := by
  have hrl := read_line_spec BUF_SZ body [] b hn hz (by omega) (by omega)
  obtain ⟨x, y, t, hd⟩ : ∃ x y t, b.drop (body.length + 1) = x :: y :: t := by
    have hl : (b.drop (body.length + 1)).length = BUF_SZ - (body.length + 1) := by
      rw [List.length_drop, hb]
    rcases hdr : b.drop (body.length + 1) with _ | ⟨x, _ | ⟨y, t⟩⟩
    · rw [hdr] at hl; simp at hl; omega
    · rw [hdr] at hl; simp at hl; omega
    · exact ⟨x, y, t, rfl⟩
  have hx : b.getD (body.length + 1) NUL = x := by
    have : b[body.length + 1]? = some x := by
      have := congrArg (fun l => l[0]?) hd
      simpa [List.getElem?_drop] using this
    rw [List.getD_eq_getElem?_getD, this]
    rfl
  have hset : (body ++ '\n' :: x :: y :: t).set (body.length + 1 + 1) NUL
      = body ++ '\n' :: x :: NUL :: t := by
    rw [List.set_append_right _ _ (by omega)]
    have : body.length + 1 + 1 - body.length = 2 := by omega
    rw [this]
    rfl
  have hcs : strcspn (body ++ '\n' :: x :: NUL :: t) ['\n'] = body.length :=
    strcspn_eq (by decide) (fun c hc h => hn (by
      have : c = '\n' := by simpa using h
      exact this ▸ hc)) hz '\n' (Or.inr (by decide)) _
  have hterm : terminate_line (body ++ '\n' :: x :: y :: t) (body.length + 1)
      = body ++ ' ' :: x :: NUL :: t := by
    unfold terminate_line
    rw [hset, hcs, List.set_append_right _ _ (by omega), Nat.sub_self]
    rfl
  have hres : read_file b (some (body ++ ['\n'])) = some (body ++ ' ' :: x :: NUL :: t) := by
    unfold read_file
    simp only [List.length_append, List.length_singleton]
    rw [read_file_loop, hrl]
    simp only
    rw [if_neg (by omega), hd, hterm, read_file_loop, read_line_eof]
    simp
  rw [hres, hx, Option.map_some']
  congr 1
  rw [cstr_append hz]
  congr 1
  by_cases hxz : x = NUL
  · rw [if_pos hxz, hxz]
    rfl
  · rw [if_neg hxz]
    unfold cstr
    rw [List.takeWhile_cons_of_pos (by decide), List.takeWhile_cons_of_pos (by simpa using hxz),
      List.takeWhile_cons_of_neg (by decide)]

/-! ## Lines of `stat` before the aggregate line -/

/-- A line of `stat` that does not mention `cpu` is passed over. -/
theorem stat_scan_skip (fuel : Nat) (b body rest : List Char)
    (hs : sized b) (hf : label_free cpu_label b) (hb : fits_line body)
    (hno : ¬ cpu_label <:+: body) :
    ∃ b1, sized b1 ∧ label_free cpu_label b1 ∧
      stat_scan (fuel + 1) b (body ++ '\n' :: rest) = stat_scan fuel b1 rest := by
  obtain ⟨hn, hz, hlen⟩ := hb
  have hrl := read_line_spec BUF_SZ body rest b hn hz (by omega) (by rw [hs.1]; omega)
  have hs0 : sized (body ++ '\n' :: b.drop (body.length + 1)) := by
    have := sized_line hs.1 hs.2 hlen
    exact ⟨this.1, this.2⟩
  have hq := quiet_line (by decide : '\n' ∉ cpu_label) hf hno
  refine ⟨_, hs0, fun k _ => hq k, ?_⟩
  rw [stat_scan, hrl]
  simp only
  rw [if_neg (by omega), if_neg (by rw [quiet_strstr (by decide) hq]; simp)]

theorem stat_scan_skip_lines : ∀ (ls : List (List Char)) (fuel : Nat) (b rest : List Char),
    sized b → label_free cpu_label b → (∀ l ∈ ls, fits_line l ∧ ¬ cpu_label <:+: l) →
    ∃ b1, sized b1 ∧ label_free cpu_label b1 ∧
      stat_scan (fuel + ls.length) b (lines_text ls ++ rest) = stat_scan fuel b1 rest := by
  intro ls
  induction ls with
  | nil =>
    intro fuel b rest hs hf _
    exact ⟨b, hs, hf, by simp [lines_text]⟩
  | cons l ls ih =>
    intro fuel b rest hs hf h
    obtain ⟨hl1, hl2⟩ := h l (List.mem_cons_self _ _)
    obtain ⟨b1, hs1, hf1, hscan⟩ :=
      stat_scan_skip (fuel + ls.length) b l (lines_text ls ++ rest) hs hf hl1 hl2
    obtain ⟨b2, hs2, hf2, hscan2⟩ :=
      ih fuel b1 rest hs1 hf1 (fun x hx => h x (List.mem_cons_of_mem _ hx))
    refine ⟨b2, hs2, hf2, ?_⟩
    rw [lines_text_cons, List.length_cons, ← Nat.add_assoc, hscan, hscan2]

/-- The sample when other lines come before the aggregate line: the first line
that mentions `cpu` gives the sample, provided the static buffer holds no `cpu`
beyond its start. -/
theorem stat_sample_after_lines (b : List Char) (pre : List (List Char)) (body rest : List Char)
    (hs : sized b) (hf : label_free cpu_label b)
    (hpre : ∀ l ∈ pre, fits_line l ∧ ¬ cpu_label <:+: l)
    (hb : fits_line body) (hcpu : cpu_label <:+: body)
    (h10 : 10 ≤ (splitTokens mem_delims body).length)
    (hd : ∀ t ∈ ((splitTokens mem_delims body).drop 1).take 9, is_digits t)
    (hsum : (counters body).sum ≤ 2147483647) :
    cpu_sample b (lines_text pre ++ (body ++ '\n' :: rest))
      = some ⟨((counters body).sum : Nat),
          (decimal_value ((splitTokens mem_delims body).getD 4 []) : Nat)⟩ := by
  have hlen : pre.length + 1 ≤ (lines_text pre ++ (body ++ '\n' :: rest)).length + 1 := by
    have := lines_text_length pre
    simp only [List.length_append, List.length_cons]
    omega
  obtain ⟨f, hfuel⟩ : ∃ f, (lines_text pre ++ (body ++ '\n' :: rest)).length + 1
      = (f + 1) + pre.length := ⟨_, by
    rw [show ∀ x : Nat, x + 1 + pre.length = x + (pre.length + 1) from fun x => by omega]
    exact (Nat.sub_add_cancel hlen).symm⟩
  obtain ⟨b1, hs1, -, hscan⟩ :=
    stat_scan_skip_lines pre (f + 1) b (body ++ '\n' :: rest) hs hf hpre
  obtain ⟨junk, b2, hscan2⟩ :=
    stat_scan_first_line b1 body rest f hs1.1 hs1.2 hb.1 hb.2.1 hb.2.2 hcpu
  unfold cpu_sample
  rw [hfuel, hscan, hscan2, stat_tokens_sum body junk h10 hd hsum]
  rfl

/-! ## `live_info` and `hardware_info` run the same computations -/

theorem live_stat_tokens_eq : ∀ (ts : List (List Char)) (tok : Nat) (s : CpuSample),
    live_stat_tokens ts tok s = stat_tokens ts tok s := by
  intro ts
  induction ts with
  | nil => intro tok s; rfl
  | cons t ts ih =>
    intro tok s
    rw [live_stat_tokens, stat_tokens, ih, ih]

theorem live_stat_scan_eq : ∀ (fuel : Nat) (buf file : List Char),
    live_stat_scan fuel buf file = stat_scan fuel buf file := by
  intro fuel
  induction fuel with
  | zero => intro buf file; rfl
  | succ fuel ih =>
    intro buf file
    rw [live_stat_scan, stat_scan, ih]
    have : (fun r : List (List Char) × List Char => (live_stat_tokens r.1 0 ⟨0, 0⟩, r.2))
        = (fun r => (stat_tokens r.1 0 ⟨0, 0⟩, r.2)) := by
      funext r
      rw [live_stat_tokens_eq]
    rw [this]
    rfl

theorem live_samples_eq (buf_1 stat1 stat2 : List Char) :
    live_samples buf_1 stat1 stat2 = hardware_samples buf_1 stat1 stat2 := by
  unfold live_samples hardware_samples
  simp only [live_stat_scan_eq]

theorem live_c_usage_eq (s1 s2 : CpuSample) : live_c_usage s1 s2 = cpu_c_usage s1 s2 := rfl

theorem live_gauge_loop_eq : ∀ (n : Nat) (count : Int),
    live_gauge_loop n count = gauge_loop n count := by
  intro n
  induction n with
  | zero => intro count; rfl
  | succ n ih =>
    intro count
    rw [live_gauge_loop, gauge_loop, ih, ih]

theorem live_mem_figures_eq (tot active : FVal) :
    live_mem_figures tot active = mem_figures tot active := rfl

theorem live_report_eq (s1 s2 : CpuSample) (tot active : FVal) :
    live_report s1 s2 tot active = hardware_report s1 s2 tot active := by
  unfold live_report hardware_report cpu_count mem_count gauge
  simp only [live_c_usage_eq, live_mem_figures_eq, live_gauge_loop_eq]

theorem live_mem_total_step_eq (st : MemScan) : live_mem_total_step st = mem_total_step st := rfl

theorem live_mem_active_step_eq (st : MemScan) :
    live_mem_active_step st = mem_active_step st := rfl

theorem live_mem_scan_eq : ∀ (fuel : Nat) (file : List Char) (st : MemScan),
    live_mem_scan fuel file st = mem_scan fuel file st := by
  intro fuel
  induction fuel with
  | zero => intro file st; rfl
  | succ fuel ih =>
    intro file st
    rw [live_mem_scan, mem_scan, live_mem_total_step_eq]
    split
    · rfl
    · cases mem_total_step { st with buf := (read_line st.buf BUF_SZ file).2.1 } with
      | none => rfl
      | some st1 =>
        simp only [live_mem_active_step_eq]
        cases mem_active_step st1 with
        | none => rfl
        | some st2 => exact ih _ _

/-- One iteration of `live_info` that starts with the static buffers in the
same state as `hardware_info` gives the same usage report, for every content of
`stat` and `meminfo`. -/
theorem live_iteration_same_state (buf_1 buf_2 stat1 stat2 meminfo : List Char) :
    (live_iteration buf_1 buf_2 stat1 stat2 meminfo).map (fun r => r.1)
      = hardware_usage buf_1 buf_2 stat1 stat2 meminfo := by
  unfold live_iteration hardware_usage
  rw [live_samples_eq, live_mem_scan_eq]
  rcases hardware_samples buf_1 stat1 stat2 with _ | ⟨s1, s2, b1⟩
  · rfl
  · rcases mem_scan (meminfo.length + 1) meminfo ⟨buf_2, none, none⟩ with _ | ⟨b2, _ | tot, a⟩
    · rfl
    · rfl
    · rcases a with _ | active
      · rfl
      · simp only [live_report_eq]
        cases hardware_report s1 s2 tot active <;> rfl

theorem stat_scan_line_ok (b body rest : List Char) (fuel : Nat) (hs : sized b)
    (h : stat_line_ok body) :
    ∃ b1, sized b1 ∧
      stat_scan (fuel + 1) b (body ++ '\n' :: rest) = some (line_sample body, b1) := by
  obtain ⟨⟨hn, hz, hlen⟩, hcpu, h10, hd, hsum⟩ := h
  have hrl := read_line_spec BUF_SZ body rest b hn hz (by omega) (by rw [hs.1]; omega)
  have hs0 : sized (body ++ '\n' :: b.drop (body.length + 1)) := by
    have := sized_line hs.1 hs.2 hlen
    exact ⟨this.1, this.2⟩
  obtain ⟨b1, htok, hr⟩ := tokenize_spec (sized_mem hs0) mem_delims_nul
  have hstr : strstr (body ++ '\n' :: b.drop (body.length + 1)) cpu_label = true := by
    unfold strstr
    rw [decide_eq_true_iff, line_buf_cstr hz, cstr_of_not_mem (by decide)]
    exact List.IsInfix.trans hcpu (List.infix_append' [] body _)
  refine ⟨b1, sized_refines hs0 hr, ?_⟩
  rw [stat_scan, hrl]
  simp only
  rw [if_neg (by omega), if_pos hstr, htok, line_buf_cstr hz,
    splitTokens_append_delim _ _ (by decide), Option.map_some',
    stat_tokens_sum body _ h10 hd hsum]
  rfl

theorem hardware_samples_ok (b body1 rest1 body2 rest2 : List Char) (hs : sized b)
    (h1 : stat_line_ok body1) (h2 : stat_line_ok body2) :
    ∃ b1, sized b1 ∧
      hardware_samples b (body1 ++ '\n' :: rest1) (body2 ++ '\n' :: rest2)
        = some (line_sample body1, line_sample body2, b1) := by
  obtain ⟨c1, hc1, e1⟩ := stat_scan_line_ok b body1 rest1 (body1 ++ '\n' :: rest1).length hs h1
  obtain ⟨c2, hc2, e2⟩ := stat_scan_line_ok c1 body2 rest2 (body2 ++ '\n' :: rest2).length hc1 h2
  refine ⟨c2, hc2, ?_⟩
  unfold hardware_samples
  simp only [e1, e2]

theorem mem_scan_meminfo_ok (pre mid post : List (List Char)) (n1 n2 : Nat) (dT dA : List Char)
    (b : List Char) (t0 a0 : Option FVal) (hok : buf_ok b)
    (hpre : ∀ l ∈ pre, other_line l) (hmid : ∀ l ∈ mid, other_line l)
    (hpost : ∀ l ∈ post, other_line l) (hT : is_digits dT) (hA : is_digits dA)
    (hlT : (value_line memtotal_label (n1 + 1) dT).length + 1 < BUF_SZ)
    (hlA : (value_line active_label (n2 + 1) dA).length + 1 < BUF_SZ)
    (fuel : Nat) (hfuel : pre.length + mid.length + post.length + 3 ≤ fuel) :
    ∃ b1, buf_ok b1 ∧ mem_scan fuel (meminfo_text pre mid post n1 dT n2 dA) ⟨b, t0, a0⟩
      = some ⟨b1, some (to_float (atof dT)), some (to_float (atof dA))⟩ := by
  obtain ⟨k, rfl⟩ : ∃ k, fuel = ((((k + 1 + post.length) + 1) + mid.length) + 1) + pre.length :=
    ⟨fuel - (pre.length + mid.length + post.length + 3), by omega⟩
  obtain ⟨b1, ok1, e1⟩ := mem_scan_others pre hpre _ (value_line memtotal_label (n1 + 1) dT ++ '\n' ::
    (lines_text mid ++ (value_line active_label (n2 + 1) dA ++ '\n' :: lines_text post)))
    ⟨b, t0, a0⟩ hok
  obtain ⟨b2, ok2, e2⟩ := mem_scan_total (((k + 1 + post.length) + 1) + mid.length)
    ⟨b1, t0, a0⟩ n1 dT
    (lines_text mid ++ (value_line active_label (n2 + 1) dA ++ '\n' :: lines_text post)) ok1 hT hlT
  obtain ⟨b3, ok3, e3⟩ := mem_scan_others mid hmid ((k + 1 + post.length) + 1)
    (value_line active_label (n2 + 1) dA ++ '\n' :: lines_text post)
    ⟨b2, some (to_float (atof dT)), a0⟩ ok2
  obtain ⟨b4, ok4, e4⟩ := mem_scan_active (k + 1 + post.length)
    ⟨b3, some (to_float (atof dT)), a0⟩ n2 dA (lines_text post) ok3 hA hlA
  obtain ⟨b5, ok5, e5⟩ := mem_scan_others post hpost (k + 1) []
    ⟨b4, some (to_float (atof dT)), some (to_float (atof dA))⟩ ok4
  refine ⟨b5, ok5, ?_⟩
  rw [List.append_nil] at e5
  unfold meminfo_text
  rw [e1, e2, e3, e4, e5, mem_scan_eof]

/-- The usage report of `hardware_info` for files of the kernel's form, whatever
admissible state the static buffers are in: it is computed from the numbers the
files show. -/
theorem hardware_usage_kernel_form (c1 c2 body1 rest1 body2 rest2 : List Char)
    (pre mid post : List (List Char)) (n1 n2 : Nat) (dT dA : List Char)
    (hc1 : sized c1) (hc2 : buf_ok c2)
    (h1 : stat_line_ok body1) (h2 : stat_line_ok body2)
    (hpre : ∀ l ∈ pre, other_line l) (hmid : ∀ l ∈ mid, other_line l)
    (hpost : ∀ l ∈ post, other_line l) (hT : is_digits dT) (hA : is_digits dA)
    (hlT : (value_line memtotal_label (n1 + 1) dT).length + 1 < BUF_SZ)
    (hlA : (value_line active_label (n2 + 1) dA).length + 1 < BUF_SZ) :
    hardware_usage c1 c2 (body1 ++ '\n' :: rest1) (body2 ++ '\n' :: rest2)
        (meminfo_text pre mid post n1 dT n2 dA)
      = hardware_report (line_sample body1) (line_sample body2)
          (to_float (atof dT)) (to_float (atof dA)) := by
  obtain ⟨d1, -, e1⟩ := hardware_samples_ok c1 body1 rest1 body2 rest2 hc1 h1 h2
  obtain ⟨d2, -, e2⟩ := mem_scan_meminfo_ok pre mid post n1 n2 dT dA c2 none none hc2 hpre hmid
    hpost hT hA hlT hlA _ (meminfo_text_length pre mid post n1 n2 dT dA)
  unfold hardware_usage
  simp only [e1, e2]

/-- What the two functions have in common.  (i) An iteration of `live_info`
that starts with the static line buffers in the same state as `hardware_info`
gives the same CPU percentage, memory percentage, GB figures and gauges, for
every content of `stat` and `meminfo`.  (ii) For contents of the kernel's form
(the `cpu` line first with at least 10 tokens, `MemTotal:` and `Active:` lines
among lines without these labels), every iteration of `live_info`, whatever
admissible state the iterations before left the buffers in, gives the report
that `hardware_info` gives for the same contents from any admissible state, the
state of first use included; and it leaves the buffers in an admissible state
again. -/
theorem live_iteration_matches_hardware :
    (∀ (buf_1 buf_2 stat1 stat2 meminfo : List Char),
      (live_iteration buf_1 buf_2 stat1 stat2 meminfo).map (fun r => r.1)
        = hardware_usage buf_1 buf_2 stat1 stat2 meminfo) ∧
    (∀ (b1 b2 c1 c2 body1 rest1 body2 rest2 : List Char)
      (pre mid post : List (List Char)) (n1 n2 : Nat) (dT dA : List Char),
      sized b1 → buf_ok b2 → sized c1 → buf_ok c2 →
      stat_line_ok body1 → stat_line_ok body2 →
      (∀ l ∈ pre, other_line l) → (∀ l ∈ mid, other_line l) → (∀ l ∈ post, other_line l) →
      is_digits dT → is_digits dA →
      (value_line memtotal_label (n1 + 1) dT).length + 1 < BUF_SZ →
      (value_line active_label (n2 + 1) dA).length + 1 < BUF_SZ →
      ∃ b1' b2', sized b1' ∧ buf_ok b2' ∧
        live_iteration b1 b2 (body1 ++ '\n' :: rest1) (body2 ++ '\n' :: rest2)
            (meminfo_text pre mid post n1 dT n2 dA)
          = (hardware_usage c1 c2 (body1 ++ '\n' :: rest1) (body2 ++ '\n' :: rest2)
              (meminfo_text pre mid post n1 dT n2 dA)).map (fun r => (r, b1', b2')) ∧
        hardware_usage c1 c2 (body1 ++ '\n' :: rest1) (body2 ++ '\n' :: rest2)
            (meminfo_text pre mid post n1 dT n2 dA)
          = hardware_report (line_sample body1) (line_sample body2)
              (to_float (atof dT)) (to_float (atof dA))) := by
  refine ⟨live_iteration_same_state, ?_⟩
  intro b1 b2 c1 c2 body1 rest1 body2 rest2 pre mid post n1 n2 dT dA hb1 hb2 hc1 hc2 h1 h2
    hpre hmid hpost hT hA hlT hlA
  obtain ⟨d1, hd1, e1⟩ := hardware_samples_ok b1 body1 rest1 body2 rest2 hb1 h1 h2
  obtain ⟨d2, hd2, e2⟩ := mem_scan_meminfo_ok pre mid post n1 n2 dT dA b2 none none hb2 hpre hmid
    hpost hT hA hlT hlA _ (meminfo_text_length pre mid post n1 n2 dT dA)
  have hh := hardware_usage_kernel_form c1 c2 body1 rest1 body2 rest2 pre mid post n1 n2 dT dA
    hc1 hc2 h1 h2 hpre hmid hpost hT hA hlT hlA
  refine ⟨d1, d2, hd1, hd2, ?_, hh⟩
  rw [hh]
  unfold live_iteration
  rw [live_samples_eq, live_mem_scan_eq]
  simp only [e1, e2, live_report_eq]

set_option maxRecDepth 1000000 in
theorem live_iteration_matches_hardware_witness :
    sized (List.replicate BUF_SZ NUL) ∧ buf_ok (List.replicate BUF_SZ NUL) ∧
    stat_line_ok "cpu  2255 34 2290 22625563 6290 127 456 0 0 0".toList ∧
    stat_line_ok "cpu  2275 34 2300 22625643 6290 127 456 0 0 0".toList ∧
    (∀ l ∈ ([] : List (List Char)), other_line l) ∧
    (∀ l ∈ ["MemFree:         1000000 kB".toList], other_line l) ∧
    (∀ l ∈ ["Inactive:         2000000 kB".toList], other_line l) ∧
    is_digits "16777216".toList ∧ is_digits "4194304".toList ∧
    (value_line memtotal_label (6 + 1) "16777216".toList).length + 1 < BUF_SZ ∧
    (value_line active_label (10 + 1) "4194304".toList).length + 1 < BUF_SZ ∧
    ∃ b1' b2', sized b1' ∧ buf_ok b2' ∧
      live_iteration (List.replicate BUF_SZ NUL) (List.replicate BUF_SZ NUL)
          ("cpu  2255 34 2290 22625563 6290 127 456 0 0 0".toList ++ '\n' ::
            "cpu0 1132 34 1441 11311718 3675 127 438 0 0 0\n".toList)
          ("cpu  2275 34 2300 22625643 6290 127 456 0 0 0".toList ++ '\n' ::
            "cpu0 1142 34 1446 11311758 3675 127 438 0 0 0\n".toList)
          (meminfo_text [] ["MemFree:         1000000 kB".toList]
            ["Inactive:         2000000 kB".toList] 6 "16777216".toList 10 "4194304".toList)
        = (hardware_usage (List.replicate BUF_SZ NUL) (List.replicate BUF_SZ NUL)
            ("cpu  2255 34 2290 22625563 6290 127 456 0 0 0".toList ++ '\n' ::
              "cpu0 1132 34 1441 11311718 3675 127 438 0 0 0\n".toList)
            ("cpu  2275 34 2300 22625643 6290 127 456 0 0 0".toList ++ '\n' ::
              "cpu0 1142 34 1446 11311758 3675 127 438 0 0 0\n".toList)
            (meminfo_text [] ["MemFree:         1000000 kB".toList]
              ["Inactive:         2000000 kB".toList] 6 "16777216".toList 10
              "4194304".toList)).map (fun r => (r, b1', b2')) ∧
      hardware_usage (List.replicate BUF_SZ NUL) (List.replicate BUF_SZ NUL)
          ("cpu  2255 34 2290 22625563 6290 127 456 0 0 0".toList ++ '\n' ::
            "cpu0 1132 34 1441 11311718 3675 127 438 0 0 0\n".toList)
          ("cpu  2275 34 2300 22625643 6290 127 456 0 0 0".toList ++ '\n' ::
            "cpu0 1142 34 1446 11311758 3675 127 438 0 0 0\n".toList)
          (meminfo_text [] ["MemFree:         1000000 kB".toList]
            ["Inactive:         2000000 kB".toList] 6 "16777216".toList 10 "4194304".toList)
        = hardware_report (line_sample "cpu  2255 34 2290 22625563 6290 127 456 0 0 0".toList)
            (line_sample "cpu  2275 34 2300 22625643 6290 127 456 0 0 0".toList)
            (to_float (atof "16777216".toList)) (to_float (atof "4194304".toList)) :=
  ⟨sized_zero, buf_zero_ok, by decide, by decide, by decide, by decide, by decide, by decide,
    by decide, by decide, by decide,
    live_iteration_matches_hardware.2 (List.replicate BUF_SZ NUL) (List.replicate BUF_SZ NUL)
      (List.replicate BUF_SZ NUL) (List.replicate BUF_SZ NUL) _ _ _ _ [] _ _ 6 10 _ _
      sized_zero buf_zero_ok sized_zero buf_zero_ok (by decide) (by decide) (by decide)
      (by decide) (by decide) (by decide) (by decide) (by decide) (by decide)⟩

set_option maxRecDepth 1000000 in
/-- Two iterations of `live_info` in a row on the files of a running system:
the second one starts with the buffers as the first one left them, and both
print what `hardware_info` prints for the same contents. -/
theorem live_iteration_example :
    (hardware_usage (List.replicate BUF_SZ NUL) (List.replicate BUF_SZ NUL)
        "cpu  2275 34 2300 22625643 6290 127 456 0 0 0\ncpu0 1 2 3 4 5 6 7 8 9 10\n".toList
        "cpu  2295 34 2310 22625723 6290 127 456 0 0 0\ncpu0 1 2 3 4 5 6 7 8 9 10\n".toList
        "MemTotal:       16777216 kB\nMemFree:   900000 kB\nActive:   8388608 kB\n".toList).map
        (fun r => (String.mk r.cpu_gauge, String.mk (fmt_f1 r.c_usage), String.mk r.mem_gauge,
          String.mk (fmt_f1 r.mem.mem_usage)))
      = some ("#####---------------", "27.3", "##########----------", "50.0") ∧
    ((live_iteration (List.replicate BUF_SZ NUL) (List.replicate BUF_SZ NUL)
        "cpu  2255 34 2290 22625563 6290 127 456 0 0 0\ncpu0 1 2 3 4 5 6 7 8 9 10\n".toList
        "cpu  2275 34 2300 22625643 6290 127 456 0 0 0\ncpu0 1 2 3 4 5 6 7 8 9 10\n".toList
        "MemTotal:       16777216 kB\nMemFree:  1000000 kB\nActive:   4194304 kB\n".toList).bind
      (fun r1 => live_iteration r1.2.1 r1.2.2
        "cpu  2275 34 2300 22625643 6290 127 456 0 0 0\ncpu0 1 2 3 4 5 6 7 8 9 10\n".toList
        "cpu  2295 34 2310 22625723 6290 127 456 0 0 0\ncpu0 1 2 3 4 5 6 7 8 9 10\n".toList
        "MemTotal:       16777216 kB\nMemFree:   900000 kB\nActive:   8388608 kB\n".toList)).map
        (fun r => (String.mk r.1.cpu_gauge, String.mk (fmt_f1 r.1.c_usage),
          String.mk r.1.mem_gauge, String.mk (fmt_f1 r.1.mem.mem_usage)))
      = some ("#####---------------", "27.3", "##########----------", "50.0") := by
  decide!

set_option maxRecDepth 1000000 in
/-- C21.  A `stat` file with four counters on its `cpu` line.  The first
iteration of `live_info` reads `cpu  2255 34 2290 22625563` and
`cpu  2275 34 2300 22625643`; the second reads the shorter lines
`cpu  10 20 300 9990` and `cpu  10 20 310 10080`.  For these two lines
`hardware_info` takes the samples (total 10320, idle 9990) and (10420, 10080)
and prints 10.0% with 2 segments.  In the second iteration of `live_info` the
token loop runs on into the digits that the longer lines of the first iteration
left in the buffer: the samples are (635963, 9990) and (36063, 10080), and it
prints 100.0% with all 20 segments.  The memory figures are the same. -/
theorem live_iteration_reads_stale_tokens :
    (hardware_samples (List.replicate BUF_SZ NUL)
        "cpu  10 20 300 9990\n".toList "cpu  10 20 310 10080\n".toList).map
        (fun r => (r.1, r.2.1))
      = some (⟨10320, 9990⟩, ⟨10420, 10080⟩) ∧
    (hardware_usage (List.replicate BUF_SZ NUL) (List.replicate BUF_SZ NUL)
        "cpu  10 20 300 9990\n".toList "cpu  10 20 310 10080\n".toList
        "MemTotal:       16777216 kB\nMemFree:  1000000 kB\nActive:   4194304 kB\n".toList).map
        (fun r => (String.mk r.cpu_gauge, String.mk (fmt_f1 r.c_usage), String.mk r.mem_gauge,
          String.mk (fmt_f1 r.mem.mem_usage)))
      = some ("##------------------", "10.0", "#####---------------", "25.0") ∧
    ((live_iteration (List.replicate BUF_SZ NUL) (List.replicate BUF_SZ NUL)
        "cpu  2255 34 2290 22625563\n".toList "cpu  2275 34 2300 22625643\n".toList
        "MemTotal:       16777216 kB\nMemFree:  1000000 kB\nActive:   4194304 kB\n".toList).bind
      (fun r1 => live_samples r1.2.1
        "cpu  10 20 300 9990\n".toList "cpu  10 20 310 10080\n".toList)).map
        (fun r => (r.1, r.2.1))
      = some (⟨635963, 9990⟩, ⟨36063, 10080⟩) ∧
    ((live_iteration (List.replicate BUF_SZ NUL) (List.replicate BUF_SZ NUL)
        "cpu  2255 34 2290 22625563\n".toList "cpu  2275 34 2300 22625643\n".toList
        "MemTotal:       16777216 kB\nMemFree:  1000000 kB\nActive:   4194304 kB\n".toList).bind
      (fun r1 => live_iteration r1.2.1 r1.2.2
        "cpu  10 20 300 9990\n".toList "cpu  10 20 310 10080\n".toList
        "MemTotal:       16777216 kB\nMemFree:  1000000 kB\nActive:   4194304 kB\n".toList)).map
        (fun r => (String.mk r.1.cpu_gauge, String.mk (fmt_f1 r.1.c_usage),
          String.mk r.1.mem_gauge, String.mk (fmt_f1 r.1.mem.mem_usage)))
      = some ("####################", "100.0", "#####---------------", "25.0") := by
  decide!

/-! ## The gauge for every count -/

theorem gauge_loop_full : ∀ (n : Nat) (c : Int), n ≤ 20 → -2147483648 ≤ c → c ≤ 2147483647 →
    (c < 0 ∨ (n : Int) ≤ c) → gauge_loop n c = List.replicate n '#' := by
  intro n
  induction n with
  | zero => intro c _ _ _ _; rfl
  | succ n ih =>
    intro c hn h0 h1 hc
    have hne : c ≠ 0 := by
      rcases hc with h | h
      · omega
      · push_cast at h; omega
    rw [gauge_loop, if_pos hne, List.replicate_succ]
    congr 1
    by_cases hmin : c = -2147483648
    · have e : isub c 1 = 2147483647 := by rw [hmin]; decide
      rw [e]
      exact ih _ (by omega) (by omega) (by omega) (Or.inr (by omega))
    · have e : isub c 1 = c - 1 := wrap32_of_range (by omega) (by omega)
      rw [e]
      refine ih _ (by omega) (by omega) (by omega) ?_
      rcases hc with h | h
      · exact Or.inl (by omega)
      · push_cast at h
        exact Or.inr (by omega)

theorem gauge_loop_count (c : Int) (h0 : -2147483648 ≤ c) (h1 : c ≤ 2147483647) :
    gauge_loop 20 c = List.replicate (if 0 ≤ c ∧ c ≤ 20 then c.toNat else 20) '#'
      ++ List.replicate (20 - (if 0 ≤ c ∧ c ≤ 20 then c.toNat else 20)) '-' := by
  by_cases h : 0 ≤ c ∧ c ≤ 20
  · rw [if_pos h]
    obtain ⟨k, hk⟩ := Int.eq_ofNat_of_zero_le h.1
    rw [hk] at h ⊢
    rw [gauge_loop_fill 20 k (by omega), Int.toNat_ofNat, Nat.min_eq_right (by omega)]
  · rw [if_neg h]
    rw [gauge_loop_full 20 c (by omega) h0 h1 (by
      by_cases hneg : c < 0
      · exact Or.inl hneg
      · exact Or.inr (by push_cast; omega))]
    simp

/-- C24.  For every `int` count `c`, negative ones and ones above 20 included,
each gauge loop (of `hardware_info` and of `live_info`) prints exactly 20
characters, `#` first and `-` after; the number of `#` is `c` when
`0 <= c <= 20` and 20 otherwise. -/
theorem gauge_for_every_count (c : Int) (h0 : -2147483648 ≤ c) (h1 : c ≤ 2147483647) :
    gauge c = List.replicate (if 0 ≤ c ∧ c ≤ 20 then c.toNat else 20) '#'
      ++ List.replicate (20 - (if 0 ≤ c ∧ c ≤ 20 then c.toNat else 20)) '-' ∧
    live_gauge_loop 20 c = List.replicate (if 0 ≤ c ∧ c ≤ 20 then c.toNat else 20) '#'
      ++ List.replicate (20 - (if 0 ≤ c ∧ c ≤ 20 then c.toNat else 20)) '-' ∧
    (gauge c).length = 20 ∧ (live_gauge_loop 20 c).length = 20 := by
  have hg := gauge_loop_count c h0 h1
  have hf : (if 0 ≤ c ∧ c ≤ 20 then c.toNat else 20) ≤ 20 := by
    split
    · omega
    · omega
  generalize (if 0 ≤ c ∧ c ≤ 20 then c.toNat else 20) = f at hg hf ⊢
  refine ⟨hg, by rw [live_gauge_loop_eq, hg], ?_, ?_⟩
  · unfold gauge
    rw [hg]
    simp only [List.length_append, List.length_replicate]
    omega
  · rw [live_gauge_loop_eq, hg]
    simp only [List.length_append, List.length_replicate]
    omega

theorem gauge_for_every_count_witness :
    (-2147483648 : Int) ≤ -3 ∧ (-3 : Int) ≤ 2147483647 ∧
    gauge (-3) = List.replicate 20 '#' ∧ live_gauge_loop 20 (-3) = List.replicate 20 '#' ∧
    (gauge (-3)).length = 20 ∧ (live_gauge_loop 20 (-3)).length = 20 :=
  ⟨by decide, by decide, gauge_for_every_count (-3) (by decide) (by decide)⟩

/-- Three counts in full: a negative count and a count above 20 fill the gauge,
a count of 7 gives 7 filled segments. -/
theorem gauge_examples :
    gauge (-1) = "####################".toList ∧ gauge 25 = "####################".toList ∧
    gauge 7 = "#######-------------".toList ∧ gauge 0 = "--------------------".toList := by
  decide

/-! ## The count of tasks and the rows of the table -/

theorem filter_split_length {α : Type} (p q : α → Bool) : ∀ l : List α,
    (l.filter p).length
      = (l.filter (fun x => q x && p x)).length + (l.filter (fun x => !q x && p x)).length := by
  intro l
  induction l with
  | nil => rfl
  | cons a l ih =>
    simp only [List.filter_cons]
    cases hp : p a <;> cases hq : q a <;> simp [ih] <;> omega

/-- The rows of the table and the number in the banner: whenever the rows are
defined there is one row more than counted for every entry whose `status` file
can be opened although `atoi` turns its name into 0. -/
theorem rows_and_tasks_count (es : List (DirEntry × TaskLocals)) (buf : List Char)
    (rows : List (List Char)) (hlen : (es.length : Int) < 2147483648)
    (hr : task_rows es buf = some rows) :
    (rows.length : Int) = tasks_count (es.map (fun e => e.1)) 0 +
      ((es.filter (fun e => !decide (atoi e.1.d_name ≠ 0) && e.1.status.isSome)).length : Nat) := by
  have hl := task_rows_openable es buf rows hr
  rw [tasks_count_eq _ 0 (le_refl _) (by simpa using hlen), hl,
    filter_split_length (fun e => e.1.status.isSome) (fun e => decide (atoi e.1.d_name ≠ 0)) es,
    List.filter_map, List.length_map]
  push_cast
  simp only [zero_add]
  rfl

set_option maxRecDepth 1000000 in
/-- C23.  A snapshot of a proc directory with the entries `.`, `..`, `1`,
`self`, `thread-self` and `uptime`, the same for both loops: the banner reads
`Tasks Running: 1`, and the table has three rows, for `1`, `self` and
`thread-self`. -/
theorem tasks_running_differs_from_rows :
    tasks_running_text
      [⟨".".toList, none, none⟩, ⟨"..".toList, none, none⟩,
        ⟨"1".toList, some "Name:\tsystemd\nState:\tS (sleeping)\nPid:\t1\nThreads:\t1\n".toList,
          some "root".toList⟩,
        ⟨"self".toList,
          some "Name:\tinspector\nState:\tR (running)\nPid:\t812\nThreads:\t1\n".toList,
          some "ada".toList⟩,
        ⟨"thread-self".toList,
          some "Name:\tinspector\nState:\tR (running)\nPid:\t812\nThreads:\t1\n".toList,
          some "ada".toList⟩,
        ⟨"uptime".toList, none, none⟩] = "Tasks Running: 1\n\n".toList ∧
    task_rows
      [(⟨".".toList, none, none⟩, zero_locals), (⟨"..".toList, none, none⟩, zero_locals),
        (⟨"1".toList, some "Name:\tsystemd\nState:\tS (sleeping)\nPid:\t1\nThreads:\t1\n".toList,
          some "root".toList⟩, zero_locals),
        (⟨"self".toList,
          some "Name:\tinspector\nState:\tR (running)\nPid:\t812\nThreads:\t1\n".toList,
          some "ada".toList⟩, zero_locals),
        (⟨"thread-self".toList,
          some "Name:\tinspector\nState:\tR (running)\nPid:\t812\nThreads:\t1\n".toList,
          some "ada".toList⟩, zero_locals),
        (⟨"uptime".toList, none, none⟩, zero_locals)]
      (List.replicate BUF_SZ NUL)
      = some ["    1 |     sleeping |                   systemd |            root |     1 \n".toList,
          "  812 |      running |                 inspector |             ada |     1 \n".toList,
          "  812 |      running |                 inspector |             ada |     1 \n".toList] := by
  decide!

/-! ## The two load-average lines -/

theorem hardware_load_loop_tokens : ∀ (fuel : Nat) (st : TokState) (k : Nat)
    (r : List (List Char) × TokState), token_loop fuel st [' '] = some r →
    hardware_load_loop fuel st k = some ((r.1.take (3 - k)).flatten, r.2) := by
  intro fuel
  induction fuel with
  | zero => intro st k r h; exact absurd h (by simp [token_loop])
  | succ fuel ih =>
    intro st k r h
    rw [token_loop] at h
    rw [hardware_load_loop]
    rcases hnt : next_token st [' '] with ⟨_ | p, st1⟩
    · rw [hnt] at h
      simp only [Option.some.injEq] at h
      subst h
      simp
    · rw [hnt] at h
      simp only at h ⊢
      rcases htl : token_loop fuel st1 [' '] with _ | ⟨ts, st2⟩
      · rw [htl] at h; exact absurd h (by simp)
      · rw [htl] at h
        simp only [Option.some.injEq] at h
        subst h
        rw [ih st1 (k + 1) (ts, st2) htl]
        simp only
        by_cases hk : k < 3
        · rw [if_pos hk]
          have e : 3 - k = (3 - (k + 1)) + 1 := by omega
          rw [e, List.take_succ_cons, List.flatten_cons]
        · rw [if_neg hk]
          have e1 : 3 - k = 0 := by omega
          have e2 : 3 - (k + 1) = 0 := by omega
          rw [e1, e2]
          simp

theorem live_load_loop_tokens : ∀ (fuel : Nat) (st : TokState) (k : Nat)
    (r : List (List Char) × TokState), token_loop fuel st [' '] = some r →
    ∃ st', live_load_loop fuel st k
      = some (((r.1.take (3 - k)).map (fun t => t ++ [' '])).flatten, st') := by
  intro fuel
  induction fuel with
  | zero => intro st k r h; exact absurd h (by simp [token_loop])
  | succ fuel ih =>
    intro st k r h
    rw [token_loop] at h
    rw [live_load_loop]
    rcases hnt : next_token st [' '] with ⟨_ | p, st1⟩
    · rw [hnt] at h
      simp only [Option.some.injEq] at h
      subst h
      exact ⟨st1, by simp⟩
    · rw [hnt] at h
      simp only at h ⊢
      rcases htl : token_loop fuel st1 [' '] with _ | ⟨ts, st2⟩
      · rw [htl] at h; exact absurd h (by simp)
      · rw [htl] at h
        simp only [Option.some.injEq] at h
        subst h
        by_cases hk : k < 3
        · rw [if_pos hk]
          obtain ⟨st', hst'⟩ := ih st1 (k + 1) (ts, st2) htl
          rw [hst']
          refine ⟨st', ?_⟩
          have e : 3 - k = (3 - (k + 1)) + 1 := by omega
          simp only
          rw [e, List.take_succ_cons, List.map_cons, List.flatten_cons]
        · rw [if_neg hk]
          have e1 : 3 - k = 0 := by omega
          rw [e1]
          exact ⟨st1, by simp⟩

theorem read_file_one_line_buf (b body : List Char) (hb : b.length = BUF_SZ)
    (hn : '\n' ∉ body) (hz : NUL ∉ body) (hlen : body.length + 2 < BUF_SZ) :
    ∃ x t, read_file b (some (body ++ ['\n'])) = some (body ++ ' ' :: x :: NUL :: t) := by
  have hrl := read_line_spec BUF_SZ body [] b hn hz (by omega) (by omega)
  obtain ⟨x, y, t, hd⟩ : ∃ x y t, b.drop (body.length + 1) = x :: y :: t := by
    have hl : (b.drop (body.length + 1)).length = BUF_SZ - (body.length + 1) := by
      rw [List.length_drop, hb]
    rcases hdr : b.drop (body.length + 1) with _ | ⟨x, _ | ⟨y, t⟩⟩
    · rw [hdr] at hl; simp at hl; omega
    · rw [hdr] at hl; simp at hl; omega
    · exact ⟨x, y, t, rfl⟩
  have hset : (body ++ '\n' :: x :: y :: t).set (body.length + 1 + 1) NUL
      = body ++ '\n' :: x :: NUL :: t := by
    rw [List.set_append_right _ _ (by omega)]
    have : body.length + 1 + 1 - body.length = 2 := by omega
    rw [this]
    rfl
  have hcs : strcspn (body ++ '\n' :: x :: NUL :: t) ['\n'] = body.length :=
    strcspn_eq (by decide) (fun c hc h => hn (by
      have : c = '\n' := by simpa using h
      exact this ▸ hc)) hz '\n' (Or.inr (by decide)) _
  have hterm : terminate_line (body ++ '\n' :: x :: y :: t) (body.length + 1)
      = body ++ ' ' :: x :: NUL :: t := by
    unfold terminate_line
    rw [hset, hcs, List.set_append_right _ _ (by omega), Nat.sub_self]
    rfl
  refine ⟨x, t, ?_⟩
  unfold read_file
  simp only [List.length_append, List.length_singleton]
  rw [read_file_loop, hrl]
  simp only
  rw [if_neg (by omega), hd, hterm, read_file_loop, read_line_eof]
  simp

/-- The two load-average lines for a `loadavg` of one line with at least three
tokens `t1`, `t2`, `t3`, whatever the static buffer of `read_file` held:
`hardware_info` prints the three tokens with nothing between them, `live_info`
prints each of them followed by a blank. -/
theorem load_texts (b body t1 t2 t3 : List Char) (more : List (List Char))
    (hb : b.length = BUF_SZ) (hn : '\n' ∉ body) (hz : NUL ∉ body)
    (hlen : body.length + 2 < BUF_SZ)
    (ht : splitTokens [' '] body = t1 :: t2 :: t3 :: more) :
    hardware_load_text b (some (body ++ ['\n'])) = some (t1 ++ (t2 ++ (t3 ++ ['\n']))) ∧
    live_load_text b (some (body ++ ['\n']))
      = some (t1 ++ ' ' :: (t2 ++ ' ' :: (t3 ++ [' ', '\n']))) := by
  obtain ⟨x, t, hrf⟩ := read_file_one_line_buf b body hb hn hz hlen
  have hmem : NUL ∈ body ++ ' ' :: x :: NUL :: t := by simp
  obtain ⟨b1, htok, -⟩ := tokenize_spec hmem (by decide : NUL ∉ [' '])
  have hsplit : splitTokens [' '] (cstr (body ++ ' ' :: x :: NUL :: t))
      = t1 :: t2 :: t3 :: (more ++ splitTokens [' '] (cstr (x :: NUL :: t))) := by
    rw [cstr_append hz]
    have hc : cstr (' ' :: x :: NUL :: t) = ' ' :: cstr (x :: NUL :: t) := by
      unfold cstr
      rw [List.takeWhile_cons_of_pos (by decide)]
    rw [hc, splitTokens_append_delim _ _ (by decide), ht]
    rfl
  obtain ⟨r, hr, hr1⟩ : ∃ r, token_loop ((body ++ ' ' :: x :: NUL :: t).length + 1)
      ⟨body ++ ' ' :: x :: NUL :: t, some 0⟩ [' '] = some r ∧
      r.1 = t1 :: t2 :: t3 :: (more ++ splitTokens [' '] (cstr (x :: NUL :: t))) := by
    unfold tokenize at htok
    rcases htl : token_loop ((body ++ ' ' :: x :: NUL :: t).length + 1)
      ⟨body ++ ' ' :: x :: NUL :: t, some 0⟩ [' '] with _ | r
    · rw [htl] at htok; exact absurd htok (by simp)
    · rw [htl] at htok
      simp only [Option.map_some', Option.some.injEq, Prod.mk.injEq] at htok
      exact ⟨r, rfl, by rw [htok.1, hsplit]⟩
  constructor
  · unfold hardware_load_text
    rw [hrf]
    simp only
    rw [hardware_load_loop_tokens _ _ 0 r hr, hr1]
    simp
  · unfold live_load_text
    rw [hrf]
    simp only
    obtain ⟨st', hst'⟩ := live_load_loop_tokens _ _ 0 r hr
    rw [hst', hr1]
    simp

set_option maxRecDepth 1000000 in
/-- C22.  For the `loadavg` content `0.00 0.01 0.05 1/234 5678`,
`hardware_info` prints `0.000.010.05`, the three values run together, while an
iteration of `live_info` prints `0.00 0.01 0.05 `. -/
theorem load_average_run_together :
    hardware_load_text (List.replicate BUF_SZ NUL) (some "0.00 0.01 0.05 1/234 5678\n".toList)
      = some "0.000.010.05\n".toList ∧
    live_load_text (List.replicate BUF_SZ NUL) (some "0.00 0.01 0.05 1/234 5678\n".toList)
      = some "0.00 0.01 0.05 \n".toList := by
  decide!

end Inspector
